import Mathlib

/-!
Verification of the deep_research_app citation pipeline and run lifecycle.

A shallow embedding of `deep_research_app` (citations.py, deep_research.py,
storage.py, workflow.py, models.py, config.py).  Text is modelled as `List Char`;
Python regular-expression passes are modelled as explicit character scanners that
reproduce the leftmost-match / backtracking behaviour of the concrete patterns
used by the source.  Remote API calls, the clock and redirect resolution are
modelled as oracles supplied as parameters.
-/

set_option maxRecDepth 10000

/-- Text is a list of characters (the shallow embedding of Python `str`). -/
abbrev Str := List Char

/-- Python `\d` on ASCII input. -/
def isDigitC (c : Char) : Bool := 48 ≤ c.toNat && c.toNat ≤ 57

/-- Python `\s` on ASCII input: space, tab, newline, carriage return,
vertical tab, form feed. -/
def isSpaceC (c : Char) : Bool :=
  c = ' ' || c = '\t' || c = '\n' || c = '\r' || c = '\x0b' || c = '\x0c'

/-- Case-insensitive character match for `re.IGNORECASE` on ASCII patterns:
`p` is a lowercase pattern character, `c` matches if it equals `p` or is the
uppercase counterpart of a lowercase letter `p`. -/
def ciChar (p c : Char) : Bool :=
  c = p || (97 ≤ p.toNat && p.toNat ≤ 122 && c.toNat + 32 = p.toNat)

/-- Match a literal pattern case-insensitively at the head of the input,
returning the rest of the input. -/
def matchCI : Str → Str → Option Str
  | [], s => some s
  | _, [] => none
  | p :: ps, c :: cs => if ciChar p c = true then matchCI ps cs else none

/-- Match a literal pattern case-sensitively at the head of the input. -/
def stripLit : Str → Str → Option Str
  | [], s => some s
  | _, [] => none
  | p :: ps, c :: cs => if c = p then stripLit ps cs else none

/-- Association-list lookup (Python `dict` access). -/
def alLookup {κ α : Type} [DecidableEq κ] : List (κ × α) → κ → Option α
  | [], _ => none
  | (k', v) :: rest, k => if k' = k then some v else alLookup rest k

/-- Association-list insert with Python `dict` semantics: an existing key keeps
its position and gets the new value, a new key is appended at the end. -/
def alUpsert {κ α : Type} [DecidableEq κ] : List (κ × α) → κ → α → List (κ × α)
  | [], k, v => [(k, v)]
  | (k', v') :: rest, k, v =>
      if k' = k then (k, v) :: rest else (k', v') :: alUpsert rest k v

/-- Value of a digit string, Python `int(s)` for strings of ASCII digits. -/
def natOfDigits (s : Str) : Nat :=
  s.foldl (fun a c => a * 10 + (c.toNat - 48)) 0

/-- Python `str.strip()` (ASCII whitespace). -/
def stripWs (s : Str) : Str :=
  ((s.dropWhile isSpaceC).reverse.dropWhile isSpaceC).reverse

/-- Python `str.rstrip()` (ASCII whitespace). -/
def rstripWs (s : Str) : Str :=
  (s.reverse.dropWhile isSpaceC).reverse

/-- Python `sep.join(xs)`. -/
def joinSep (sep : Str) : List Str → Str
  | [] => []
  | [x] => x
  | x :: y :: rest => x ++ sep ++ joinSep sep (y :: rest)

/-- Python `s.split(",")`. -/
def splitOnComma : Str → List Str
  | [] => [[]]
  | c :: cs =>
      if c = ',' then [] :: splitOnComma cs
      else
        match splitOnComma cs with
        | h :: t => (c :: h) :: t
        | [] => [[c]]

/-- Python `needle in hay` (substring test). -/
def containsSub (needle hay : Str) : Bool :=
  match hay with
  | [] => (stripLit needle []).isSome
  | _ :: rest =>
      (stripLit needle hay).isSome || containsSub needle rest

/-- Generic model of a `re.sub` loop: scan left to right; when `try?` matches
at the current position it returns the replacement text and the input remaining
after the match, and scanning resumes there; otherwise one character is copied
and scanning advances by one.  `fuel` bounds the recursion; every caller passes
at least the length of the input, which suffices whenever `try?` consumes at
least one character on success. -/
def scanRewrite (try? : Str → Option (Str × Str)) : Nat → Str → Str
  | 0, s => s
  | _ + 1, [] => []
  | fuel + 1, c :: cs =>
      match try? (c :: cs) with
      | some (rep, rest) => rep ++ scanRewrite try? fuel rest
      | none => c :: scanRewrite try? fuel cs

/-- Generic model of a `re.finditer` loop, collecting one value per match. -/
def scanCollect {α : Type} (try? : Str → Option (α × Str)) : Nat → Str → List α
  | 0, _ => []
  | _ + 1, [] => []
  | fuel + 1, c :: cs =>
      match try? (c :: cs) with
      | some (a, rest) => a :: scanCollect try? fuel rest
      | none => scanCollect try? fuel cs

/-- `try?` consumes at least one character whenever it matches. -/
def Shrinking (try? : Str → Option (Str × Str)) : Prop :=
  ∀ s r rest, try? s = some (r, rest) → rest.length < s.length

/-- `try?` consumes at least one character whenever it matches (collector form). -/
def ShrinkingC {α : Type} (try? : Str → Option (α × Str)) : Prop :=
  ∀ s a rest, try? s = some (a, rest) → rest.length < s.length

/-! ## citations.py — data model -/

/-- `SourceInfo` from citations.py: one bibliography entry. -/
structure SourceInfo where
  title : Str
  url : Str
  final_url : Option Str := none
deriving DecidableEq, Repr

/-- `ProcessedReport` from citations.py. -/
structure ProcessedReport where
  text : Str
  sources : List (Str × SourceInfo)
  errors : List Str
deriving DecidableEq, Repr

/-- Python `src.final_url or src.url` (empty string is falsy). -/
def finalOrUrl (si : SourceInfo) : Str :=
  match si.final_url with
  | some f => if f.isEmpty then si.url else f
  | none => si.url

/-! ## citations.py — parse_sources

Models `re.search(r"(?:^|\n)(?:\*\*Sources:\*\*|## Sources|Sources:)\s*\n
([\s\S]*?)(?:\n##|\n\*\*[A-Z]|\Z)", text, re.IGNORECASE)` followed by
`re.finditer(r"(\d+)\.\s*\[([^\]]+)\]\(([^)]+)\)", group1)`. -/

/-- The three header alternatives, tried in the pattern's order.  At any given
position at most one alternative can begin to match (their first characters
differ), so failure of `\s*\n` after one alternative fails the position. -/
def matchHeader (s : Str) : Option Str :=
  match matchCI "**sources:**".data s with
  | some r => some r
  | none =>
      match matchCI "## sources".data s with
      | some r => some r
      | none => matchCI "sources:".data s

/-- Suffix after the last newline of a string, if it contains one. -/
def lastAfterNewline : Str → Option Str
  | [] => none
  | c :: cs =>
      match lastAfterNewline cs with
      | some a => some a
      | none => if c = '\n' then some cs else none

/-- `\s*\n` with greedy backtracking: succeed iff the maximal whitespace run
contains a newline, and resume after the last newline of that run. -/
def wsThenNewline (s : Str) : Option Str :=
  match lastAfterNewline (s.takeWhile isSpaceC) with
  | none => none
  | some after => some (after ++ s.dropWhile isSpaceC)

/-- ASCII letter test: `[A-Z]` under `re.IGNORECASE`. -/
def isLetterAZ (c : Char) : Bool :=
  (65 ≤ c.toNat && c.toNat ≤ 90) || (97 ≤ c.toNat && c.toNat ≤ 122)

/-- The lazy group's terminator `(?:\n##|\n\*\*[A-Z]|\Z)`; under
`re.IGNORECASE` the class `[A-Z]` also matches lowercase ASCII letters. -/
def termAt : Str → Bool
  | [] => true
  | c :: cs =>
      c = '\n' &&
        ((stripLit "##".data cs).isSome ||
          (match stripLit "**".data cs with
           | some (c3 :: _) => isLetterAZ c3
           | _ => false))

/-- Lazy `([\s\S]*?)` before the terminator: the shortest prefix whose end
satisfies `termAt`. -/
def takeUntilTerm : Str → Str
  | [] => []
  | c :: cs => if termAt (c :: cs) then [] else c :: takeUntilTerm cs

/-- Attempt the sources-section pattern with the header starting exactly here,
returning the content group. -/
def tryHeaderAt (s : Str) : Option Str :=
  match matchHeader s with
  | none => none
  | some rest =>
      match wsThenNewline rest with
      | none => none
      | some t => some (takeUntilTerm t)

/-- Leftmost search for `\n` + header (the `(?:^|\n)` newline branch). -/
def findSectionAux : Str → Option Str
  | [] => none
  | c :: cs =>
      if c = '\n' then
        match tryHeaderAt cs with
        | some g => some g
        | none => findSectionAux cs
      else findSectionAux cs

/-- Leftmost search for the sources-section pattern (`^` branch first). -/
def findSection (s : Str) : Option Str :=
  match tryHeaderAt s with
  | some g => some g
  | none => findSectionAux s

/-- One attempt of the entry pattern `(\d+)\.\s*\[([^\]]+)\]\(([^)]+)\)`
anchored at the start of `s`, returning ((num, title, url), rest). -/
def tryEntry (s : Str) : Option ((Str × Str × Str) × Str) :=
  let num := s.takeWhile isDigitC
  if num.isEmpty then none else
  match s.dropWhile isDigitC with
  | '.' :: r1 =>
      match r1.dropWhile isSpaceC with
      | '[' :: r3 =>
          let title := r3.takeWhile (fun c => c != ']')
          if title.isEmpty then none else
          match r3.dropWhile (fun c => c != ']') with
          | ']' :: '(' :: r4 =>
              let url := r4.takeWhile (fun c => c != ')')
              if url.isEmpty then none else
              match r4.dropWhile (fun c => c != ')') with
              | ')' :: r5 => some ((num, title, url), r5)
              | _ => none
          | _ => none
      | _ => none
  | _ => none

/-- All entry matches of the sources block, in order. -/
def entriesOf (g : Str) : List (Str × Str × Str) :=
  scanCollect tryEntry g.length g

/-- `sources[num] = SourceInfo(title=title, url=url)` over all matches:
a repeated ordinal keeps its dict position and takes the last value. -/
def dictOfEntries (es : List (Str × Str × Str)) : List (Str × SourceInfo) :=
  es.foldl (fun d e => alUpsert d e.1 ⟨e.2.1, e.2.2, none⟩) []

/-- `parse_sources` from citations.py. -/
def parse_sources (report_text : Str) : List (Str × SourceInfo) :=
  match findSection report_text with
  | none => []
  | some g => dictOfEntries (entriesOf g)

/-! ## citations.py — normalize_inline_citations -/

/-- The class `[\d,\s]`. -/
def citeClass (c : Char) : Bool := isDigitC c || c = ',' || isSpaceC c

/-- Group 1 of `\[cite:\s*([\d,\s]+)\]`: greedy `\s*` takes the maximal
whitespace prefix of the class run, backtracking one character when the whole
run is whitespace so that the group stays nonempty. -/
def citeGroup (run : Str) : Str :=
  let g := run.dropWhile isSpaceC
  if g.isEmpty then
    match run.getLast? with
    | some c => [c]
    | none => []
  else g

/-- One ordinal's replacement inside `replace_cite`: a markdown link when the
ordinal has a source, the bare `[N]` text otherwise. -/
def linkOrBare (sources : List (Str × SourceInfo)) (n : Str) : Str :=
  match alLookup sources n with
  | some si => '[' :: n ++ "](".data ++ finalOrUrl si ++ [')']
  | none => '[' :: n ++ [']']

/-- The `replace_cite` callback: split on commas, strip, link each ordinal
that has a source, keep `[N]` for the rest, comma-join. -/
def citeReplace (sources : List (Str × SourceInfo)) (run : Str) : Str :=
  joinSep ", ".data (((splitOnComma (citeGroup run)).map stripWs).map
    (linkOrBare sources))

/-- One attempt of `\[cite:\s*([\d,\s]+)\]` anchored at the start of `s`. -/
def trySubCite (sources : List (Str × SourceInfo)) (s : Str) : Option (Str × Str) :=
  match stripLit "[cite:".data s with
  | none => none
  | some r =>
      let run := r.takeWhile citeClass
      if run.isEmpty then none else
      match r.dropWhile citeClass with
      | ']' :: rest => some (citeReplace sources run, rest)
      | _ => none

/-- Body of the bare-citation pattern after the opening bracket. -/
def trySubBareTail (sources : List (Str × SourceInfo)) (r : Str) : Option (Str × Str) :=
  let num := r.takeWhile isDigitC
      if num.isEmpty then none else
      match r.dropWhile isDigitC with
      | ']' :: rest =>
          if rest.head? = some '(' then none
          else
            match alLookup sources num with
            | some si => some ('[' :: num ++ "](".data ++ finalOrUrl si ++ [')'], rest)
            | none => some ('[' :: num ++ [']'], rest)
      | _ => none

/-- One attempt of `\[(\d+)\](?!\()` with the `replace_bare` callback. -/
def trySubBare (sources : List (Str × SourceInfo)) (s : Str) : Option (Str × Str) :=
  match s with
  | [] => none
  | c :: r =>
      if c = '[' then trySubBareTail sources r else none

/-- `https?://` after the duplicate URL's opening parenthesis and `http`. -/
def httpTail (r : Str) : Option Str :=
  match stripLit "s://".data r with
  | some r' => some r'
  | none => stripLit "://".data r

/-- Body of the duplicate-URL pattern after the opening bracket. -/
def trySubDupTail (r : Str) : Option (Str × Str) :=
  let num := r.takeWhile isDigitC
      if num.isEmpty then none else
      match r.dropWhile isDigitC with
      | ']' :: '(' :: r2 =>
          let u1 := r2.takeWhile (fun c => c != ')')
          if u1.isEmpty then none else
          match r2.dropWhile (fun c => c != ')') with
          | ')' :: r3 =>
              match stripLit "(http".data r3 with
              | none => none
              | some r4 =>
                  match httpTail r4 with
                  | none => none
                  | some r5 =>
                      let u2 := r5.takeWhile (fun c => c != ')')
                      if u2.isEmpty then none else
                      match r5.dropWhile (fun c => c != ')') with
                      | ')' :: rest =>
                          some ('[' :: num ++ "](".data ++ u1 ++ [')'], rest)
                      | _ => none
          | _ => none
      | _ => none

/-- One attempt of `(\[\d+\]\([^)]+\))\(https?://[^)]+\)`, replaced by the
first group. -/
def trySubDup (s : Str) : Option (Str × Str) :=
  match s with
  | [] => none
  | c :: r =>
      if c = '[' then trySubDupTail r else none

/-- `normalize_inline_citations` from citations.py: the three `re.sub`
passes in order. -/
def normalize_inline_citations (text : Str) (sources : List (Str × SourceInfo)) : Str :=
  let t1 := scanRewrite (trySubCite sources) text.length text
  let t2 := scanRewrite (trySubBare sources) t1.length t1
  scanRewrite trySubDup t2.length t2

/-! ## citations.py — rebuild_sources_section and remove_sources_section -/

/-- Stable insertion of `x` into a list sorted by `key` (Python `sorted` is
stable: `x` goes before existing elements with an equal key, because it
originated earlier in the iteration order being sorted). -/
def insertSorted {α : Type} (key : α → Nat) (x : α) : List α → List α
  | [] => [x]
  | y :: ys => if key y < key x then y :: insertSorted key x ys else x :: y :: ys

/-- Stable sort by a numeric key, Python `sorted(l, key=int)`. -/
def sortByNat {α : Type} (key : α → Nat) : List α → List α
  | [] => []
  | x :: xs => insertSorted key x (sortByNat key xs)

/-- `N. [title](final_url or url)`. -/
def sourceEntryLine (p : Str × SourceInfo) : Str :=
  p.1 ++ ". [".data ++ p.2.title ++ "](".data ++ finalOrUrl p.2 ++ [')']

/-- `rebuild_sources_section` from citations.py: `"\n".join(["", "## Sources",
""] ++ entries)` with entries sorted by the ordinal's numeric value. -/
def rebuild_sources_section (sources : List (Str × SourceInfo)) : Str :=
  if sources.isEmpty then [] else
  "\n## Sources\n\n".data ++
    joinSep "\n".data
      ((sortByNat (fun p => natOfDigits p.1) sources).map sourceEntryLine)

/-- Does the pattern `\nHDR\s*\n[\s\S]*$` match with the newline here?
(`[\s\S]*$` always succeeds, so only the header and `\s*\n` matter.) -/
def removeCondAt (hdr : Str) (cs : Str) : Bool :=
  match matchCI hdr cs with
  | none => false
  | some r2 => (lastAfterNewline (r2.takeWhile isSpaceC)).isSome

/-- `re.sub(r"\nHDR\s*\n[\s\S]*$", "", text)`: delete from the leftmost
match position to the end. -/
def removeOne (hdr : Str) : Str → Str
  | [] => []
  | c :: cs =>
      if c = '\n' && removeCondAt hdr cs then []
      else c :: removeOne hdr cs

/-- `remove_sources_section` from citations.py: the three patterns applied in
order, then `rstrip`. -/
def remove_sources_section (text : Str) : Str :=
  rstripWs (removeOne "sources:".data
    (removeOne "## sources".data
      (removeOne "**sources:**".data text)))

/-! ## citations.py — validate_citations -/

/-- One attempt of the reference pattern `\[(\d+)\]` (no lookahead here). -/
def tryRef (s : Str) : Option (Str × Str) :=
  match s with
  | [] => none
  | c :: r =>
      if c = '[' then
        let num := r.takeWhile isDigitC
        if num.isEmpty then none else
        match r.dropWhile isDigitC with
        | ']' :: rest => some (num, rest)
        | _ => none
      else none

/-- The `cite_refs` set: all `[N]` ordinals of the text, deduplicated. -/
def citeRefs (text : Str) : List Str :=
  (scanCollect tryRef text.length text).dedup

/-- Python `f"{l}"` for a list of digit strings: `['1', '2']`. -/
def renderPyList (ks : List Str) : Str :=
  '[' :: joinSep ", ".data (ks.map (fun k => '\'' :: k ++ ['\''])) ++ [']']

/-- `validate_citations` from citations.py. -/
def validate_citations (text : Str) (sources : List (Str × SourceInfo)) : List Str :=
  let refs := citeRefs text
  let missing := refs.filterMap (fun r =>
    if (alLookup sources r).isNone then
      some ("Citation [".data ++ r ++ "] references missing source".data)
    else none)
  let nourl := sources.filterMap (fun p =>
    if p.2.url.isEmpty then some ("Source ".data ++ p.1 ++ " missing URL".data)
    else none)
  let unused := (sources.map Prod.fst).filter (fun k => !(refs.contains k))
  missing ++ nourl ++
    (if unused.isEmpty then []
     else ["Unused sources: ".data ++ renderPyList (sortByNat natOfDigits unused)])

/-! ## citations.py — redirect resolution and process_report -/

/-- `resolve_all_redirects` from citations.py; `resolver` is the oracle for
the `httpx` HEAD request inside `resolve_redirect` (`none` models a raised
exception caught and returned as `None`). -/
def resolve_all_redirects (resolver : Str → Option Str)
    (sources : List (Str × SourceInfo)) : List (Str × SourceInfo) :=
  sources.map (fun p =>
    if containsSub "grounding-api-redirect".data p.2.url then
      match resolver p.2.url with
      | some f =>
          if !f.isEmpty && f ≠ p.2.url then (p.1, { p.2 with final_url := some f })
          else p
      | none => p
    else p)

/-- `process_report` from citations.py. -/
def process_report (resolver : Str → Option Str) (resolve_redirects : Bool)
    (report_text : Str) : ProcessedReport :=
  let sources := parse_sources report_text
  if sources.isEmpty then
    ⟨report_text, [], ["No sources section found".data]⟩
  else
    let sources := if resolve_redirects then resolve_all_redirects resolver sources
                   else sources
    let text := normalize_inline_citations report_text sources
    let text := remove_sources_section text ++ rebuild_sources_section sources
    ⟨text, sources, validate_citations text sources⟩

/-! ## models.py -/

/-- `InteractionStatus` from models.py. -/
inductive InteractionStatus
  | pending
  | running
  | completed
  | failed
  | cancelled
  | interrupted
deriving DecidableEq, Repr

/-- `UsageMetadata` from models.py. -/
structure UsageMetadata where
  prompt_tokens : Nat := 0
  output_tokens : Nat := 0
  total_tokens : Nat := 0
  thinking_tokens : Nat := 0
deriving DecidableEq, Repr

/-- `PollResult` from models.py. -/
structure PollResult where
  interaction_id : Str
  status : InteractionStatus
  final_markdown : Option Str
  error : Option Str := none
  usage : Option UsageMetadata := none
deriving DecidableEq, Repr

/-- `ResearchConstraints` (workflow.py variant used by the orchestrator). -/
structure ResearchConstraints where
  timeframe : Option Str := none
  region : Option Str := none
  max_words : Option Nat := none
  focus_areas : Option (List Str) := none
deriving DecidableEq, Repr

/-- `RunInputs` from models.py. -/
structure RunInputs where
  topic : Str
  constraints : ResearchConstraints
  questions : Option (List Str) := none
deriving DecidableEq, Repr

/-- `ResearchRun` from models.py; `datetime` values are modelled as opaque
strings. -/
structure ResearchRun where
  run_id : Str
  interaction_id : Str
  version : Nat
  prompt_text : Str
  report_markdown : Option Str
  created_at : Str
  feedback : Option Str := none
  previous_interaction_id : Option Str := none
  status : InteractionStatus := .pending
  usage : Option UsageMetadata := none
  inputs : Option RunInputs := none
deriving DecidableEq, Repr

/-- `ResearchRun.create_revision` from models.py; `now` stands for
`datetime.now()`. -/
def ResearchRun.create_revision (r : ResearchRun) (feedback new_prompt now : Str) :
    ResearchRun :=
  { run_id := r.run_id
    interaction_id := []
    version := r.version + 1
    prompt_text := new_prompt
    report_markdown := none
    created_at := now
    feedback := some feedback
    previous_interaction_id := some r.interaction_id
    inputs := r.inputs }

/-! ## config.py -/

/-- `Settings.default_poll_interval` from config.py. -/
def default_poll_interval : ℚ := 10

/-- `Settings.default_poll_timeout` from config.py. -/
def default_poll_timeout : ℚ := 1800

/-- Python `x or d` for an optional float: `None` and `0.0` are falsy. -/
def pyOrQ (x : Option ℚ) (d : ℚ) : ℚ :=
  match x with
  | none => d
  | some v => if v = 0 then d else v

/-! ## deep_research.py — poll_interaction

The remote endpoint, the clock and the delivery of `KeyboardInterrupt` are an
oracle `PollEnv` indexed by the loop iteration.  The result is
`Option (Except PyError PollResult)`: `none` means the fuel bound was reached
before the loop returned, `Except.error` models an uncaught Python exception
propagating to the caller, `Except.ok` a normal return. -/

/-- Outcome of the k-th `self._client.interactions.get(interaction_id)`. -/
inductive GetOutcome
  | ok (status : Str) (lastOutputText : Option Str) (usage : Option UsageMetadata)
  | keyboardInterrupt
  | transportError (msg : Str)
deriving DecidableEq, Repr

/-- Oracle for one run of the polling loop. -/
structure PollEnv where
  get : Nat → GetOutcome
  sleepInterrupted : Nat → Bool
  elapsed : Nat → ℚ

/-- An exception escaping a modelled function. -/
inductive PyError
  | transport (msg : Str)
deriving DecidableEq, Repr

/-- The `while True` body of `DeepResearchClient.poll_interaction`.  The
`try` block covers the status check, the branch dispatch and the sleep; its
only handler is `except KeyboardInterrupt`. -/
def pollLoop (env : PollEnv) (interaction_id : Str) (timeout : ℚ) :
    Nat → Nat → Option (Except PyError PollResult)
  | 0, _ => none
  | fuel + 1, k =>
      match env.get k with
      | .keyboardInterrupt =>
          some (.ok ⟨interaction_id, .interrupted, none,
            some "Interrupted by user".data, none⟩)
      | .transportError m => some (.error (.transport m))
      | .ok st txt usage =>
          if st = "completed".data then
            some (.ok ⟨interaction_id, .completed, txt, none, usage⟩)
          else if st = "failed".data then
            some (.ok ⟨interaction_id, .failed, none,
              some "Interaction failed".data, none⟩)
          else if st = "cancelled".data then
            some (.ok ⟨interaction_id, .cancelled, none,
              some "Interaction cancelled".data, none⟩)
          else if env.elapsed k > timeout then
            some (.ok ⟨interaction_id, .running, none,
              some "Polling timeout exceeded".data, none⟩)
          else if env.sleepInterrupted k then
            some (.ok ⟨interaction_id, .interrupted, none,
              some "Interrupted by user".data, none⟩)
          else pollLoop env interaction_id timeout fuel (k + 1)

/-- `interval = interval or settings.default_poll_interval` (the resolved
interval is the fixed duration of every sleep in the loop). -/
def poll_interval_resolved (interval : Option ℚ) : ℚ :=
  pyOrQ interval default_poll_interval

/-- `DeepResearchClient.poll_interaction`: resolve the defaults, then run the
loop from iteration 0. -/
def poll_interaction (env : PollEnv) (interaction_id : Str)
    (timeout : Option ℚ) (fuel : Nat) : Option (Except PyError PollResult) :=
  pollLoop env interaction_id (pyOrQ timeout default_poll_timeout) fuel 0

/-! ## storage.py -/

/-- One element of `meta.json`'s `versions` list.  Serialization through JSON
dictionaries is modelled as the identity on these typed records; the enum
round-trips through `status.value` / `InteractionStatus(value)` bijectively. -/
structure VersionInfo where
  version : Nat
  interaction_id : Str
  created_at : Str
  status : InteractionStatus
  feedback : Option Str
  previous_interaction_id : Option Str
  usage : Option UsageMetadata
  inputs : Option RunInputs
deriving DecidableEq, Repr

/-- `meta.json` content (`RunMetadata` from models.py). -/
structure RunMeta where
  run_id : Str
  topic : Str
  created_at : Str
  versions : List VersionInfo
  latest_version : Nat
deriving DecidableEq, Repr

/-- Modelled from the spec: the stream-state record saved by
`RunStorage.save_stream_state`, which workflow.py calls but which is absent
from src/storage.py.  Per workflow.py's reads it holds the recorded remote
job id, the last event id and the partial text. -/
structure StreamStateRec where
  interaction_id : Str
  last_event_id : Str
  partial_text : Str
deriving DecidableEq, Repr

/-- The file system owned by `RunStorage`, as key-value maps. -/
structure StoreState where
  metas : List (Str × RunMeta)
  prompts : List ((Str × Nat) × Str)
  reports : List ((Str × Nat) × Str)
  sourcesFiles : List ((Str × Nat) × List (Str × SourceInfo))
  streamStates : List (Str × StreamStateRec)
deriving DecidableEq, Repr

/-- The `version_info` dictionary built by `RunStorage._update_metadata`. -/
def mkVersionInfo (run : ResearchRun) : VersionInfo :=
  ⟨run.version, run.interaction_id, run.created_at, run.status, run.feedback,
   run.previous_interaction_id, run.usage, run.inputs⟩

/-- Replace the first existing entry with the same version, else append. -/
def upsertVersion : List VersionInfo → VersionInfo → List VersionInfo
  | [], vi => [vi]
  | v :: rest, vi =>
      if v.version = vi.version then vi :: rest else v :: upsertVersion rest vi

/-- `max(v["version"] for v in meta["versions"])` (0 on the unreachable empty
list). -/
def maxVersion : List VersionInfo → Nat
  | [] => 0
  | v :: rest => rest.foldl (fun a x => max a x.version) v.version

/-- `RunStorage._update_metadata`: the new `meta.json` content. -/
def update_metadata (st : StoreState) (run : ResearchRun) : RunMeta :=
  let topic := match run.inputs with
    | some i => i.topic
    | none => run.prompt_text.take 100
  let meta := match alLookup st.metas run.run_id with
    | some m => if run.inputs.isSome then { m with topic := topic } else m
    | none => ⟨run.run_id, topic, run.created_at, [], 0⟩
  let vs := upsertVersion meta.versions (mkVersionInfo run)
  { meta with versions := vs, latest_version := maxVersion vs }

/-- `RunStorage.save_run`: write the prompt blob, the report blob when the
report is non-empty (Python truthiness), and the updated metadata. -/
def save_run (st : StoreState) (run : ResearchRun) : StoreState :=
  let meta := update_metadata st run
  let st1 := { st with
    prompts := alUpsert st.prompts (run.run_id, run.version) run.prompt_text }
  let st2 := match run.report_markdown with
    | some r =>
        if r.isEmpty then st1
        else { st1 with reports := alUpsert st1.reports (run.run_id, run.version) r }
    | none => st1
  { st2 with metas := alUpsert st2.metas run.run_id meta }

/-- `RunStorage.load_latest_run`; `now` stands for the `datetime.now()`
fallback. -/
def load_latest_run (st : StoreState) (run_id now : Str) : Option ResearchRun :=
  match alLookup st.metas run_id with
  | none => none
  | some meta =>
      let version := meta.latest_version
      let vi := meta.versions.find? (fun v => v.version = version)
      some
        { run_id := run_id
          interaction_id := match vi with | some v => v.interaction_id | none => []
          version := version
          prompt_text := (alLookup st.prompts (run_id, version)).getD []
          report_markdown := alLookup st.reports (run_id, version)
          created_at := match vi with | some v => v.created_at | none => now
          feedback := match vi with | some v => v.feedback | none => none
          previous_interaction_id :=
            match vi with | some v => v.previous_interaction_id | none => none
          status := match vi with | some v => v.status | none => .pending
          usage := match vi with | some v => v.usage | none => none
          inputs := match vi with | some v => v.inputs | none => none }

/-- `RunStorage.save_sources`. -/
def save_sources (st : StoreState) (run_id : Str) (version : Nat)
    (sources : List (Str × SourceInfo)) : StoreState :=
  { st with sourcesFiles := alUpsert st.sourcesFiles (run_id, version) sources }

/-- Modelled from the spec: `RunStorage.load_stream_state`, called by
workflow.py but absent from src/storage.py; returns the saved record for the
run id, or none when the run has no recorded job id. -/
def load_stream_state (st : StoreState) (run_id : Str) : Option StreamStateRec :=
  alLookup st.streamStates run_id

/-- Modelled from the spec: `RunStorage.clear_stream_state`, called by
workflow.py but absent from src/storage.py; deletes the record. -/
def clear_stream_state (st : StoreState) (run_id : Str) : StoreState :=
  { st with streamStates := st.streamStates.filter (fun p => p.1 ≠ run_id) }

/-! ## workflow.py — revise_research and resume_interrupted

The remote client is an oracle `ClientOracle` holding the outcome of each
call the orchestrator can make; a call log records which remote operations
were invoked and with which job id. -/

/-- `StartResult` from models.py (as constructed by deep_research.py). -/
structure StartResult where
  interaction_id : Str
  last_event_id : Option Str
  final_markdown : Option Str
  complete_via_stream : Bool
  error : Option Str := none
  usage : Option UsageMetadata := none
deriving DecidableEq, Repr

/-- The fields of a `ResumeResult` that the remote stream determines;
`DeepResearchClient.resume_stream` copies its `interaction_id` argument into
the result on both of its return paths. -/
structure ResumeCore where
  last_event_id : Option Str
  final_markdown : Option Str
  complete_via_stream : Bool
  error : Option Str := none
  usage : Option UsageMetadata := none
deriving DecidableEq, Repr

/-- `ResumeResult` from models.py. -/
structure ResumeResult where
  interaction_id : Str
  last_event_id : Option Str
  final_markdown : Option Str
  complete_via_stream : Bool
  error : Option Str
  usage : Option UsageMetadata
deriving DecidableEq, Repr

/-- Outcomes of the remote calls an orchestrator operation can make. -/
structure ClientOracle where
  startCtx : StartResult
  resumeCore : ResumeCore
  poll : PollResult
  resolver : Str → Option Str

/-- A remote call made by the orchestrator, for the call log. -/
inductive ClientCall
  | createCall (prompt : Str)
  | resumeStreamCall (interaction_id last_event_id : Str)
  | pollCall (interaction_id : Str)
deriving DecidableEq, Repr

/-- `DeepResearchClient.resume_stream`: both return paths set
`interaction_id` to the argument. -/
def resume_stream (o : ClientOracle) (interaction_id _last_event_id : Str) :
    ResumeResult :=
  ⟨interaction_id, o.resumeCore.last_event_id, o.resumeCore.final_markdown,
   o.resumeCore.complete_via_stream, o.resumeCore.error, o.resumeCore.usage⟩

/-- Precondition failures raised as `ValueError` by workflow.py. -/
inductive WorkflowError
  | runNotFound (run_id : Str)
  | cannotRevise (status : InteractionStatus)
  | noStreamState (run_id : Str)
deriving DecidableEq, Repr

/-- Segments of `REVISION_TEMPLATE` around the `feedback` placeholder. -/
def revisionA : Str :=
  ("You previously produced a research report in the preceding interaction.\n\n" ++
   "The user has provided the following feedback:\n---\n").data

/-- Tail of `REVISION_TEMPLATE` after the `feedback` placeholder. -/
def revisionB : Str :=
  ("\n---\n\nPlease produce a complete revised Markdown report that:\n" ++
   "1. Incorporates this feedback\n" ++
   "2. Preserves correct facts and citations from the original\n" ++
   "3. Maintains the same document structure unless the feedback requests changes\n" ++
   "4. Clearly indicates any new research or sources added\n\n" ++
   "Output only the revised report in Markdown format.\n").data

/-- Head of `REVISION_WITH_CONSTRAINTS_TEMPLATE`. -/
def revConstrA : Str :=
  ("You previously produced a research report in the preceding interaction.\n\n" ++
   "The user has provided the following feedback:\n---\n").data

/-- Middle of `REVISION_WITH_CONSTRAINTS_TEMPLATE`, between `feedback` and
`constraints`. -/
def revConstrM : Str :=
  ("\n---\n\nAdditionally, apply these updated constraints to the revised report:\n").data

/-- Tail of `REVISION_WITH_CONSTRAINTS_TEMPLATE`. -/
def revConstrB : Str :=
  ("\n\nPlease produce a complete revised Markdown report that:\n" ++
   "1. Incorporates the feedback above\n" ++
   "2. Applies the updated constraints\n" ++
   "3. Preserves correct facts and citations from the original\n" ++
   "4. Clearly indicates any new research or sources added\n\n" ++
   "Output only the revised report in Markdown format.\n").data

/-- `ResearchWorkflow._format_constraints` (empty strings, `0` and empty
lists are falsy and skipped). -/
def format_constraints (c : ResearchConstraints) : Str :=
  let parts :=
    (match c.timeframe with
     | some t => if t.isEmpty then [] else ["- Time period: ".data ++ t]
     | none => []) ++
    (match c.region with
     | some r => if r.isEmpty then [] else ["- Geographic focus: ".data ++ r]
     | none => []) ++
    (match c.max_words with
     | some n => if n = 0 then [] else
        ["- Maximum length: ".data ++ Nat.toDigits 10 n ++ " words".data]
     | none => []) ++
    (match c.focus_areas with
     | some l => if l.isEmpty then [] else
        ["- Focus areas: ".data ++ joinSep ", ".data l]
     | none => [])
  if parts.isEmpty then "None specified".data else joinSep "\n".data parts

/-- `ResearchWorkflow._process_citations`: returns the processed text and the
store after an optional `save_sources`. -/
def process_citations_wf (st : StoreState) (resolver : Str → Option Str)
    (report_text : Option Str) (run_id : Str) (version : Nat) :
    Option Str × StoreState :=
  match report_text with
  | none => (none, st)
  | some t =>
      if t.isEmpty then (some t, st)
      else
        let r := process_report resolver true t
        let st := if r.sources.isEmpty then st
                  else save_sources st run_id version r.sources
        (some r.text, st)

/-- `result.error and "Interrupted" in result.error`. -/
def errorHasInterrupted (e : Option Str) : Bool :=
  match e with
  | some s => containsSub "Interrupted".data s
  | none => false

/-- The completion/fallback logic shared by `run_initial_research` and
`revise_research` after `start_research(_with_context)` returns, ending in
the final `save_run`. -/
def finalizeAfterStart (st : StoreState) (o : ClientOracle) (run : ResearchRun) :
    ResearchRun × StoreState :=
  if o.startCtx.complete_via_stream then
    let p := process_citations_wf st o.resolver o.startCtx.final_markdown
      run.run_id run.version
    let run := { run with report_markdown := p.1, status := .completed,
                          usage := o.startCtx.usage }
    let st := clear_stream_state p.2 run.run_id
    (run, save_run st run)
  else if errorHasInterrupted o.startCtx.error then
    let run := { run with status := .interrupted }
    (run, save_run st run)
  else if o.poll.status = .completed then
    let p := process_citations_wf st o.resolver o.poll.final_markdown
      run.run_id run.version
    let run := { run with report_markdown := p.1, status := .completed,
                          usage := o.poll.usage }
    let st := clear_stream_state p.2 run.run_id
    (run, save_run st run)
  else
    let run := { run with status := o.poll.status }
    (run, save_run st run)

/-- `ResearchWorkflow.revise_research`; `now` stands for `datetime.now()`.
An `Except.error` models the `ValueError` raised before any state change. -/
def revise_research (st : StoreState) (o : ClientOracle) (now run_id feedback : Str)
    (constraints : Option ResearchConstraints) :
    Except WorkflowError (ResearchRun × StoreState) :=
  match load_latest_run st run_id now with
  | none => .error (.runNotFound run_id)
  | some previous_run =>
      if previous_run.status ≠ InteractionStatus.completed then
        .error (.cannotRevise previous_run.status)
      else
        let revision_prompt := match constraints with
          | some c => revConstrA ++ feedback ++ revConstrM ++
                        format_constraints c ++ revConstrB
          | none => revisionA ++ feedback ++ revisionB
        let run := { previous_run.create_revision feedback revision_prompt now with
                      status := .running }
        let st := save_run st run
        let run := { run with interaction_id := o.startCtx.interaction_id }
        .ok (finalizeAfterStart st o run)

/-- `ResearchWorkflow.resume_interrupted`, with a log of the remote calls it
makes.  The reason it can be settled here at all: the stream-state storage
functions it uses are modelled from the spec (see `StreamStateRec`). -/
def resume_interrupted (st : StoreState) (o : ClientOracle) (now run_id : Str) :
    Except WorkflowError (ResearchRun × StoreState × List ClientCall) :=
  match load_latest_run st run_id now with
  | none => .error (.runNotFound run_id)
  | some run =>
      match load_stream_state st run_id with
      | none => .error (.noStreamState run_id)
      | some ss =>
          let result := resume_stream o ss.interaction_id ss.last_event_id
          if result.complete_via_stream then
            let run := { run with
              report_markdown := some (ss.partial_text ++ result.final_markdown.getD []),
              status := .completed, usage := result.usage }
            let st := clear_stream_state st run_id
            .ok (run, save_run st run,
              [.resumeStreamCall ss.interaction_id ss.last_event_id])
          else if o.poll.status = .completed then
            let run := { run with report_markdown := o.poll.final_markdown,
                                  status := .completed, usage := o.poll.usage }
            let st := clear_stream_state st run_id
            .ok (run, save_run st run,
              [.resumeStreamCall ss.interaction_id ss.last_event_id,
               .pollCall result.interaction_id])
          else
            let run := { run with status := o.poll.status }
            .ok (run, save_run st run,
              [.resumeStreamCall ss.interaction_id ss.last_event_id,
               .pollCall result.interaction_id])

/-- Decidable equality for modelled call results. -/
instance {ε α : Type} [DecidableEq ε] [DecidableEq α] : DecidableEq (Except ε α) := by
  intro a b
  cases a with
  | error e =>
      cases b with
      | error f =>
          by_cases h : e = f
          · exact isTrue (by rw [h])
          · exact isFalse (by intro hh; injection hh; contradiction)
      | ok _ => exact isFalse (by intro hh; cases hh)
  | ok x =>
      cases b with
      | error _ => exact isFalse (by intro hh; cases hh)
      | ok y =>
          by_cases h : x = y
          · exact isTrue (by rw [h])
          · exact isFalse (by intro hh; injection hh; contradiction)

/-! ## Predicates and concrete fixtures used by the verification -/

/-- Iteration `j` of the polling loop neither terminates nor errs: ordinary
transient status, no timeout, no interrupt. -/
def quietAt (env : PollEnv) (timeout : ℚ) (j : Nat) : Prop :=
  (∃ st txt u, env.get j = GetOutcome.ok st txt u ∧ st ≠ "completed".data ∧
    st ≠ "failed".data ∧ st ≠ "cancelled".data) ∧
  ¬ env.elapsed j > timeout ∧ env.sleepInterrupted j = false

/-- Oracle whose every status check raises a transport error. -/
def envTransport : PollEnv :=
  ⟨fun _ => .transportError "boom".data, fun _ => false, fun _ => 0⟩

/-- Oracle with a transient status and a clock already past the timeout. -/
def envExpired : PollEnv :=
  ⟨fun _ => .ok "running".data none none, fun _ => false, fun _ => 2000⟩

/-- Inputs fixture for the workflow witnesses. -/
def sampleInputs : RunInputs :=
  ⟨"Quantum computing".data, ⟨none, none, none, none⟩, none⟩

/-- A completed version-1 record. -/
def sampleVI : VersionInfo :=
  ⟨1, "job-1".data, "t0".data, .completed, none, none, none, some sampleInputs⟩

/-- Metadata fixture holding the single completed version. -/
def sampleMeta : RunMeta :=
  ⟨"r1".data, "Quantum computing".data, "t0".data, [sampleVI], 1⟩

/-- Store fixture with one completed run `r1`. -/
def sampleStore : StoreState :=
  ⟨[("r1".data, sampleMeta)], [(("r1".data, 1), "p1".data)], [], [], []⟩

/-- Store fixture with a saved stream state for `r1`. -/
def sampleStoreSS : StoreState :=
  { sampleStore with
    streamStates := [("r1".data, ⟨"job-1".data, "ev-9".data, "part ".data⟩)] }

/-- Oracle fixture: the context-start stream is interrupted, resume completes. -/
def sampleOracle : ClientOracle :=
  ⟨⟨"job-2".data, none, none, false, some "Interrupted by user".data, none⟩,
   ⟨none, some "rest".data, true, none, none⟩,
   ⟨"job-2".data, .running, none, none, none⟩,
   fun _ => none⟩

/-- A version-2 running revision of `r1`, as saved mid-operation. -/
def sampleRun2 : ResearchRun :=
  ⟨"r1".data, "job-2".data, 2, "p2".data, none, "t1".data, some "fb".data,
   some "job-1".data, .running, none, some sampleInputs⟩

/-- The run that `load_latest_run` reconstructs from `sampleStore`. -/
def samplePrev : ResearchRun :=
  ⟨"r1".data, "job-1".data, 1, "p1".data, none, "t0".data, none, none,
   .completed, none, some sampleInputs⟩

/-- Body fixture for the validation witness: references ordinals 1 and 9. -/
def wText : Str := "see [1] and [9] end".data

/-- Sources fixture: 1 is fine, 2 lacks a URL, 2 and 3 are unreferenced. -/
def wSources : List (Str × SourceInfo) :=
  [("1".data, ⟨"One".data, "http://one".data, none⟩),
   ("2".data, ⟨"Two".data, [], none⟩),
   ("3".data, ⟨"Three".data, "http://three".data, none⟩)]

/-- A well-formed ordinal string: nonempty, all ASCII digits. -/
def numOK (n : Str) : Prop := n ≠ [] ∧ ∀ c ∈ n, isDigitC c = true

/-- Every source URL (after redirect resolution) is usable inside a markdown
link: nonempty, no bracket, no closing parenthesis. -/
def srcUrlsOK (sources : List (Str × SourceInfo)) : Prop :=
  ∀ p ∈ sources, finalOrUrl p.2 ≠ [] ∧ '[' ∉ finalOrUrl p.2 ∧ ')' ∉ finalOrUrl p.2

/-- Source map fixture for the inline-normalization witness. -/
def c2Sources : List (Str × SourceInfo) :=
  [("3".data, ⟨"T3".data, "http://three".data, none⟩)]

instance (n : Str) : Decidable (numOK n) := by
  unfold numOK
  infer_instance

instance (s : List (Str × SourceInfo)) : Decidable (srcUrlsOK s) := by
  unfold srcUrlsOK
  infer_instance

/-! ## Well-formed sources sections

Input families for the round-trip claims: a body free of section triggers,
one of the three recognised headers, and entry lines `N. [Title](URL)` whose
fields avoid the structural characters of the patterns involved. -/

/-- Body characters that can neither begin a sources header (`S`, `s`, `#`
and `*` start the header alternatives case-insensitively) nor trigger a
citation pattern (`[`). -/
def bodyOK (body : Str) : Prop :=
  ∀ c ∈ body, c ≠ 'S' ∧ c ≠ 's' ∧ c ≠ '#' ∧ c ≠ '*' ∧ c ≠ '['

/-- A round-trippable entry title: nonempty, not starting with `c` (which
could begin a `cite:` marker) and free of the structural characters of the
entry and citation patterns. -/
def titleOK (t : Str) : Prop :=
  t ≠ [] ∧ t.head? ≠ some 'c' ∧
    ∀ c ∈ t, c ≠ ']' ∧ c ≠ '[' ∧ c ≠ '(' ∧ c ≠ ')' ∧ c ≠ '\n'

/-- A round-trippable entry URL: nonempty and free of the pattern
delimiters. -/
def urlOK (u : Str) : Prop :=
  u ≠ [] ∧ ∀ c ∈ u, c ≠ ')' ∧ c ≠ '(' ∧ c ≠ '[' ∧ c ≠ ']' ∧ c ≠ '\n'

/-- A valid `(ordinal, title, url)` entry. -/
def entryOK (e : Str × Str × Str) : Prop :=
  numOK e.1 ∧ titleOK e.2.1 ∧ urlOK e.2.2

/-- The rendered entry line `N. [Title](URL)` of a raw entry triple. -/
def tripleLine (e : Str × Str × Str) : Str :=
  e.1 ++ ". [".data ++ e.2.1 ++ "](".data ++ e.2.2 ++ [')']

/-- Forget a parsed source's `final_url`, keeping the raw fields. -/
def toTriple (p : Str × SourceInfo) : Str × Str × Str :=
  (p.1, p.2.title, p.2.url)

/-- The newline-joined entry lines of a sources section. -/
def entriesText (L : List (Str × Str × Str)) : Str :=
  joinSep "\n".data (L.map tripleLine)

/-- The three header spellings recognised by the section patterns. -/
def headerForms : List Str :=
  ["**Sources:**".data, "## Sources".data, "Sources:".data]

/-- A report carrying a sources section: body, newline, header, newline and
the entry lines. -/
def sectionedReport (body hdr : Str) (L : List (Str × Str × Str)) : Str :=
  body ++ '\n' :: (hdr ++ '\n' :: entriesText L)

instance (body : Str) : Decidable (bodyOK body) := by
  unfold bodyOK
  infer_instance

instance (t : Str) : Decidable (titleOK t) := by
  unfold titleOK
  infer_instance

instance (u : Str) : Decidable (urlOK u) := by
  unfold urlOK
  infer_instance

instance (e : Str × Str × Str) : Decidable (entryOK e) := by
  unfold entryOK
  infer_instance

/-- Concrete entry list exercising numeric (not lexicographic) ordinal
sorting: int("2") < int("10") although "10" < "2" as strings. -/
def c1L : List (Str × Str × Str) :=
  [("2".data, "Beta".data, "http://b".data),
   ("10".data, "Alpha".data, "http://a".data)]

/-- Characters that fail all three header alternatives at their first
character. -/
def headerSafe (c : Char) : Prop :=
  c ≠ 'S' ∧ c ≠ 's' ∧ c ≠ '#' ∧ c ≠ '*'

/-! ## Generic lemmas about the scan engine -/

theorem scanRewrite_fuel {try?} (h : Shrinking try?) :
    ∀ f₁ s f₂, s.length ≤ f₁ → s.length ≤ f₂ →
      scanRewrite try? f₁ s = scanRewrite try? f₂ s := by
  intro f₁
  induction f₁ with
  | zero =>
      intro s f₂ h₁ _
      have hs : s = [] := List.eq_nil_of_length_eq_zero (Nat.le_zero.mp h₁)
      subst hs
      cases f₂ <;> rfl
  | succ g ih =>
      intro s f₂ h₁ h₂
      cases s with
      | nil => cases f₂ <;> rfl
      | cons c cs =>
          match f₂, h₂ with
          | g₂ + 1, h₂ =>
            cases htry : try? (c :: cs) with
            | none =>
                simp only [scanRewrite, htry]
                rw [ih cs g₂ (by simpa using h₁) (by simpa using h₂)]
            | some p =>
                obtain ⟨rep, rest⟩ := p
                have hlt : rest.length < (c :: cs).length := h _ _ _ htry
                simp only [scanRewrite, htry]
                rw [ih rest g₂ (by simp at h₁ hlt; omega) (by simp at h₂ hlt; omega)]

theorem scanCollect_fuel {α} {try? : Str → Option (α × Str)} (h : ShrinkingC try?) :
    ∀ f₁ s f₂, s.length ≤ f₁ → s.length ≤ f₂ →
      scanCollect try? f₁ s = scanCollect try? f₂ s := by
  intro f₁
  induction f₁ with
  | zero =>
      intro s f₂ h₁ _
      have hs : s = [] := List.eq_nil_of_length_eq_zero (Nat.le_zero.mp h₁)
      subst hs
      cases f₂ <;> rfl
  | succ g ih =>
      intro s f₂ h₁ h₂
      cases s with
      | nil => cases f₂ <;> rfl
      | cons c cs =>
          match f₂, h₂ with
          | g₂ + 1, h₂ =>
            cases htry : try? (c :: cs) with
            | none =>
                simp only [scanCollect, htry]
                exact ih cs g₂ (by simpa using h₁) (by simpa using h₂)
            | some p =>
                obtain ⟨a, rest⟩ := p
                have hlt : rest.length < (c :: cs).length := h _ _ _ htry
                simp only [scanCollect, htry]
                rw [ih rest g₂ (by simp at h₁ hlt; omega) (by simp at h₂ hlt; omega)]

/-- Unfolding a successful match at the head of the input. -/
theorem scanRewrite_step {try?} (h : Shrinking try?) {c : Char} {cs rep rest : Str}
    (htry : try? (c :: cs) = some (rep, rest)) :
    ∀ f, (c :: cs).length ≤ f →
      scanRewrite try? f (c :: cs) = rep ++ scanRewrite try? rest.length rest := by
  intro f hf
  match f with
  | f + 1 =>
    simp only [scanRewrite, htry]
    have hlt : rest.length < (c :: cs).length := h _ _ _ htry
    rw [scanRewrite_fuel h f rest rest.length (by simp at hf hlt; omega) le_rfl]

theorem scanCollect_step {α} {try? : Str → Option (α × Str)} (h : ShrinkingC try?)
    {c : Char} {cs rest : Str} {a : α}
    (htry : try? (c :: cs) = some (a, rest)) :
    ∀ f, (c :: cs).length ≤ f →
      scanCollect try? f (c :: cs) = a :: scanCollect try? rest.length rest := by
  intro f hf
  match f with
  | f + 1 =>
    simp only [scanCollect, htry]
    have hlt : rest.length < (c :: cs).length := h _ _ _ htry
    rw [scanCollect_fuel h f rest rest.length (by simp at hf hlt; omega) le_rfl]

/-- Skipping a single unmatched character. -/
theorem scanRewrite_skip {try?} (h : Shrinking try?) {c : Char} {cs : Str}
    (htry : try? (c :: cs) = none) :
    ∀ f, (c :: cs).length ≤ f →
      scanRewrite try? f (c :: cs) = c :: scanRewrite try? cs.length cs := by
  intro f hf
  match f with
  | f + 1 =>
    simp only [scanRewrite, htry]
    rw [scanRewrite_fuel h f cs cs.length (by simpa using hf) le_rfl]

theorem scanCollect_skip {α} {try? : Str → Option (α × Str)} (h : ShrinkingC try?)
    {c : Char} {cs : Str} (htry : try? (c :: cs) = none) :
    ∀ f, (c :: cs).length ≤ f →
      scanCollect try? f (c :: cs) = scanCollect try? cs.length cs := by
  intro f hf
  match f with
  | f + 1 =>
    simp only [scanCollect, htry]
    rw [scanCollect_fuel h f cs cs.length (by simpa using hf) le_rfl]

/-- Characters that can never start a `try?` match are copied through
unchanged. -/
theorem scanRewrite_passthrough {try?} (h : Shrinking try?)
    (trigger : Char → Prop)
    (hno : ∀ c cs, ¬ trigger c → try? (c :: cs) = none) :
    ∀ pre s f, (∀ c ∈ pre, ¬ trigger c) → (pre ++ s).length ≤ f →
      scanRewrite try? f (pre ++ s) = pre ++ scanRewrite try? s.length s := by
  intro pre
  induction pre with
  | nil =>
      intro s f _ hf
      simpa using scanRewrite_fuel h f s s.length (by simpa using hf) le_rfl
  | cons c pre ih =>
      intro s f hc hf
      have e : (c :: pre) ++ s = c :: (pre ++ s) := by simp
      rw [e, scanRewrite_skip h (hno c (pre ++ s) (hc c (by simp))) f (by simpa using hf)]
      rw [ih s (pre ++ s).length (fun x hx => hc x (by simp [hx])) le_rfl]
      simp

theorem scanCollect_passthrough {α} {try? : Str → Option (α × Str)} (h : ShrinkingC try?)
    (trigger : Char → Prop)
    (hno : ∀ c cs, ¬ trigger c → try? (c :: cs) = none) :
    ∀ pre s f, (∀ c ∈ pre, ¬ trigger c) → (pre ++ s).length ≤ f →
      scanCollect try? f (pre ++ s) = scanCollect try? s.length s := by
  intro pre
  induction pre with
  | nil =>
      intro s f _ hf
      exact scanCollect_fuel h f s s.length (by simpa using hf) le_rfl
  | cons c pre ih =>
      intro s f hc hf
      have e : (c :: pre) ++ s = c :: (pre ++ s) := by simp
      rw [e, scanCollect_skip h (hno c (pre ++ s) (hc c (by simp))) f (by simpa using hf)]
      exact ih s (pre ++ s).length (fun x hx => hc x (by simp [hx])) le_rfl

theorem takeWhile_append_all {p : Char → Bool} {a : Str} (b : Str)
    (ha : ∀ c ∈ a, p c = true) :
    (a ++ b).takeWhile p = a ++ b.takeWhile p := by
  induction a with
  | nil => simp
  | cons c cs ih =>
      simp only [List.cons_append, List.takeWhile_cons_of_pos (ha c (by simp))]
      rw [ih (fun x hx => ha x (by simp [hx]))]

theorem dropWhile_append_all {p : Char → Bool} {a : Str} (b : Str)
    (ha : ∀ c ∈ a, p c = true) :
    (a ++ b).dropWhile p = b.dropWhile p := by
  induction a with
  | nil => simp
  | cons c cs ih =>
      simp only [List.cons_append, List.dropWhile_cons_of_pos (ha c (by simp))]
      exact ih (fun x hx => ha x (by simp [hx]))

theorem takeWhile_eq_nil_of_head {p : Char → Bool} {c : Char} {cs : Str}
    (h : ¬ p c = true) : (c :: cs).takeWhile p = [] := by
  simp [List.takeWhile_cons_of_neg h]

theorem length_dropWhile_le (p : Char → Bool) (s : Str) :
    (s.dropWhile p).length ≤ s.length := by
  induction s with
  | nil => simp
  | cons c cs ih =>
      by_cases h : p c = true
      · simp only [List.dropWhile_cons_of_pos h]
        exact Nat.le_succ_of_le ih
      · simp [List.dropWhile_cons_of_neg h]

/-! ## Association-list lemmas -/

theorem alLookup_upsert_self {κ α : Type} [DecidableEq κ]
    (l : List (κ × α)) (k : κ) (v : α) :
    alLookup (alUpsert l k v) k = some v := by
  induction l with
  | nil => simp [alUpsert, alLookup]
  | cons p rest ih =>
      obtain ⟨k', v'⟩ := p
      by_cases h : k' = k
      · subst h; simp [alUpsert, alLookup]
      · simp [alUpsert, alLookup, h, ih]

/-! ## Polling-loop lemmas -/

theorem pollLoop_quiet_step (env : PollEnv) (iid : Str) (T : ℚ) (j f : Nat)
    (hq : quietAt env T j) :
    pollLoop env iid T (f + 1) j = pollLoop env iid T f (j + 1) := by
  obtain ⟨⟨st, txt, u, hget, h1, h2, h3⟩, h4, h5⟩ := hq
  simp [pollLoop, hget, h1, h2, h3, h4, h5]

theorem pollLoop_skip (env : PollEnv) (iid : Str) (T : ℚ) :
    ∀ d i f, (∀ j, i ≤ j → j < i + d → quietAt env T j) →
      pollLoop env iid T (f + d) i = pollLoop env iid T f (i + d) := by
  intro d
  induction d with
  | zero => intro i f _; simp
  | succ d ih =>
      intro i f hq
      have h0 : quietAt env T i := hq i le_rfl (by omega)
      have e : f + (d + 1) = (f + d) + 1 := by omega
      rw [e, pollLoop_quiet_step env iid T i (f + d) h0]
      have h' := ih (i + 1) f (fun j h1 h2 => hq j (by omega) (by omega))
      rw [h']
      congr 1
      omega

theorem pollLoop_reach (env : PollEnv) (iid : Str) (T : ℚ) (k fuel : Nat)
    (hq : ∀ j < k, quietAt env T j) (hf : k ≤ fuel) :
    pollLoop env iid T fuel 0 = pollLoop env iid T (fuel - k) k := by
  have h := pollLoop_skip env iid T k 0 (fuel - k)
    (fun j _ hj => hq j (by omega))
  have e : fuel - k + k = fuel := by omega
  rw [e] at h
  simpa using h

/-! ## C8 -/

/-- C8: for every report text in which no sources section is found (the
section search fails), the pipeline returns the original text unchanged, an
empty source map and exactly the single error "No sources section found";
the function is total, so no exception is ever raised. -/
theorem process_report_no_sources (resolver : Str → Option Str) (b : Bool)
    (text : Str) (h : findSection text = none) :
    process_report resolver b text =
      ⟨text, [], ["No sources section found".data]⟩ := by
  unfold process_report parse_sources
  rw [h]
  rfl

theorem process_report_no_sources_witness :
    findSection "a report with no bibliography".data = none ∧
    process_report (fun _ => none) true "a report with no bibliography".data =
      ⟨"a report with no bibliography".data, [],
       ["No sources section found".data]⟩ :=
  ⟨by decide, process_report_no_sources (fun _ => none) true _ (by decide)⟩

/-! ## C3 -/

/-- C3: the polling operation repeatedly checks the remote status until it is
completed, failed or cancelled; the defaults are a 10 s interval and a 1800 s
timeout; when a non-terminal status is seen and the elapsed time exceeds the
timeout it returns a running-status result carrying a timeout error instead of
raising; a user interrupt, whether during the status check or during the
sleep, is caught and returned as an interrupted-status result. -/
theorem poll_interaction_terminal_behaviour
    (env : PollEnv) (iid : Str) (k fuel : Nat)
    (hq : ∀ j < k, quietAt env default_poll_timeout j)
    (hfuel : k < fuel) :
    poll_interval_resolved none = 10 ∧
    pyOrQ none default_poll_timeout = 1800 ∧
    (∀ txt u, env.get k = .ok "completed".data txt u →
      poll_interaction env iid none fuel = some (.ok ⟨iid, .completed, txt, none, u⟩)) ∧
    (∀ txt u, env.get k = .ok "failed".data txt u →
      poll_interaction env iid none fuel =
        some (.ok ⟨iid, .failed, none, some "Interaction failed".data, none⟩)) ∧
    (∀ txt u, env.get k = .ok "cancelled".data txt u →
      poll_interaction env iid none fuel =
        some (.ok ⟨iid, .cancelled, none, some "Interaction cancelled".data, none⟩)) ∧
    (∀ st txt u, env.get k = .ok st txt u → st ≠ "completed".data →
      st ≠ "failed".data → st ≠ "cancelled".data → env.elapsed k > 1800 →
      poll_interaction env iid none fuel =
        some (.ok ⟨iid, .running, none, some "Polling timeout exceeded".data, none⟩)) ∧
    (env.get k = .keyboardInterrupt →
      poll_interaction env iid none fuel =
        some (.ok ⟨iid, .interrupted, none, some "Interrupted by user".data, none⟩)) ∧
    (∀ st txt u, env.get k = .ok st txt u → st ≠ "completed".data →
      st ≠ "failed".data → st ≠ "cancelled".data → ¬ env.elapsed k > 1800 →
      env.sleepInterrupted k = true →
      poll_interaction env iid none fuel =
        some (.ok ⟨iid, .interrupted, none, some "Interrupted by user".data, none⟩)) := by
  have hT : pyOrQ none default_poll_timeout = 1800 := rfl
  have reach : poll_interaction env iid none fuel =
      pollLoop env iid 1800 (fuel - k) k := by
    unfold poll_interaction
    rw [hT]
    exact pollLoop_reach env iid 1800 k fuel (by simpa [default_poll_timeout] using hq)
      (by omega)
  obtain ⟨m, hm⟩ : ∃ m, fuel - k = m + 1 := ⟨fuel - k - 1, by omega⟩
  refine ⟨rfl, rfl, ?_, ?_, ?_, ?_, ?_, ?_⟩
  · intro txt u hget
    rw [reach, hm]
    simp [pollLoop, hget]
  · intro txt u hget
    rw [reach, hm]
    simp [pollLoop, hget]
  · intro txt u hget
    rw [reach, hm]
    simp [pollLoop, hget]
  · intro st txt u hget h1 h2 h3 h4
    rw [reach, hm]
    simp [pollLoop, hget, h1, h2, h3, h4]
  · intro hget
    rw [reach, hm]
    simp [pollLoop, hget]
  · intro st txt u hget h1 h2 h3 h4 h5
    rw [reach, hm]
    simp [pollLoop, hget, h1, h2, h3, h4, h5]

theorem poll_interaction_terminal_behaviour_witness :
    poll_interaction envExpired "job-1".data none 1 =
      some (.ok ⟨"job-1".data, .running, none,
        some "Polling timeout exceeded".data, none⟩) := by
  have h := poll_interaction_terminal_behaviour envExpired "job-1".data 0 1
    (by intro j hj; omega) (by omega)
  exact h.2.2.2.2.2.1 "running".data none none rfl (by decide) (by decide)
    (by decide) (by norm_num [envExpired])

/-! ## C6 -/

/-- C6, counterexample: with every status check raising a transport error, the
poll loop propagates the exception to the caller instead of recovering it into
any terminal-status result — refuting the claim that transport errors are
recovered locally and the caller inspects a status, never an exception. -/
theorem poll_transport_counterexample :
    poll_interaction envTransport "job-1".data none 5 =
      some (.error (.transport "boom".data)) ∧
    ¬ ∃ r : PollResult,
        poll_interaction envTransport "job-1".data none 5 = some (.ok r) := by
  refine ⟨by decide, ?_⟩
  rintro ⟨r, hr⟩
  have h : poll_interaction envTransport "job-1".data none 5 =
      some (.error (.transport "boom".data)) := by decide
  rw [h] at hr
  cases hr

/-- C6, amended: a transport error raised by a status check is NOT caught by
the polling loop (whose only handler is `except KeyboardInterrupt`): the first
such error propagates to the caller as an exception, so the loop performs no
further retries after it. -/
theorem poll_transport_propagates (env : PollEnv) (iid : Str)
    (T : Option ℚ) (k fuel : Nat) (m : Str)
    (hq : ∀ j < k, quietAt env (pyOrQ T default_poll_timeout) j)
    (hget : env.get k = .transportError m) (hfuel : k < fuel) :
    poll_interaction env iid T fuel = some (.error (.transport m)) := by
  unfold poll_interaction
  rw [pollLoop_reach env iid (pyOrQ T default_poll_timeout) k fuel hq (by omega)]
  obtain ⟨n, hn⟩ : ∃ n, fuel - k = n + 1 := ⟨fuel - k - 1, by omega⟩
  rw [hn]
  simp [pollLoop, hget]

theorem poll_transport_propagates_witness :
    poll_interaction envTransport "job-1".data none 3 =
      some (.error (.transport "boom".data)) :=
  poll_transport_propagates envTransport "job-1".data none 0 3 "boom".data
    (by intro j hj; omega) rfl (by omega)

/-! ## Version-list lemmas for the metadata invariant -/

theorem mem_upsertVersion {vs : List VersionInfo} {vi x : VersionInfo}
    (h : x ∈ upsertVersion vs vi) : x = vi ∨ x ∈ vs := by
  induction vs with
  | nil => simpa [upsertVersion] using h
  | cons v rest ih =>
      by_cases hv : v.version = vi.version
      · simp only [upsertVersion, if_pos hv] at h
        rcases List.mem_cons.mp h with h1 | h1
        · exact Or.inl h1
        · exact Or.inr (List.mem_cons.mpr (Or.inr h1))
      · simp only [upsertVersion, if_neg hv] at h
        rcases List.mem_cons.mp h with h1 | h1
        · exact Or.inr (List.mem_cons.mpr (Or.inl h1))
        · rcases ih h1 with h2 | h2
          · exact Or.inl h2
          · exact Or.inr (List.mem_cons.mpr (Or.inr h2))

theorem self_mem_upsertVersion (vs : List VersionInfo) (vi : VersionInfo) :
    vi ∈ upsertVersion vs vi := by
  induction vs with
  | nil => simp [upsertVersion]
  | cons v rest ih =>
      by_cases hv : v.version = vi.version
      · simp [upsertVersion, hv]
      · simp [upsertVersion, hv, ih]

theorem upsertVersion_pairwise {vs : List VersionInfo} {vi : VersionInfo}
    (h : vs.Pairwise (fun a b => a.version ≠ b.version)) :
    (upsertVersion vs vi).Pairwise (fun a b => a.version ≠ b.version) := by
  induction vs with
  | nil => simp [upsertVersion]
  | cons v rest ih =>
      obtain ⟨hv, hrest⟩ := List.pairwise_cons.mp h
      by_cases he : v.version = vi.version
      · simp only [upsertVersion, if_pos he]
        refine List.pairwise_cons.mpr ⟨?_, hrest⟩
        intro b hb
        rw [← he]
        exact hv b hb
      · simp only [upsertVersion, if_neg he]
        refine List.pairwise_cons.mpr ⟨?_, ih hrest⟩
        intro b hb
        rcases mem_upsertVersion hb with h' | h'
        · rw [h']; exact he
        · exact hv b h'

theorem upsertVersion_countP {vs : List VersionInfo} {vi : VersionInfo}
    (h : vs.Pairwise (fun a b => a.version ≠ b.version)) :
    (upsertVersion vs vi).countP (fun v => v.version = vi.version) = 1 := by
  induction vs with
  | nil => simp [upsertVersion, List.countP_cons]
  | cons v rest ih =>
      obtain ⟨hv, hrest⟩ := List.pairwise_cons.mp h
      by_cases he : v.version = vi.version
      · simp only [upsertVersion, if_pos he, List.countP_cons]
        have hzero : rest.countP (fun x => x.version = vi.version) = 0 := by
          rw [List.countP_eq_zero]
          intro x hx
          have := hv x hx
          rw [he] at this
          simp [Ne.symm this]
        simp [hzero]
      · simp only [upsertVersion, if_neg he, List.countP_cons]
        simp [he, ih hrest]

theorem foldl_max_le_self (l : List VersionInfo) :
    ∀ a, a ≤ l.foldl (fun a x => max a x.version) a := by
  induction l with
  | nil => intro a; simp
  | cons v rest ih =>
      intro a
      calc a ≤ max a v.version := le_max_left _ _
        _ ≤ rest.foldl (fun a x => max a x.version) (max a v.version) := ih _

theorem foldl_max_mem_le (l : List VersionInfo) :
    ∀ a x, x ∈ l → x.version ≤ l.foldl (fun a x => max a x.version) a := by
  induction l with
  | nil => intro a x hx; cases hx
  | cons v rest ih =>
      intro a x hx
      rcases List.mem_cons.mp hx with h | h
      · subst h
        calc x.version ≤ max a x.version := le_max_right _ _
          _ ≤ rest.foldl (fun a x => max a x.version) (max a x.version) :=
              foldl_max_le_self rest _
      · exact ih (max a v.version) x h

theorem foldl_max_attained (l : List VersionInfo) :
    ∀ a, l.foldl (fun a x => max a x.version) a = a ∨
      ∃ x, x ∈ l ∧ l.foldl (fun a x => max a x.version) a = x.version := by
  induction l with
  | nil => intro a; simp
  | cons v rest ih =>
      intro a
      have hfold : (v :: rest).foldl (fun a x => max a x.version) a =
          rest.foldl (fun a x => max a x.version) (max a v.version) := rfl
      rcases ih (max a v.version) with h | h
      · rcases max_cases a v.version with ⟨he, _⟩ | ⟨he, _⟩
        · left
          rw [hfold, h, he]
        · right
          refine ⟨v, List.mem_cons_self v rest, ?_⟩
          rw [hfold, h, he]
      · obtain ⟨x, hx, he⟩ := h
        right
        refine ⟨x, List.mem_cons.mpr (Or.inr hx), ?_⟩
        rw [hfold, he]

theorem maxVersion_is_max {vs : List VersionInfo} (hne : vs ≠ []) :
    (∀ v ∈ vs, v.version ≤ maxVersion vs) ∧
    (∃ v ∈ vs, v.version = maxVersion vs) := by
  match vs, hne with
  | v :: rest, _ =>
    have hunf : maxVersion (v :: rest) =
        rest.foldl (fun a x => max a x.version) v.version := rfl
    constructor
    · intro x hx
      rw [hunf]
      rcases List.mem_cons.mp hx with h | h
      · subst h
        exact foldl_max_le_self rest _
      · exact foldl_max_mem_le rest v.version x h
    · rcases foldl_max_attained rest v.version with h | h
      · exact ⟨v, List.mem_cons_self v rest, by rw [hunf, h]⟩
      · obtain ⟨x, hx, he⟩ := h
        exact ⟨x, List.mem_cons.mpr (Or.inr hx), by rw [hunf, he]⟩

theorem upsertVersion_ne_nil (vs : List VersionInfo) (vi : VersionInfo) :
    upsertVersion vs vi ≠ [] := by
  cases vs with
  | nil => simp [upsertVersion]
  | cons v rest =>
      by_cases hv : v.version = vi.version <;> simp [upsertVersion, hv]

/-! ## C5 -/

/-- C5: after every save, the run's metadata index contains exactly one
version-summary record per version number (in particular exactly one for the
saved version — the save replaces an existing record, else appends), and
`latest_version` equals the maximum version number present; the
distinct-versions invariant is preserved by every save, and the saved metadata
is what a subsequent lookup of the run id returns. -/
theorem update_metadata_invariant (st : StoreState) (run : ResearchRun)
    (hdist : ∀ m, alLookup st.metas run.run_id = some m →
      m.versions.Pairwise (fun a b => a.version ≠ b.version)) :
    (update_metadata st run).versions.Pairwise (fun a b => a.version ≠ b.version) ∧
    (update_metadata st run).versions.countP
      (fun v => v.version = run.version) = 1 ∧
    (update_metadata st run).latest_version =
      maxVersion (update_metadata st run).versions ∧
    (∀ v ∈ (update_metadata st run).versions,
      v.version ≤ (update_metadata st run).latest_version) ∧
    (∃ v ∈ (update_metadata st run).versions,
      v.version = (update_metadata st run).latest_version) ∧
    alLookup (save_run st run).metas run.run_id = some (update_metadata st run) := by
  have hbase : ∀ vs : List VersionInfo,
      vs.Pairwise (fun a b => a.version ≠ b.version) →
      (upsertVersion vs (mkVersionInfo run)).Pairwise
          (fun a b => a.version ≠ b.version) ∧
        (upsertVersion vs (mkVersionInfo run)).countP
          (fun v => v.version = run.version) = 1 := by
    intro vs hvs
    refine ⟨upsertVersion_pairwise hvs, ?_⟩
    have := @upsertVersion_countP vs (mkVersionInfo run) hvs
    simpa [mkVersionInfo] using this
  have hmetaversions :
      (update_metadata st run).versions.Pairwise (fun a b => a.version ≠ b.version) ∧
      (update_metadata st run).versions.countP
        (fun v => v.version = run.version) = 1 ∧
      (update_metadata st run).latest_version =
        maxVersion (update_metadata st run).versions ∧
      (update_metadata st run).versions ≠ [] := by
    unfold update_metadata
    cases hlook : alLookup st.metas run.run_id with
    | none =>
        simp only [hlook]
        exact ⟨(hbase [] (by simp)).1, (hbase [] (by simp)).2, by simp,
          upsertVersion_ne_nil _ _⟩
    | some m =>
        have hm := hdist m hlook
        by_cases hi : run.inputs.isSome
        · simp only [hlook, hi]
          exact ⟨(hbase m.versions (by simpa using hm)).1,
            (hbase m.versions (by simpa using hm)).2, by simp [hi],
            upsertVersion_ne_nil _ _⟩
        · simp only [hlook, hi]
          exact ⟨(hbase m.versions (by simpa using hm)).1,
            (hbase m.versions (by simpa using hm)).2, by simp [hi],
            upsertVersion_ne_nil _ _⟩
  obtain ⟨hp, hc, hl, hnil⟩ := hmetaversions
  have hmax := maxVersion_is_max hnil
  refine ⟨hp, hc, hl, ?_, ?_, ?_⟩
  · intro v hv
    rw [hl]
    exact hmax.1 v hv
  · obtain ⟨v, hv, he⟩ := hmax.2
    exact ⟨v, hv, by rw [hl, he]⟩
  · unfold save_run
    cases run.report_markdown with
    | none => exact alLookup_upsert_self _ _ _
    | some r =>
        by_cases hr : r.isEmpty <;> simp [hr, alLookup_upsert_self]

theorem update_metadata_invariant_witness :
    ((update_metadata sampleStore sampleRun2).versions.Pairwise
      (fun a b => a.version ≠ b.version)) ∧
    (update_metadata sampleStore sampleRun2).versions.countP
      (fun v => v.version = sampleRun2.version) = 1 ∧
    (update_metadata sampleStore sampleRun2).latest_version =
      maxVersion (update_metadata sampleStore sampleRun2).versions := by
  have h := update_metadata_invariant sampleStore sampleRun2
    (by
      intro m hm
      have hm' : m = sampleMeta := by
        simp [sampleStore, alLookup] at hm
        exact hm.2.symm
      subst hm'
      decide)
  exact ⟨h.1, h.2.1, h.2.2.1⟩

/-! ## Workflow lemmas -/

theorem load_latest_run_run_id {st : StoreState} {run_id now : Str}
    {prev : ResearchRun} (h : load_latest_run st run_id now = some prev) :
    prev.run_id = run_id := by
  unfold load_latest_run at h
  cases hlook : alLookup st.metas run_id with
  | none => rw [hlook] at h; cases h
  | some m =>
      rw [hlook] at h
      have h' := Option.some.inj h
      rw [← h']

theorem save_run_meta_lookup (st : StoreState) (run : ResearchRun) :
    alLookup (save_run st run).metas run.run_id = some (update_metadata st run) := by
  unfold save_run
  cases run.report_markdown with
  | none => exact alLookup_upsert_self _ _ _
  | some r =>
      by_cases hr : r.isEmpty <;> simp [hr, alLookup_upsert_self]

theorem update_metadata_has_version (st : StoreState) (run : ResearchRun) :
    mkVersionInfo run ∈ (update_metadata st run).versions := by
  unfold update_metadata
  cases hlook : alLookup st.metas run.run_id with
  | none => simpa using self_mem_upsertVersion _ _
  | some m =>
      by_cases hi : run.inputs.isSome <;>
        simpa [hi] using self_mem_upsertVersion _ _

theorem finalizeAfterStart_shape (st : StoreState) (o : ClientOracle)
    (run : ResearchRun) :
    ∃ run' stMid, finalizeAfterStart st o run = (run', save_run stMid run') ∧
      run'.run_id = run.run_id ∧ run'.version = run.version ∧
      run'.inputs = run.inputs := by
  unfold finalizeAfterStart
  by_cases h1 : o.startCtx.complete_via_stream = true
  · simp only [h1, if_true]
    exact ⟨_, _, rfl, rfl, rfl, rfl⟩
  · by_cases h2 : errorHasInterrupted o.startCtx.error = true
    · simp only [h1, h2, if_true, if_false, Bool.false_eq_true]
      exact ⟨_, _, rfl, rfl, rfl, rfl⟩
    · by_cases h3 : o.poll.status = InteractionStatus.completed
      · simp only [h1, h2, h3, if_true, if_false, Bool.false_eq_true]
        exact ⟨_, _, rfl, rfl, rfl, rfl⟩
      · simp only [h1, h2, h3, if_false, Bool.false_eq_true]
        exact ⟨_, _, rfl, rfl, rfl, rfl⟩

/-! ## C4 -/

/-- C4: revising a run whose latest version is completed produces a new run
version equal to the previous version plus one, preserving the original
inputs (topic and constraints) unchanged, and records that version in the
run's metadata; when the run does not exist or its latest version is not
completed, revise fails with a precondition error — raised before any save,
so no new version is created. -/
theorem revise_research_behaviour (st : StoreState) (o : ClientOracle)
    (now run_id feedback : Str) (constraints : Option ResearchConstraints) :
    (load_latest_run st run_id now = none →
      revise_research st o now run_id feedback constraints =
        .error (.runNotFound run_id)) ∧
    (∀ prev, load_latest_run st run_id now = some prev →
      prev.status ≠ .completed →
      revise_research st o now run_id feedback constraints =
        .error (.cannotRevise prev.status)) ∧
    (∀ prev, load_latest_run st run_id now = some prev →
      prev.status = .completed →
      ∃ run' st',
        revise_research st o now run_id feedback constraints = .ok (run', st') ∧
        run'.version = prev.version + 1 ∧
        run'.inputs = prev.inputs ∧
        ∃ m, alLookup st'.metas run_id = some m ∧
          ∃ vi ∈ m.versions, vi.version = prev.version + 1 ∧
            vi.inputs = prev.inputs) := by
  refine ⟨?_, ?_, ?_⟩
  · intro h
    unfold revise_research
    rw [h]
  · intro prev h hs
    unfold revise_research
    rw [h]
    simp [hs]
  · intro prev h hs
    have hrid := load_latest_run_run_id h
    unfold revise_research
    rw [h]
    simp only [hs, ne_eq, not_true_eq_false, if_false, reduceIte]
    obtain ⟨run', stMid, heq, hrid', hver, hinp⟩ :=
      finalizeAfterStart_shape
        (save_run st
          { prev.create_revision feedback
              (match constraints with
               | some c => revConstrA ++ feedback ++ revConstrM ++
                   format_constraints c ++ revConstrB
               | none => revisionA ++ feedback ++ revisionB) now with
            status := .running }) o
        { { prev.create_revision feedback
              (match constraints with
               | some c => revConstrA ++ feedback ++ revConstrM ++
                   format_constraints c ++ revConstrB
               | none => revisionA ++ feedback ++ revisionB) now with
            status := .running } with
          interaction_id := o.startCtx.interaction_id }
    refine ⟨run', save_run stMid run', by rw [heq], ?_, ?_, ?_⟩
    · rw [hver]
      simp [ResearchRun.create_revision]
    · rw [hinp]
      simp [ResearchRun.create_revision]
    · refine ⟨update_metadata stMid run', ?_, mkVersionInfo run', ?_, ?_, ?_⟩
      · have := save_run_meta_lookup stMid run'
        rw [hrid'] at this
        simpa [ResearchRun.create_revision, hrid] using this
      · exact update_metadata_has_version stMid run'
      · rw [show (mkVersionInfo run').version = run'.version from rfl, hver]
        simp [ResearchRun.create_revision]
      · rw [show (mkVersionInfo run').inputs = run'.inputs from rfl, hinp]
        simp [ResearchRun.create_revision]

theorem revise_research_behaviour_witness :
    ∃ run' st',
      revise_research sampleStore sampleOracle "t1".data "r1".data "fb".data none =
        .ok (run', st') ∧
      run'.version = 2 ∧ run'.inputs = some sampleInputs := by
  have h := (revise_research_behaviour sampleStore sampleOracle "t1".data "r1".data
      "fb".data none).2.2 samplePrev (by decide) (by decide)
  obtain ⟨run', st', heq, hver, hinp, -⟩ := h
  refine ⟨run', st', heq, ?_, ?_⟩
  · rw [hver]
    decide
  · rw [hinp]
    decide

/-! ## C7 -/

/-- C7: resume requires a recorded remote job id — with no saved stream state
it fails with a precondition error; with one, every remote call it makes (the
stream resume and the optional poll fallback) targets exactly the recorded
job id, and no job-creation call is ever made.  (The storage functions for
stream state are modelled from the spec, being absent from src/storage.py.) -/
theorem resume_interrupted_behaviour (st : StoreState) (o : ClientOracle)
    (now run_id : Str) :
    (load_latest_run st run_id now = none →
      resume_interrupted st o now run_id = .error (.runNotFound run_id)) ∧
    (∀ run, load_latest_run st run_id now = some run →
      load_stream_state st run_id = none →
      resume_interrupted st o now run_id = .error (.noStreamState run_id)) ∧
    (∀ run ss, load_latest_run st run_id now = some run →
      load_stream_state st run_id = some ss →
      ∃ run' st' calls,
        resume_interrupted st o now run_id = .ok (run', st', calls) ∧
        calls ≠ [] ∧
        (∀ c ∈ calls,
          c = ClientCall.resumeStreamCall ss.interaction_id ss.last_event_id ∨
          c = ClientCall.pollCall ss.interaction_id) ∧
        (∀ p, ClientCall.createCall p ∉ calls)) := by
  refine ⟨?_, ?_, ?_⟩
  · intro h
    unfold resume_interrupted
    rw [h]
  · intro run h hss
    unfold resume_interrupted
    rw [h, hss]
  · intro run ss h hss
    unfold resume_interrupted
    rw [h, hss]
    by_cases h1 : o.resumeCore.complete_via_stream = true
    · simp only [resume_stream, h1, if_true]
      refine ⟨_, _, _, rfl, by simp, ?_, ?_⟩
      · intro c hc
        simp only [List.mem_singleton] at hc
        exact Or.inl hc
      · intro p
        simp
    · by_cases h2 : o.poll.status = InteractionStatus.completed
      · simp only [resume_stream, h1, h2, if_true, if_false, Bool.false_eq_true]
        refine ⟨_, _, _, rfl, by simp, ?_, ?_⟩
        · intro c hc
          rcases List.mem_cons.mp hc with hc | hc
          · exact Or.inl hc
          · simp only [List.mem_singleton] at hc
            exact Or.inr hc
        · intro p
          simp
      · simp only [resume_stream, h1, h2, if_false, Bool.false_eq_true, reduceIte]
        refine ⟨_, _, _, rfl, by simp, ?_, ?_⟩
        · intro c hc
          rcases List.mem_cons.mp hc with hc | hc
          · exact Or.inl hc
          · simp only [List.mem_singleton] at hc
            exact Or.inr hc
        · intro p
          simp

theorem resume_interrupted_behaviour_witness :
    (resume_interrupted sampleStore sampleOracle "t1".data "r1".data =
      .error (.noStreamState "r1".data)) ∧
    ∃ run' st' calls,
      resume_interrupted sampleStoreSS sampleOracle "t1".data "r1".data =
        .ok (run', st', calls) ∧
      calls ≠ [] ∧
      (∀ c ∈ calls,
        c = ClientCall.resumeStreamCall "job-1".data "ev-9".data ∨
        c = ClientCall.pollCall "job-1".data) ∧
      (∀ p, ClientCall.createCall p ∉ calls) := by
  constructor
  · exact (resume_interrupted_behaviour sampleStore sampleOracle "t1".data
      "r1".data).2.1 samplePrev (by decide) (by decide)
  · exact (resume_interrupted_behaviour sampleStoreSS sampleOracle "t1".data
      "r1".data).2.2 samplePrev ⟨"job-1".data, "ev-9".data, "part ".data⟩
      (by decide) (by decide)

/-! ## C9 -/

/-- C9: validation reports every `[N]` reference whose ordinal has no source
as an error, every source lacking a URL as an error, and the never-referenced
source ordinals as one aggregated "Unused sources" message listing the
ordinals sorted numerically — a message class that appears exactly when some
source is unused, distinguishing the warning from the per-reference and
per-source errors. -/
theorem validate_citations_findings (text : Str) (sources : List (Str × SourceInfo)) :
    (∀ n, n ∈ citeRefs text → alLookup sources n = none →
      ("Citation [".data ++ n ++ "] references missing source".data) ∈
        validate_citations text sources) ∧
    (∀ k si, (k, si) ∈ sources → si.url = [] →
      ("Source ".data ++ k ++ " missing URL".data) ∈
        validate_citations text sources) ∧
    ((sources.map Prod.fst).filter (fun k => !((citeRefs text).contains k)) ≠ [] →
      ("Unused sources: ".data ++ renderPyList (sortByNat natOfDigits
        ((sources.map Prod.fst).filter (fun k => !((citeRefs text).contains k))))) ∈
        validate_citations text sources) ∧
    ((sources.map Prod.fst).filter (fun k => !((citeRefs text).contains k)) = [] →
      ∀ e ∈ validate_citations text sources, ¬ ∃ l, e = "Unused sources: ".data ++ l) := by
  refine ⟨?_, ?_, ?_, ?_⟩
  · intro n hn hlook
    unfold validate_citations
    refine List.mem_append.mpr (Or.inl (List.mem_append.mpr (Or.inl ?_)))
    refine List.mem_filterMap.mpr ⟨n, hn, ?_⟩
    rw [hlook]
    rfl
  · intro k si hmem hurl
    unfold validate_citations
    refine List.mem_append.mpr (Or.inl (List.mem_append.mpr (Or.inr ?_)))
    refine List.mem_filterMap.mpr ⟨(k, si), hmem, ?_⟩
    simp [hurl]
  · intro hne
    unfold validate_citations
    refine List.mem_append.mpr (Or.inr ?_)
    simp only [List.isEmpty_eq_true, hne, if_false]
    simp
  · intro hempty e he
    rintro ⟨l, hl⟩
    unfold validate_citations at he
    simp only [hempty] at he
    rcases List.mem_append.mp he with hm | hm
    · rcases List.mem_append.mp hm with hm2 | hm2
      · obtain ⟨r, _, hr⟩ := List.mem_filterMap.mp hm2
        by_cases hcase : (alLookup sources r).isNone
        · simp only [hcase, if_true] at hr
          have he' := Option.some.inj hr
          rw [← he'] at hl
          have hC : ("Citation [".data ++ r ++ "] references missing source".data : Str) =
              'C' :: ("itation [".data ++ (r ++ "] references missing source".data)) := by
            simp
          have hU : ("Unused sources: ".data ++ l : Str) =
              'U' :: ("nused sources: ".data ++ l) := rfl
          rw [hC, hU] at hl
          have := (List.cons_eq_cons.mp hl).1
          exact absurd this (by decide)
        · simp [hcase] at hr
      · obtain ⟨p, _, hp⟩ := List.mem_filterMap.mp hm2
        by_cases hcase : p.2.url.isEmpty
        · simp only [hcase, if_true] at hp
          have he' := Option.some.inj hp
          rw [← he'] at hl
          have hS : ("Source ".data ++ p.1 ++ " missing URL".data : Str) =
              'S' :: ("ource ".data ++ (p.1 ++ " missing URL".data)) := by
            simp
          have hU : ("Unused sources: ".data ++ l : Str) =
              'U' :: ("nused sources: ".data ++ l) := rfl
          rw [hS, hU] at hl
          have := (List.cons_eq_cons.mp hl).1
          exact absurd this (by decide)
        · simp [hcase] at hp
    · simp at hm

theorem validate_citations_findings_witness :
    "Citation [9] references missing source".data ∈ validate_citations wText wSources ∧
    "Source 2 missing URL".data ∈ validate_citations wText wSources ∧
    "Unused sources: ['2', '3']".data ∈ validate_citations wText wSources := by
  have h := validate_citations_findings wText wSources
  refine ⟨?_, ?_, ?_⟩
  · have h1 := h.1 "9".data (by decide) (by decide)
    have e : ("Citation [".data ++ "9".data ++ "] references missing source".data : Str) =
        "Citation [9] references missing source".data := by decide
    rw [e] at h1
    exact h1
  · have h2 := h.2.1 "2".data ⟨"Two".data, [], none⟩ (by decide) (by decide)
    have e : ("Source ".data ++ "2".data ++ " missing URL".data : Str) =
        "Source 2 missing URL".data := by decide
    rw [e] at h2
    exact h2
  · have h3 := h.2.2.1 (by decide)
    have e : ("Unused sources: ".data ++ renderPyList (sortByNat natOfDigits
        ((wSources.map Prod.fst).filter (fun k => !((citeRefs wText).contains k)))) : Str) =
        "Unused sources: ['2', '3']".data := by decide
    rw [e] at h3
    exact h3

/-! ## Character-class and literal-matching lemmas -/

theorem space_not_digit {c : Char} (h : isSpaceC c = true) : isDigitC c = false := by
  simp only [isSpaceC, Bool.or_eq_true, decide_eq_true_eq] at h
  rcases h with ((((h | h) | h) | h) | h) | h <;> subst h <;> decide

theorem digit_not_space {c : Char} (h : isDigitC c = true) : isSpaceC c = false := by
  cases hs : isSpaceC c
  · rfl
  · rw [space_not_digit hs] at h
    cases h

theorem digit_ne {c x : Char} (h : isDigitC c = true) (hx : isDigitC x = false) :
    c ≠ x := by
  intro e
  rw [e, hx] at h
  cases h

theorem notMem_of_class {p : Char → Bool} {s : Str} {x : Char}
    (hs : ∀ c ∈ s, p c = true) (hx : p x = false) : x ∉ s := by
  intro hmem
  rw [hs x hmem] at hx
  cases hx

theorem head?_ne_of_not_mem {s : Str} {x : Char} (h : x ∉ s) :
    s.head? ≠ some x := by
  cases s with
  | nil => simp
  | cons c cs =>
      simp only [List.head?_cons, ne_eq, Option.some.injEq]
      intro e
      exact h (by simp [e])

theorem takeWhile_all_stop {p : Char → Bool} {a : Str} {c : Char} (b : Str)
    (ha : ∀ x ∈ a, p x = true) (hc : p c = false) :
    (a ++ c :: b).takeWhile p = a ∧ (a ++ c :: b).dropWhile p = c :: b := by
  constructor
  · rw [takeWhile_append_all (c :: b) ha,
      takeWhile_eq_nil_of_head (by simp [hc])]
    simp
  · rw [dropWhile_append_all (c :: b) ha,
      List.dropWhile_cons_of_neg (by simp [hc])]

theorem stripLit_self_append (p r : Str) : stripLit p (p ++ r) = some r := by
  induction p with
  | nil => simp [stripLit]
  | cons a ps ih => simp [stripLit, ih]

theorem stripLit_cons_ne {p : Char} {ps : Str} {c : Char} {cs : Str} (h : c ≠ p) :
    stripLit (p :: ps) (c :: cs) = none := by
  simp [stripLit, h]

theorem stripLit_length {p : Str} : ∀ {s r : Str}, stripLit p s = some r →
    s.length = p.length + r.length := by
  induction p with
  | nil =>
      intro s r h
      simp only [stripLit, Option.some.injEq] at h
      simp [← h]
  | cons a ps ih =>
      intro s r h
      cases s with
      | nil => simp [stripLit] at h
      | cons c cs =>
          by_cases hc : c = a
          · rw [stripLit, if_pos hc] at h
            have := ih h
            simp [this]
            omega
          · rw [stripLit, if_neg hc] at h
            cases h

/-! ## Shrinking of the concrete patterns -/

theorem trySubCite_shrinking (sources : List (Str × SourceInfo)) :
    Shrinking (trySubCite sources) := by
  intro s r rest h
  unfold trySubCite at h
  cases hlit : stripLit "[cite:".data s with
  | none => rw [hlit] at h; simp at h
  | some r0 =>
      rw [hlit] at h
      dsimp only at h
      have hs : s.length = 6 + r0.length := by
        have := stripLit_length hlit
        simpa using this
      by_cases hrun : (r0.takeWhile citeClass).isEmpty
      · rw [if_pos hrun] at h; simp at h
      · rw [if_neg hrun] at h
        split at h
        · rename_i rest' hdrop
          have hlen : (r0.dropWhile citeClass).length ≤ r0.length :=
            length_dropWhile_le _ _
          rw [hdrop] at hlen
          simp only [List.length_cons] at hlen
          have hrest : rest = rest' := by
                        simpa using (congrArg Prod.snd (Option.some.inj h)).symm
          rw [hrest]
          omega
        · simp at h

theorem trySubBareTail_length {sources : List (Str × SourceInfo)} {r p rest : Str}
    (h : trySubBareTail sources r = some (p, rest)) : rest.length < r.length := by
  unfold trySubBareTail at h
  dsimp only at h
  by_cases hnum : (r.takeWhile isDigitC).isEmpty
  · rw [if_pos hnum] at h; simp at h
  · rw [if_neg hnum] at h
    split at h
    · rename_i rest' hdrop
      have hlen : (r.dropWhile isDigitC).length ≤ r.length :=
        length_dropWhile_le _ _
      rw [hdrop] at hlen
      simp only [List.length_cons] at hlen
      by_cases hh : rest'.head? = some '('
      · rw [if_pos hh] at h; simp at h
      · rw [if_neg hh] at h
        cases hlook : alLookup sources (r.takeWhile isDigitC) with
        | some si =>
            rw [hlook] at h
            have hrest : rest = rest' := by
                        simpa using (congrArg Prod.snd (Option.some.inj h)).symm
            rw [hrest]
            omega
        | none =>
            rw [hlook] at h
            have hrest : rest = rest' := by
                        simpa using (congrArg Prod.snd (Option.some.inj h)).symm
            rw [hrest]
            omega
    · simp at h

theorem trySubBare_shrinking (sources : List (Str × SourceInfo)) :
    Shrinking (trySubBare sources) := by
  intro s r rest h
  unfold trySubBare at h
  cases s with
  | nil => simp at h
  | cons c r1 =>
      dsimp only at h
      by_cases hc : c = '['
      · rw [if_pos hc] at h
        have := trySubBareTail_length h
        simp only [List.length_cons]
        omega
      · rw [if_neg hc] at h
        simp at h

theorem trySubDupTail_length {r p rest : Str}
    (h : trySubDupTail r = some (p, rest)) : rest.length < r.length := by
  unfold trySubDupTail at h
  dsimp only at h
  by_cases hnum : (r.takeWhile isDigitC).isEmpty
  · rw [if_pos hnum] at h; simp at h
  · rw [if_neg hnum] at h
    split at h
    · rename_i r2 hdrop
      have hlen1 : (r.dropWhile isDigitC).length ≤ r.length :=
        length_dropWhile_le _ _
      rw [hdrop] at hlen1
      simp only [List.length_cons] at hlen1
      by_cases hu1 : (r2.takeWhile (fun c => c != ')')).isEmpty
      · rw [if_pos hu1] at h; simp at h
      · rw [if_neg hu1] at h
        split at h
        · rename_i r3 hdrop2
          have hlen2 : (r2.dropWhile (fun c => c != ')')).length ≤ r2.length :=
            length_dropWhile_le _ _
          rw [hdrop2] at hlen2
          simp only [List.length_cons] at hlen2
          cases hlit : stripLit "(http".data r3 with
          | none => rw [hlit] at h; simp at h
          | some r4 =>
              rw [hlit] at h
              dsimp only at h
              have hlen3 : r3.length = 5 + r4.length := by
                have := stripLit_length hlit
                simpa using this
              cases htail : httpTail r4 with
              | none => rw [htail] at h; simp at h
              | some r5 =>
                  rw [htail] at h
                  dsimp only at h
                  have hlen4 : r5.length ≤ r4.length := by
                    unfold httpTail at htail
                    cases hlit2 : stripLit "s://".data r4 with
                    | some r5' =>
                        rw [hlit2] at htail
                        have he := Option.some.inj htail
                        have := stripLit_length hlit2
                        rw [he] at this
                        simp at this
                        omega
                    | none =>
                        rw [hlit2] at htail
                        have := stripLit_length htail
                        simp at this
                        omega
                  by_cases hu2 : (r5.takeWhile (fun c => c != ')')).isEmpty
                  · rw [if_pos hu2] at h; simp at h
                  · rw [if_neg hu2] at h
                    split at h
                    · rename_i rest' hdrop3
                      have hlen5 : (r5.dropWhile (fun c => c != ')')).length ≤
                          r5.length := length_dropWhile_le _ _
                      rw [hdrop3] at hlen5
                      simp only [List.length_cons] at hlen5
                      have hrest : rest = rest' := by
                        simpa using (congrArg Prod.snd (Option.some.inj h)).symm
                      rw [hrest]
                      omega
                    · simp at h
        · simp at h
    · simp at h

theorem trySubDup_shrinking : Shrinking trySubDup := by
  intro s r rest h
  unfold trySubDup at h
  cases s with
  | nil => simp at h
  | cons c r1 =>
      dsimp only at h
      by_cases hc : c = '['
      · rw [if_pos hc] at h
        have := trySubDupTail_length h
        simp only [List.length_cons]
        omega
      · rw [if_neg hc] at h
        simp at h

theorem tryEntry_shrinkingC : ShrinkingC tryEntry := by
  intro s a rest h
  unfold tryEntry at h
  dsimp only at h
  by_cases hnum : (s.takeWhile isDigitC).isEmpty
  · rw [if_pos hnum] at h; simp at h
  · rw [if_neg hnum] at h
    split at h
    · rename_i r1 hdrop
      have hlen1 : (s.dropWhile isDigitC).length ≤ s.length :=
        length_dropWhile_le _ _
      rw [hdrop] at hlen1
      simp only [List.length_cons] at hlen1
      split at h
      · rename_i r3 hdrop2
        have hlen2 : (r1.dropWhile isSpaceC).length ≤ r1.length :=
          length_dropWhile_le _ _
        rw [hdrop2] at hlen2
        simp only [List.length_cons] at hlen2
        by_cases ht : (r3.takeWhile (fun c => c != ']')).isEmpty
        · rw [if_pos ht] at h; simp at h
        · rw [if_neg ht] at h
          split at h
          · rename_i r4 hdrop3
            have hlen3 : (r3.dropWhile (fun c => c != ']')).length ≤ r3.length :=
              length_dropWhile_le _ _
            rw [hdrop3] at hlen3
            simp only [List.length_cons] at hlen3
            by_cases hu : (r4.takeWhile (fun c => c != ')')).isEmpty
            · rw [if_pos hu] at h; simp at h
            · rw [if_neg hu] at h
              split at h
              · rename_i r5 hdrop4
                have hlen4 : (r4.dropWhile (fun c => c != ')')).length ≤ r4.length :=
                  length_dropWhile_le _ _
                rw [hdrop4] at hlen4
                simp only [List.length_cons] at hlen4
                have hrest : rest = r5 := by
                  simpa using (congrArg Prod.snd (Option.some.inj h)).symm
                rw [hrest]
                omega
              · simp at h
          · simp at h
      · simp at h
    · simp at h

theorem tryRef_shrinkingC : ShrinkingC tryRef := by
  intro s a rest h
  unfold tryRef at h
  cases s with
  | nil => simp at h
  | cons c r1 =>
      dsimp only at h
      by_cases hc : c = '['
      · rw [if_pos hc] at h
        by_cases hnum : (r1.takeWhile isDigitC).isEmpty
        · rw [if_pos hnum] at h; simp at h
        · rw [if_neg hnum] at h
          split at h
          · rename_i rest' hdrop
            have hlen : (r1.dropWhile isDigitC).length ≤ r1.length :=
              length_dropWhile_le _ _
            rw [hdrop] at hlen
            simp only [List.length_cons] at hlen
            have hrest : rest = rest' := by
                        simpa using (congrArg Prod.snd (Option.some.inj h)).symm
            rw [hrest]
            simp only [List.length_cons]
            omega
          · simp at h
      · rw [if_neg hc] at h
        simp at h

/-! ## Trigger characters: every normalize pattern starts at a bracket -/

theorem trySubCite_none_of_ne (sources : List (Str × SourceInfo)) {c : Char}
    {cs : Str} (h : c ≠ '[') : trySubCite sources (c :: cs) = none := by
  unfold trySubCite
  rw [show ("[cite:".data : Str) = '[' :: "cite:".data from rfl,
    stripLit_cons_ne h]

theorem trySubBare_none_of_ne (sources : List (Str × SourceInfo)) {c : Char}
    {cs : Str} (h : c ≠ '[') : trySubBare sources (c :: cs) = none := by
  simp [trySubBare, h]

theorem trySubDup_none_of_ne {c : Char} {cs : Str} (h : c ≠ '[') :
    trySubDup (c :: cs) = none := by
  simp [trySubDup, h]

theorem tryRef_none_of_ne {c : Char} {cs : Str} (h : c ≠ '[') :
    tryRef (c :: cs) = none := by
  simp [tryRef, h]

theorem trySubCite_none_digit (sources : List (Str × SourceInfo)) {d : Char}
    (hd : isDigitC d = true) (rest : Str) :
    trySubCite sources ('[' :: d :: rest) = none := by
  have h1 : d ≠ 'c' := digit_ne hd (by decide)
  unfold trySubCite
  rw [show ("[cite:".data : Str) = '[' :: 'c' :: "ite:".data from rfl]
  simp [stripLit, h1]

/-- A bracketless string passes through a rewrite pass unchanged. -/
theorem scanRewrite_id_of_noBracket {try? : Str → Option (Str × Str)}
    (h : Shrinking try?)
    (hno : ∀ c cs, c ≠ '[' → try? (c :: cs) = none)
    {s : Str} (hs : '[' ∉ s) {f : Nat} (hf : s.length ≤ f) :
    scanRewrite try? f s = s := by
  have hp := scanRewrite_passthrough h (fun c => c = '[') hno s [] f
    (fun c hc e => hs (by rw [← e]; exact hc)) (by simpa using hf)
  simpa [scanRewrite] using hp

theorem scanCollect_nil_of_noBracket {α : Type} {try? : Str → Option (α × Str)}
    (h : ShrinkingC try?)
    (hno : ∀ c cs, c ≠ '[' → try? (c :: cs) = none)
    {s : Str} (hs : '[' ∉ s) {f : Nat} (hf : s.length ≤ f) :
    scanCollect try? f s = [] := by
  have hp := scanCollect_passthrough h (fun c => c = '[') hno s [] f
    (fun c hc e => hs (by rw [← e]; exact hc)) (by simpa using hf)
  simpa [scanCollect] using hp

/-! ## joinSep, splitOnComma and stripWs -/

theorem joinSep_class {p : Char → Bool} {sep : Str}
    (hsep : ∀ c ∈ sep, p c = true) :
    ∀ ns : List Str, (∀ n ∈ ns, ∀ c ∈ n, p c = true) →
      ∀ c ∈ joinSep sep ns, p c = true := by
  intro ns
  induction ns with
  | nil => intro _ c hc; cases hc
  | cons n rest ih =>
      intro hns c hc
      cases rest with
      | nil => exact hns n (by simp) c (by simpa [joinSep] using hc)
      | cons y t =>
          simp only [joinSep, List.append_assoc, List.mem_append] at hc
          rcases hc with hc | hc | hc
          · exact hns n (by simp) c hc
          · exact hsep c hc
          · exact ih (fun m hm => hns m (by simp [hm])) c hc

theorem joinSep_head_digit {ns : List Str} (hne : ns ≠ [])
    (hns : ∀ n ∈ ns, numOK n) :
    ∃ d J', joinSep ", ".data ns = d :: J' ∧ isDigitC d = true := by
  match ns, hne with
  | n :: rest, _ =>
    obtain ⟨hn1, hn2⟩ := hns n (by simp)
    match n, hn1 with
    | d :: n', _ =>
      have hd : isDigitC d = true := hn2 d (by simp)
      cases rest with
      | nil => exact ⟨d, n', rfl, hd⟩
      | cons y t =>
          refine ⟨d, n' ++ ", ".data ++ joinSep ", ".data (y :: t), ?_, hd⟩
          simp [joinSep]

theorem splitOnComma_no_comma {s : Str} (h : ',' ∉ s) :
    splitOnComma s = [s] := by
  induction s with
  | nil => rfl
  | cons c cs ih =>
      have hc : c ≠ ',' := fun e => h (by simp [e])
      have ihs := ih (fun hm => h (by simp [hm]))
      simp [splitOnComma, hc, ihs]

theorem splitOnComma_append_comma {x : Str} (t : Str) (hx : ',' ∉ x) :
    splitOnComma (x ++ ',' :: t) = x :: splitOnComma t := by
  induction x with
  | nil => simp [splitOnComma]
  | cons c cs ih =>
      have hc : c ≠ ',' := fun e => hx (by simp [e])
      have ihs := ih (fun hm => hx (by simp [hm]))
      simp [splitOnComma, hc, ihs]

theorem splitOnComma_ne_nil (s : Str) : splitOnComma s ≠ [] := by
  induction s with
  | nil => simp [splitOnComma]
  | cons c cs ih =>
      by_cases hc : c = ','
      · simp [splitOnComma, hc]
      · simp only [splitOnComma, hc, if_false]
        cases hs : splitOnComma cs with
        | nil => exact absurd hs ih
        | cons a b => simp

theorem dropWhile_eq_self_of_all {p : Char → Bool} {s : Str}
    (h : ∀ c ∈ s, p c = false) : s.dropWhile p = s := by
  cases s with
  | nil => rfl
  | cons c cs => exact List.dropWhile_cons_of_neg (by simp [h c (by simp)])

theorem stripWs_of_class {n : Str} (h : ∀ c ∈ n, isSpaceC c = false) :
    stripWs n = n := by
  unfold stripWs
  rw [dropWhile_eq_self_of_all h,
    dropWhile_eq_self_of_all (fun c hc => h c (List.mem_reverse.mp hc)),
    List.reverse_reverse]

theorem stripWs_digits {n : Str} (h : ∀ c ∈ n, isDigitC c = true) :
    stripWs n = n :=
  stripWs_of_class (fun c hc => digit_not_space (h c hc))

theorem stripWs_space_cons (s : Str) : stripWs (' ' :: s) = stripWs s := by
  unfold stripWs
  rw [List.dropWhile_cons_of_pos (by decide)]

theorem split_join :
    ∀ ns : List Str, (∀ n ∈ ns, numOK n) → ns ≠ [] →
      (splitOnComma (joinSep ", ".data ns)).map stripWs = ns := by
  intro ns
  induction ns with
  | nil => intro _ h; exact absurd rfl h
  | cons n rest ih =>
      intro hns _
      obtain ⟨hn1, hn2⟩ := hns n (by simp)
      have hnc : ',' ∉ n := notMem_of_class hn2 (by decide)
      cases rest with
      | nil =>
          rw [show joinSep ", ".data [n] = n from rfl, splitOnComma_no_comma hnc]
          simp [stripWs_digits hn2]
      | cons y t =>
          have hj : joinSep ", ".data (n :: y :: t) =
              n ++ ',' :: ' ' :: joinSep ", ".data (y :: t) := by
            simp [joinSep]
          rw [hj, splitOnComma_append_comma _ hnc]
          cases hs : splitOnComma (joinSep ", ".data (y :: t)) with
          | nil => exact absurd hs (splitOnComma_ne_nil _)
          | cons a b =>
              have hsp : splitOnComma (' ' :: joinSep ", ".data (y :: t)) =
                  (' ' :: a) :: b := by
                simp [splitOnComma, hs]
              rw [hsp]
              have ihr := ih (fun m hm => hns m (by simp [hm])) (by simp)
              rw [hs] at ihr
              simp only [List.map_cons] at ihr ⊢
              rw [stripWs_space_cons, stripWs_digits hn2]
              exact congrArg (n :: ·) ihr

/-! ## Head-of-match computations for the three normalize passes -/

theorem citeClass_of_digit {c : Char} (h : isDigitC c = true) :
    citeClass c = true := by
  simp [citeClass, h]

theorem citeGroup_marker {ns : List Str} (hne : ns ≠ [])
    (hns : ∀ n ∈ ns, numOK n) :
    citeGroup (' ' :: joinSep ", ".data ns) = joinSep ", ".data ns := by
  obtain ⟨d, J', hJ, hd⟩ := joinSep_head_digit hne hns
  unfold citeGroup
  rw [List.dropWhile_cons_of_pos (by decide), hJ,
    List.dropWhile_cons_of_neg (by simp [digit_not_space hd])]
  simp

theorem citeReplace_marker (sources : List (Str × SourceInfo)) {ns : List Str}
    (hne : ns ≠ []) (hns : ∀ n ∈ ns, numOK n) :
    citeReplace sources (' ' :: joinSep ", ".data ns) =
      joinSep ", ".data (ns.map (linkOrBare sources)) := by
  unfold citeReplace
  rw [citeGroup_marker hne hns, split_join ns hns hne]

theorem trySubCite_marker (sources : List (Str × SourceInfo)) {ns : List Str}
    (post : Str) (hne : ns ≠ []) (hns : ∀ n ∈ ns, numOK n) :
    trySubCite sources ("[cite: ".data ++ joinSep ", ".data ns ++ ']' :: post) =
      some (joinSep ", ".data (ns.map (linkOrBare sources)), post) := by
  have hshape : "[cite: ".data ++ joinSep ", ".data ns ++ ']' :: post =
      "[cite:".data ++ ((' ' :: joinSep ", ".data ns) ++ ']' :: post) := by
    simp
  rw [hshape]
  unfold trySubCite
  rw [stripLit_self_append]
  dsimp only
  have hclass : ∀ c ∈ ' ' :: joinSep ", ".data ns, citeClass c = true := by
    intro c hc
    rcases List.mem_cons.mp hc with rfl | hc
    · decide
    · exact joinSep_class (by decide) ns
        (fun n hn c' hc' => citeClass_of_digit ((hns n hn).2 c' hc')) c hc
  obtain ⟨ht, hd⟩ := takeWhile_all_stop post hclass
    (by decide : citeClass ']' = false)
  rw [ht, hd, citeReplace_marker sources hne hns]
  simp

theorem trySubCite_marker_cons (sources : List (Str × SourceInfo))
    {ns : List Str} (post : Str) (hne : ns ≠ []) (hns : ∀ n ∈ ns, numOK n) :
    trySubCite sources
      ('[' :: ("cite: ".data ++ joinSep ", ".data ns ++ ']' :: post)) =
      some (joinSep ", ".data (ns.map (linkOrBare sources)), post) :=
  trySubCite_marker sources post hne hns

theorem trySubBare_at_link (sources : List (Str × SourceInfo)) {n X : Str}
    (hn : numOK n) :
    trySubBare sources ('[' :: (n ++ ']' :: '(' :: X)) = none := by
  unfold trySubBare
  dsimp only
  rw [if_pos rfl]
  unfold trySubBareTail
  obtain ⟨ht, hd⟩ := takeWhile_all_stop ('(' :: X) hn.2
    (by decide : isDigitC ']' = false)
  dsimp only
  rw [ht, hd, if_neg (by simp [List.isEmpty_iff, hn.1])]
  simp

theorem trySubBare_at_bare (sources : List (Str × SourceInfo)) {n tail : Str}
    (hn : numOK n) (ht : tail.head? ≠ some '(') :
    trySubBare sources ('[' :: (n ++ ']' :: tail)) =
      some (linkOrBare sources n, tail) := by
  unfold trySubBare
  dsimp only
  rw [if_pos rfl]
  unfold trySubBareTail
  obtain ⟨htw, hdw⟩ := takeWhile_all_stop tail hn.2
    (by decide : isDigitC ']' = false)
  dsimp only
  rw [htw, hdw, if_neg (by simp [List.isEmpty_iff, hn.1])]
  unfold linkOrBare
  cases hlook : alLookup sources n <;> simp [hlook, ht]

theorem trySubDup_at_link {n u tail : Str} (hn : numOK n) (hu0 : u ≠ [])
    (hu : ')' ∉ u) (ht : tail.head? ≠ some '(') :
    trySubDup ('[' :: (n ++ ']' :: '(' :: (u ++ ')' :: tail))) = none := by
  unfold trySubDup
  dsimp only
  rw [if_pos rfl]
  unfold trySubDupTail
  obtain ⟨ht1, hd1⟩ := takeWhile_all_stop ('(' :: (u ++ ')' :: tail)) hn.2
    (by decide : isDigitC ']' = false)
  dsimp only
  rw [ht1, hd1, if_neg (by simp [List.isEmpty_iff, hn.1])]
  have huc : ∀ c ∈ u, (c != ')') = true := by
    intro c hc
    simp only [bne_iff_ne, ne_eq]
    exact fun e => hu (e ▸ hc)
  obtain ⟨ht2, hd2⟩ := takeWhile_all_stop tail huc
    (by decide : ((')' != ')') : Bool) = false)
  have hlit : stripLit "(http".data tail = none := by
    cases tail with
    | nil => rfl
    | cons t0 ts =>
        have h0 : t0 ≠ '(' := fun e => ht (by simp [e])
        rw [show ("(http".data : Str) = '(' :: "http".data from rfl]
        exact stripLit_cons_ne h0
  simp [ht2, hd2, List.isEmpty_iff, hu0, hlit]

theorem trySubDup_at_bare {n tail : Str} (hn : numOK n)
    (ht : tail.head? ≠ some '(') :
    trySubDup ('[' :: (n ++ ']' :: tail)) = none := by
  unfold trySubDup
  dsimp only
  rw [if_pos rfl]
  unfold trySubDupTail
  obtain ⟨ht1, hd1⟩ := takeWhile_all_stop tail hn.2
    (by decide : isDigitC ']' = false)
  dsimp only
  rw [ht1, hd1, if_neg (by simp [List.isEmpty_iff, hn.1])]
  cases tail with
  | nil => rfl
  | cons t0 ts =>
      have h0 : t0 ≠ '(' := fun e => ht (by simp [e])
      split
      · rename_i r2 heq
        obtain ⟨-, heq2⟩ := List.cons_eq_cons.mp heq
        exact absurd (List.cons_eq_cons.mp heq2).1 h0
      · rfl

/-! ## Pass-through of rendered citations -/

theorem alLookup_mem {κ α : Type} [DecidableEq κ] {l : List (κ × α)} {k : κ}
    {v : α} (h : alLookup l k = some v) : (k, v) ∈ l := by
  induction l with
  | nil => simp [alLookup] at h
  | cons p rest ih =>
      obtain ⟨k', v'⟩ := p
      by_cases hk : k' = k
      · subst hk
        rw [alLookup, if_pos rfl] at h
        have := Option.some.inj h
        rw [← this]
        simp
      · rw [alLookup, if_neg hk] at h
        exact List.mem_cons.mpr (Or.inr (ih h))

/-- Skip an unmatched bracket and pass through a bracketless remainder. -/
theorem scan_skip_body {try? : Str → Option (Str × Str)} (h : Shrinking try?)
    (hno : ∀ c cs, c ≠ '[' → try? (c :: cs) = none)
    {body post : Str} (hhead : try? ('[' :: (body ++ post)) = none)
    (hbody : '[' ∉ body) (hpost : '[' ∉ post) (f : Nat)
    (hf : ('[' :: (body ++ post)).length ≤ f) :
    scanRewrite try? f ('[' :: (body ++ post)) = '[' :: (body ++ post) := by
  rw [scanRewrite_skip h hhead f hf]
  rw [scanRewrite_passthrough h (fun c => c = '[') hno body post (body ++ post).length
    (fun c hc e => hbody (by rw [← e]; exact hc)) le_rfl]
  rw [scanRewrite_id_of_noBracket h hno hpost le_rfl]

theorem pass2_chunk_step (sources : List (Str × SourceInfo))
    (hsrc : srcUrlsOK sources) {n : Str} (hn : numOK n)
    (T : Str) (hT : T.head? ≠ some '(') (f : Nat)
    (hf : (linkOrBare sources n ++ T).length ≤ f) :
    scanRewrite (trySubBare sources) f (linkOrBare sources n ++ T) =
      linkOrBare sources n ++ scanRewrite (trySubBare sources) T.length T := by
  cases hlook : alLookup sources n with
  | none =>
      have hshape : linkOrBare sources n ++ T = '[' :: (n ++ ']' :: T) := by
        simp [linkOrBare, hlook]
      rw [hshape,
        scanRewrite_step (trySubBare_shrinking sources)
          (trySubBare_at_bare sources hn hT) f (by rw [← hshape]; exact hf)]
  | some si =>
      obtain ⟨hu0, huB, huP⟩ := hsrc _ (alLookup_mem hlook)
      have hshape : linkOrBare sources n ++ T =
          '[' :: ((n ++ ']' :: '(' :: finalOrUrl si ++ [')']) ++ T) := by
        simp [linkOrBare, hlook]
      rw [hshape,
        scanRewrite_skip (trySubBare_shrinking sources)
          (by
            have : trySubBare sources
                ('[' :: (n ++ ']' :: '(' :: (finalOrUrl si ++ ')' :: T))) =
                  none := trySubBare_at_link sources hn
            simpa using this)
          f (by rw [← hshape]; exact hf)]
      rw [scanRewrite_passthrough (trySubBare_shrinking sources)
        (fun c => c = '[')
        (fun c cs hne => trySubBare_none_of_ne sources hne)
        (n ++ ']' :: '(' :: finalOrUrl si ++ [')']) T
        ((n ++ ']' :: '(' :: finalOrUrl si ++ [')']) ++ T).length
        (fun c hc e => by
          subst e
          simp only [List.mem_append, List.mem_cons, List.mem_singleton] at hc
          rcases hc with (hc | hc | hc | hc) | (hc | hc)
          exacts [absurd (hn.2 '[' hc) (by decide), absurd hc (by decide),
            absurd hc (by decide), huB hc, absurd hc (by decide),
            absurd hc (by simp)])
        le_rfl]
      simp [linkOrBare, hlook]

theorem pass3_chunk_step (sources : List (Str × SourceInfo))
    (hsrc : srcUrlsOK sources) {n : Str} (hn : numOK n)
    (T : Str) (hT : T.head? ≠ some '(') (f : Nat)
    (hf : (linkOrBare sources n ++ T).length ≤ f) :
    scanRewrite trySubDup f (linkOrBare sources n ++ T) =
      linkOrBare sources n ++ scanRewrite trySubDup T.length T := by
  cases hlook : alLookup sources n with
  | none =>
      have hshape : linkOrBare sources n ++ T = '[' :: ((n ++ [']']) ++ T) := by
        simp [linkOrBare, hlook]
      rw [hshape,
        scanRewrite_skip trySubDup_shrinking
          (by
            have : trySubDup ('[' :: (n ++ ']' :: T)) = none :=
              trySubDup_at_bare hn hT
            simpa using this)
          f (by rw [← hshape]; exact hf)]
      rw [scanRewrite_passthrough trySubDup_shrinking
        (fun c => c = '[')
        (fun c cs hne => trySubDup_none_of_ne hne)
        (n ++ [']']) T ((n ++ [']']) ++ T).length
        (fun c hc e => by
          subst e
          simp only [List.mem_append, List.mem_singleton] at hc
          rcases hc with hc | hc
          · exact absurd rfl (digit_ne (hn.2 _ hc) (by decide))
          · cases hc)
        le_rfl]
      simp [linkOrBare, hlook]
  | some si =>
      obtain ⟨hu0, huB, huP⟩ := hsrc _ (alLookup_mem hlook)
      have hshape : linkOrBare sources n ++ T =
          '[' :: ((n ++ ']' :: '(' :: finalOrUrl si ++ [')']) ++ T) := by
        simp [linkOrBare, hlook]
      rw [hshape,
        scanRewrite_skip trySubDup_shrinking
          (by
            have : trySubDup
                ('[' :: (n ++ ']' :: '(' :: (finalOrUrl si ++ ')' :: T))) =
                  none := trySubDup_at_link hn hu0 huP hT
            simpa using this)
          f (by rw [← hshape]; exact hf)]
      rw [scanRewrite_passthrough trySubDup_shrinking
        (fun c => c = '[')
        (fun c cs hne => trySubDup_none_of_ne hne)
        (n ++ ']' :: '(' :: finalOrUrl si ++ [')']) T
        ((n ++ ']' :: '(' :: finalOrUrl si ++ [')']) ++ T).length
        (fun c hc e => by
          subst e
          simp only [List.mem_append, List.mem_cons, List.mem_singleton] at hc
          rcases hc with (hc | hc | hc | hc) | (hc | hc)
          exacts [absurd (hn.2 '[' hc) (by decide), absurd hc (by decide),
            absurd hc (by decide), huB hc, absurd hc (by decide),
            absurd hc (by simp)])
        le_rfl]
      simp [linkOrBare, hlook]

theorem pass2_render_id (sources : List (Str × SourceInfo))
    (hsrc : srcUrlsOK sources) {post : Str} (hpostB : '[' ∉ post)
    (hpostP : '(' ∉ post) :
    ∀ ns : List Str, (∀ n ∈ ns, numOK n) → ∀ f,
      (joinSep ", ".data (ns.map (linkOrBare sources)) ++ post).length ≤ f →
      scanRewrite (trySubBare sources) f
        (joinSep ", ".data (ns.map (linkOrBare sources)) ++ post) =
      joinSep ", ".data (ns.map (linkOrBare sources)) ++ post := by
  intro ns
  induction ns with
  | nil =>
      intro _ f hf
      simp only [List.map_nil, joinSep, List.nil_append] at hf ⊢
      exact scanRewrite_id_of_noBracket (trySubBare_shrinking sources)
        (fun c cs hne => trySubBare_none_of_ne sources hne) hpostB hf
  | cons n rest ih =>
      intro hns f hf
      have hn := hns n (by simp)
      cases rest with
      | nil =>
          have hj : joinSep ", ".data ([n].map (linkOrBare sources)) =
              linkOrBare sources n := rfl
          rw [hj] at hf ⊢
          rw [pass2_chunk_step sources hsrc hn post
            (head?_ne_of_not_mem hpostP) f hf]
          rw [scanRewrite_id_of_noBracket (trySubBare_shrinking sources)
            (fun c cs hne => trySubBare_none_of_ne sources hne) hpostB le_rfl]
      | cons y t =>
          have hshape :
              joinSep ", ".data ((n :: y :: t).map (linkOrBare sources)) ++ post =
              linkOrBare sources n ++ (", ".data ++
                (joinSep ", ".data ((y :: t).map (linkOrBare sources)) ++ post)) := by
            simp [joinSep]
          rw [hshape] at hf ⊢
          rw [pass2_chunk_step sources hsrc hn
            (", ".data ++ (joinSep ", ".data ((y :: t).map (linkOrBare sources)) ++ post))
            (by
              rw [show (", ".data ++
                (joinSep ", ".data ((y :: t).map (linkOrBare sources)) ++ post)) =
                ',' :: (' ' :: (joinSep ", ".data ((y :: t).map (linkOrBare sources)) ++ post))
                from rfl]
              simp)
            f hf]
          rw [scanRewrite_passthrough (trySubBare_shrinking sources)
            (fun c => c = '[')
            (fun c cs hne => trySubBare_none_of_ne sources hne)
            ", ".data (joinSep ", ".data ((y :: t).map (linkOrBare sources)) ++ post)
            _ (fun c hc e => by subst e; exact absurd hc (by decide)) le_rfl]
          rw [ih (fun m hm => hns m (by simp [hm])) _ le_rfl]

theorem pass3_render_id (sources : List (Str × SourceInfo))
    (hsrc : srcUrlsOK sources) {post : Str} (hpostB : '[' ∉ post)
    (hpostP : '(' ∉ post) :
    ∀ ns : List Str, (∀ n ∈ ns, numOK n) → ∀ f,
      (joinSep ", ".data (ns.map (linkOrBare sources)) ++ post).length ≤ f →
      scanRewrite trySubDup f
        (joinSep ", ".data (ns.map (linkOrBare sources)) ++ post) =
      joinSep ", ".data (ns.map (linkOrBare sources)) ++ post := by
  intro ns
  induction ns with
  | nil =>
      intro _ f hf
      simp only [List.map_nil, joinSep, List.nil_append] at hf ⊢
      exact scanRewrite_id_of_noBracket trySubDup_shrinking
        (fun c cs hne => trySubDup_none_of_ne hne) hpostB hf
  | cons n rest ih =>
      intro hns f hf
      have hn := hns n (by simp)
      cases rest with
      | nil =>
          have hj : joinSep ", ".data ([n].map (linkOrBare sources)) =
              linkOrBare sources n := rfl
          rw [hj] at hf ⊢
          rw [pass3_chunk_step sources hsrc hn post
            (head?_ne_of_not_mem hpostP) f hf]
          rw [scanRewrite_id_of_noBracket trySubDup_shrinking
            (fun c cs hne => trySubDup_none_of_ne hne) hpostB le_rfl]
      | cons y t =>
          have hshape :
              joinSep ", ".data ((n :: y :: t).map (linkOrBare sources)) ++ post =
              linkOrBare sources n ++ (", ".data ++
                (joinSep ", ".data ((y :: t).map (linkOrBare sources)) ++ post)) := by
            simp [joinSep]
          rw [hshape] at hf ⊢
          rw [pass3_chunk_step sources hsrc hn
            (", ".data ++ (joinSep ", ".data ((y :: t).map (linkOrBare sources)) ++ post))
            (by
              rw [show (", ".data ++
                (joinSep ", ".data ((y :: t).map (linkOrBare sources)) ++ post)) =
                ',' :: (' ' :: (joinSep ", ".data ((y :: t).map (linkOrBare sources)) ++ post))
                from rfl]
              simp)
            f hf]
          rw [scanRewrite_passthrough trySubDup_shrinking
            (fun c => c = '[')
            (fun c cs hne => trySubDup_none_of_ne hne)
            ", ".data (joinSep ", ".data ((y :: t).map (linkOrBare sources)) ++ post)
            _ (fun c hc e => by subst e; exact absurd hc (by decide)) le_rfl]
          rw [ih (fun m hm => hns m (by simp [hm])) _ le_rfl]

/-! ## C2 -/

/-- C2: inline normalization rewrites a `[cite: N, M, ...]` marker into one
markdown link per listed ordinal, comma-joined, keeping an ordinal with no
matching source as bare `[N]` text (`linkOrBare` is exactly this per-ordinal
choice); it rewrites a bare `[N]` not followed by `(` into the same
substitution — a link when N is a known ordinal, unchanged text otherwise;
and it leaves an `[N](url)` that is already a link untouched.  The context
conditions require the surrounding text to contain no further pattern
triggers. -/
theorem normalize_inline_citations_behaviour
    (sources : List (Str × SourceInfo)) (hsrc : srcUrlsOK sources)
    (pre post : Str) (hpre : '[' ∉ pre) (hpostB : '[' ∉ post)
    (hpostP : '(' ∉ post) :
    (∀ ns : List Str, ns ≠ [] → (∀ n ∈ ns, numOK n) →
      normalize_inline_citations
        (pre ++ ("[cite: ".data ++ joinSep ", ".data ns ++ ']' :: post)) sources =
      pre ++ (joinSep ", ".data (ns.map (linkOrBare sources)) ++ post)) ∧
    (∀ n, numOK n →
      normalize_inline_citations (pre ++ '[' :: (n ++ ']' :: post)) sources =
      pre ++ (linkOrBare sources n ++ post)) ∧
    (∀ n u, numOK n → u ≠ [] → '[' ∉ u → ')' ∉ u →
      normalize_inline_citations
        (pre ++ '[' :: (n ++ ']' :: '(' :: (u ++ ')' :: post))) sources =
      pre ++ '[' :: (n ++ ']' :: '(' :: (u ++ ')' :: post))) := by
  have hpre' : ∀ c ∈ pre, ¬ c = '[' := fun c hc e => hpre (e ▸ hc)
  refine ⟨?_, ?_, ?_⟩
  · intro ns hne hns
    have h1 : scanRewrite (trySubCite sources)
        (pre ++ ("[cite: ".data ++ joinSep ", ".data ns ++ ']' :: post)).length
        (pre ++ ("[cite: ".data ++ joinSep ", ".data ns ++ ']' :: post)) =
        pre ++ (joinSep ", ".data (ns.map (linkOrBare sources)) ++ post) := by
      rw [scanRewrite_passthrough (trySubCite_shrinking sources) (fun c => c = '[')
        (fun c cs hne' => trySubCite_none_of_ne sources hne') pre _ _ hpre' le_rfl]
      rw [show ("[cite: ".data ++ joinSep ", ".data ns ++ ']' :: post : Str) =
        '[' :: ("cite: ".data ++ joinSep ", ".data ns ++ ']' :: post) from rfl]
      rw [scanRewrite_step (trySubCite_shrinking sources)
        (trySubCite_marker_cons sources post hne hns) _ le_rfl]
      rw [scanRewrite_id_of_noBracket (trySubCite_shrinking sources)
        (fun c cs hne' => trySubCite_none_of_ne sources hne') hpostB le_rfl]
    have h2 : scanRewrite (trySubBare sources)
        (pre ++ (joinSep ", ".data (ns.map (linkOrBare sources)) ++ post)).length
        (pre ++ (joinSep ", ".data (ns.map (linkOrBare sources)) ++ post)) =
        pre ++ (joinSep ", ".data (ns.map (linkOrBare sources)) ++ post) := by
      rw [scanRewrite_passthrough (trySubBare_shrinking sources) (fun c => c = '[')
        (fun c cs hne' => trySubBare_none_of_ne sources hne') pre _ _ hpre' le_rfl]
      rw [pass2_render_id sources hsrc hpostB hpostP ns hns _ le_rfl]
    have h3 : scanRewrite trySubDup
        (pre ++ (joinSep ", ".data (ns.map (linkOrBare sources)) ++ post)).length
        (pre ++ (joinSep ", ".data (ns.map (linkOrBare sources)) ++ post)) =
        pre ++ (joinSep ", ".data (ns.map (linkOrBare sources)) ++ post) := by
      rw [scanRewrite_passthrough trySubDup_shrinking (fun c => c = '[')
        (fun c cs hne' => trySubDup_none_of_ne hne') pre _ _ hpre' le_rfl]
      rw [pass3_render_id sources hsrc hpostB hpostP ns hns _ le_rfl]
    simp only [normalize_inline_citations]
    rw [h1, h2, h3]
  · intro n hn
    have hbody : '[' ∉ n ++ [']'] := by
      intro hmem
      rcases List.mem_append.mp hmem with hm | hm
      · exact absurd (hn.2 '[' hm) (by decide)
      · simp at hm
    have hshape : pre ++ '[' :: (n ++ ']' :: post) =
        pre ++ ('[' :: ((n ++ [']']) ++ post)) := by simp
    have hhead1 : trySubCite sources ('[' :: ((n ++ [']']) ++ post)) = none := by
      match n, hn.1 with
      | d :: n', _ =>
        have hd := hn.2 d (by simp)
        have := trySubCite_none_digit sources hd (n' ++ [']'] ++ post)
        simpa using this
    have h1 : scanRewrite (trySubCite sources)
        (pre ++ ('[' :: ((n ++ [']']) ++ post))).length
        (pre ++ ('[' :: ((n ++ [']']) ++ post))) =
        pre ++ ('[' :: ((n ++ [']']) ++ post)) := by
      rw [scanRewrite_passthrough (trySubCite_shrinking sources) (fun c => c = '[')
        (fun c cs hne' => trySubCite_none_of_ne sources hne') pre _ _ hpre' le_rfl]
      rw [scan_skip_body (trySubCite_shrinking sources)
        (fun c cs hne' => trySubCite_none_of_ne sources hne') hhead1 hbody hpostB
        _ le_rfl]
    have hstep2 : trySubBare sources ('[' :: ((n ++ [']']) ++ post)) =
        some (linkOrBare sources n, post) := by
      have := trySubBare_at_bare sources hn (head?_ne_of_not_mem hpostP)
      simpa using this
    have h2 : scanRewrite (trySubBare sources)
        (pre ++ ('[' :: ((n ++ [']']) ++ post))).length
        (pre ++ ('[' :: ((n ++ [']']) ++ post))) =
        pre ++ (linkOrBare sources n ++ post) := by
      rw [scanRewrite_passthrough (trySubBare_shrinking sources) (fun c => c = '[')
        (fun c cs hne' => trySubBare_none_of_ne sources hne') pre _ _ hpre' le_rfl]
      rw [scanRewrite_step (trySubBare_shrinking sources) hstep2 _ le_rfl]
      rw [scanRewrite_id_of_noBracket (trySubBare_shrinking sources)
        (fun c cs hne' => trySubBare_none_of_ne sources hne') hpostB le_rfl]
    have h3 : scanRewrite trySubDup
        (pre ++ (linkOrBare sources n ++ post)).length
        (pre ++ (linkOrBare sources n ++ post)) =
        pre ++ (linkOrBare sources n ++ post) := by
      rw [scanRewrite_passthrough trySubDup_shrinking (fun c => c = '[')
        (fun c cs hne' => trySubDup_none_of_ne hne') pre _ _ hpre' le_rfl]
      rw [pass3_chunk_step sources hsrc hn post
        (head?_ne_of_not_mem hpostP) _ le_rfl]
      rw [scanRewrite_id_of_noBracket trySubDup_shrinking
        (fun c cs hne' => trySubDup_none_of_ne hne') hpostB le_rfl]
    rw [hshape]
    simp only [normalize_inline_citations]
    rw [h1, h2, h3]
  · intro n u hn hu0 huB huP
    have hbody : '[' ∉ (n ++ ']' :: '(' :: u ++ [')']) := by
      intro hmem
      simp only [List.mem_append, List.mem_cons, List.mem_singleton] at hmem
      rcases hmem with (hm | hm | hm | hm) | (hm | hm)
      · exact absurd (hn.2 '[' hm) (by decide)
      · exact absurd hm (by decide)
      · exact absurd hm (by decide)
      · exact huB hm
      · exact absurd hm (by decide)
      · exact absurd hm (by simp)
    have hshape : pre ++ '[' :: (n ++ ']' :: '(' :: (u ++ ')' :: post)) =
        pre ++ ('[' :: ((n ++ ']' :: '(' :: u ++ [')']) ++ post)) := by simp
    have hhead1 : trySubCite sources
        ('[' :: ((n ++ ']' :: '(' :: u ++ [')']) ++ post)) = none := by
      match n, hn.1 with
      | d :: n', _ =>
        have hd := hn.2 d (by simp)
        have := trySubCite_none_digit sources hd
          (n' ++ ']' :: '(' :: u ++ [')'] ++ post)
        simpa using this
    have hhead2 : trySubBare sources
        ('[' :: ((n ++ ']' :: '(' :: u ++ [')']) ++ post)) = none := by
      have : trySubBare sources
          ('[' :: (n ++ ']' :: '(' :: (u ++ ')' :: post))) = none :=
        trySubBare_at_link sources hn
      simpa using this
    have hhead3 : trySubDup
        ('[' :: ((n ++ ']' :: '(' :: u ++ [')']) ++ post)) = none := by
      have : trySubDup ('[' :: (n ++ ']' :: '(' :: (u ++ ')' :: post))) =
          none := trySubDup_at_link hn hu0 huP (head?_ne_of_not_mem hpostP)
      simpa using this
    have h1 : scanRewrite (trySubCite sources)
        (pre ++ ('[' :: ((n ++ ']' :: '(' :: u ++ [')']) ++ post))).length
        (pre ++ ('[' :: ((n ++ ']' :: '(' :: u ++ [')']) ++ post))) =
        pre ++ ('[' :: ((n ++ ']' :: '(' :: u ++ [')']) ++ post)) := by
      rw [scanRewrite_passthrough (trySubCite_shrinking sources) (fun c => c = '[')
        (fun c cs hne' => trySubCite_none_of_ne sources hne') pre _ _ hpre' le_rfl]
      rw [scan_skip_body (trySubCite_shrinking sources)
        (fun c cs hne' => trySubCite_none_of_ne sources hne') hhead1 hbody hpostB
        _ le_rfl]
    have h2 : scanRewrite (trySubBare sources)
        (pre ++ ('[' :: ((n ++ ']' :: '(' :: u ++ [')']) ++ post))).length
        (pre ++ ('[' :: ((n ++ ']' :: '(' :: u ++ [')']) ++ post))) =
        pre ++ ('[' :: ((n ++ ']' :: '(' :: u ++ [')']) ++ post)) := by
      rw [scanRewrite_passthrough (trySubBare_shrinking sources) (fun c => c = '[')
        (fun c cs hne' => trySubBare_none_of_ne sources hne') pre _ _ hpre' le_rfl]
      rw [scan_skip_body (trySubBare_shrinking sources)
        (fun c cs hne' => trySubBare_none_of_ne sources hne') hhead2 hbody hpostB
        _ le_rfl]
    have h3 : scanRewrite trySubDup
        (pre ++ ('[' :: ((n ++ ']' :: '(' :: u ++ [')']) ++ post))).length
        (pre ++ ('[' :: ((n ++ ']' :: '(' :: u ++ [')']) ++ post))) =
        pre ++ ('[' :: ((n ++ ']' :: '(' :: u ++ [')']) ++ post)) := by
      rw [scanRewrite_passthrough trySubDup_shrinking (fun c => c = '[')
        (fun c cs hne' => trySubDup_none_of_ne hne') pre _ _ hpre' le_rfl]
      rw [scan_skip_body trySubDup_shrinking
        (fun c cs hne' => trySubDup_none_of_ne hne') hhead3 hbody hpostB
        _ le_rfl]
    rw [hshape]
    simp only [normalize_inline_citations]
    rw [h1, h2, h3]

theorem normalize_inline_citations_behaviour_witness :
    normalize_inline_citations "x [cite: 3, 7] y".data c2Sources =
      "x [3](http://three), [7] y".data ∧
    normalize_inline_citations "a [3] b".data c2Sources =
      "a [3](http://three) b".data ∧
    normalize_inline_citations "a [9] b".data c2Sources = "a [9] b".data ∧
    normalize_inline_citations "a [5](http://x) b".data c2Sources =
      "a [5](http://x) b".data := by
  have h := normalize_inline_citations_behaviour c2Sources (by decide)
    "x ".data " y".data (by decide) (by decide) (by decide)
  have hb := normalize_inline_citations_behaviour c2Sources (by decide)
    "a ".data " b".data (by decide) (by decide) (by decide)
  refine ⟨?_, ?_, ?_, ?_⟩
  · have h1 := h.1 ["3".data, "7".data] (by decide) (by decide)
    have e1 : "x ".data ++ ("[cite: ".data ++
        joinSep ", ".data ["3".data, "7".data] ++ ']' :: " y".data) =
        "x [cite: 3, 7] y".data := by decide
    have e2 : "x ".data ++ (joinSep ", ".data
        (["3".data, "7".data].map (linkOrBare c2Sources)) ++ " y".data) =
        "x [3](http://three), [7] y".data := by decide
    rw [e1, e2] at h1
    exact h1
  · have h2 := hb.2.1 "3".data (by decide)
    have e1 : "a ".data ++ '[' :: ("3".data ++ ']' :: " b".data) =
        "a [3] b".data := by decide
    have e2 : "a ".data ++ (linkOrBare c2Sources "3".data ++ " b".data) =
        "a [3](http://three) b".data := by decide
    rw [e1, e2] at h2
    exact h2
  · have h2 := hb.2.1 "9".data (by decide)
    have e1 : "a ".data ++ '[' :: ("9".data ++ ']' :: " b".data) =
        "a [9] b".data := by decide
    have e2 : "a ".data ++ (linkOrBare c2Sources "9".data ++ " b".data) =
        "a [9] b".data := by decide
    rw [e1, e2] at h2
    exact h2
  · have h3 := hb.2.2 "5".data "http://x".data (by decide) (by decide)
      (by decide) (by decide)
    have e1 : "a ".data ++ '[' :: ("5".data ++ ']' :: '(' ::
        ("http://x".data ++ ')' :: " b".data)) = "a [5](http://x) b".data := by
      decide
    rw [e1] at h3
    exact h3

theorem charToNat_inj {a b : Char} (h : a.toNat = b.toNat) : a = b := by
  apply Char.ext
  apply UInt32.ext
  exact h

theorem ciChar_star_false {c : Char} (h : c ≠ '*') : ciChar '*' c = false := by
  simp [ciChar, h]

theorem ciChar_hash_false {c : Char} (h : c ≠ '#') : ciChar '#' c = false := by
  simp [ciChar, h]

theorem ciChar_s_false {c : Char} (h1 : c ≠ 's') (h2 : c ≠ 'S') :
    ciChar 's' c = false := by
  have hn : ¬ (c.toNat + 32 = 's'.toNat) := by
    intro he
    refine h2 (charToNat_inj (show c.toNat = 'S'.toNat from ?_))
    have h115 : 's'.toNat = 115 := rfl
    have h83 : 'S'.toNat = 83 := rfl
    omega
  have hn83 : ¬ (c.toNat = 83) := fun he => h2 (charToNat_inj (by rw [he]; rfl))
  simp [ciChar, h1, hn, hn83]

theorem matchCI_none_of_head {p : Char} {ps : Str} {c : Char} {cs : Str}
    (h : ciChar p c = false) : matchCI (p :: ps) (c :: cs) = none := by
  simp [matchCI, h]

theorem headerSafe_newline : headerSafe '\n' := by
  refine ⟨?_, ?_, ?_, ?_⟩ <;> decide

theorem headerSafe_digit {d : Char} (hd : isDigitC d = true) : headerSafe d :=
  ⟨digit_ne hd (by decide), digit_ne hd (by decide),
   digit_ne hd (by decide), digit_ne hd (by decide)⟩

theorem matchHeader_none_of_head {c : Char} {cs : Str} (h : headerSafe c) :
    matchHeader (c :: cs) = none := by
  obtain ⟨h1, h2, h3, h4⟩ := h
  unfold matchHeader
  rw [show ("**sources:**".data : Str) = '*' :: "*sources:**".data from rfl,
    matchCI_none_of_head (ciChar_star_false h4)]
  rw [show ("## sources".data : Str) = '#' :: "# sources".data from rfl,
    matchCI_none_of_head (ciChar_hash_false h3)]
  rw [show ("sources:".data : Str) = 's' :: "ources:".data from rfl,
    matchCI_none_of_head (ciChar_s_false h2 h1)]

theorem tryHeaderAt_none_of_head {c : Char} {cs : Str} (h : headerSafe c) :
    tryHeaderAt (c :: cs) = none := by
  unfold tryHeaderAt
  rw [matchHeader_none_of_head h]

theorem tryHeaderAt_nil : tryHeaderAt [] = none := rfl

theorem lastAfterNewline_replicate :
    ∀ q, lastAfterNewline (List.replicate (q + 1) '\n') = some [] := by
  intro q
  induction q with
  | zero => rfl
  | succ n ih =>
      rw [List.replicate_succ]
      unfold lastAfterNewline
      rw [ih]

theorem tryHeaderAt_section {hdr : Str} (hhdr : hdr ∈ headerForms) (tail : Str)
    {q : Nat} (htw : tail.takeWhile isSpaceC = List.replicate q '\n') :
    tryHeaderAt (hdr ++ '\n' :: tail) =
      some (takeUntilTerm (tail.dropWhile isSpaceC)) := by
  have hmh : matchHeader (hdr ++ '\n' :: tail) = some ('\n' :: tail) := by
    rcases (by simpa [headerForms] using hhdr :
        hdr = "**Sources:**".data ∨ hdr = "## Sources".data ∨
          hdr = "Sources:".data) with rfl | rfl | rfl
    · rfl
    · rfl
    · rfl
  have h1 : ('\n' :: tail).takeWhile isSpaceC = List.replicate (q + 1) '\n' := by
    rw [List.takeWhile_cons_of_pos (by decide), htw, ← List.replicate_succ]
  have h2 : ('\n' :: tail).dropWhile isSpaceC = tail.dropWhile isSpaceC := by
    rw [List.dropWhile_cons_of_pos (by decide)]
  unfold tryHeaderAt
  rw [hmh]
  dsimp only
  unfold wsThenNewline
  rw [h1, h2, lastAfterNewline_replicate q]
  simp

theorem findSectionAux_newline {rest : Str} :
    findSectionAux ('\n' :: rest) = findSection rest := by
  unfold findSectionAux findSection
  rw [if_pos rfl]

theorem findSectionAux_skip {c : Char} {rest : Str} (h : c ≠ '\n') :
    findSectionAux (c :: rest) = findSectionAux rest := by
  conv_lhs => unfold findSectionAux
  rw [if_neg h]

theorem findSection_eq_aux {s : Str} (h : tryHeaderAt s = none) :
    findSection s = findSectionAux s := by
  unfold findSection
  rw [h]

theorem bodyOK_headerSafe {body : Str} (hbody : bodyOK body) {c : Char}
    (hc : c ∈ body) : headerSafe c := by
  have h := hbody c hc
  exact ⟨h.1, h.2.1, h.2.2.1, h.2.2.2.1⟩

theorem findSection_at {body : Str} (hbody : bodyOK body) {hdr : Str}
    (hhdr : hdr ∈ headerForms) (tail : Str) {q : Nat}
    (htw : tail.takeWhile isSpaceC = List.replicate q '\n') :
    findSection (body ++ '\n' :: (hdr ++ '\n' :: tail)) =
      some (takeUntilTerm (tail.dropWhile isSpaceC)) := by
  induction body with
  | nil =>
      rw [List.nil_append,
        findSection_eq_aux (tryHeaderAt_none_of_head headerSafe_newline),
        findSectionAux_newline]
      unfold findSection
      rw [tryHeaderAt_section hhdr tail htw]
  | cons c body ih =>
      have hsafe : headerSafe c := bodyOK_headerSafe hbody (by simp)
      have ih' := ih (fun x hx => hbody x (by simp [hx]))
      rw [List.cons_append, findSection_eq_aux (tryHeaderAt_none_of_head hsafe)]
      by_cases hnl : c = '\n'
      · subst hnl
        rw [findSectionAux_newline]
        exact ih'
      · rw [findSectionAux_skip hnl]
        have hth : tryHeaderAt (body ++ '\n' :: (hdr ++ '\n' :: tail)) = none := by
          cases body with
          | nil => exact tryHeaderAt_none_of_head headerSafe_newline
          | cons b bs =>
              exact tryHeaderAt_none_of_head (bodyOK_headerSafe hbody (by simp))
        rw [findSection_eq_aux hth] at ih'
        exact ih'

theorem termAt_false_of_head {c : Char} (h : c ≠ '\n') (cs : Str) :
    termAt (c :: cs) = false := by
  unfold termAt
  dsimp only
  rw [decide_eq_false h]
  simp

theorem termAt_nl_digit {d : Char} (hd : isDigitC d = true) (rest : Str) :
    termAt ('\n' :: d :: rest) = false := by
  have h1 : stripLit "##".data (d :: rest) = none := by
    rw [show ("##".data : Str) = '#' :: "#".data from rfl]
    exact stripLit_cons_ne (digit_ne hd (by decide))
  have h2 : stripLit "**".data (d :: rest) = none := by
    rw [show ("**".data : Str) = '*' :: "*".data from rfl]
    exact stripLit_cons_ne (digit_ne hd (by decide))
  unfold termAt
  dsimp only
  rw [h1, h2]
  simp

theorem takeUntilTerm_nil : takeUntilTerm [] = [] := rfl

theorem takeUntilTerm_cons_false {c : Char} {cs : Str}
    (h : termAt (c :: cs) = false) :
    takeUntilTerm (c :: cs) = c :: takeUntilTerm cs := by
  conv_lhs => unfold takeUntilTerm
  rw [if_neg (by simp [h])]

theorem takeUntilTerm_line {a : Str} (ha : '\n' ∉ a) (s : Str) :
    takeUntilTerm (a ++ s) = a ++ takeUntilTerm s := by
  induction a with
  | nil => simp
  | cons c cs ih =>
      rw [List.cons_append,
        takeUntilTerm_cons_false
          (termAt_false_of_head (fun e => ha (by simp [e])) _),
        ih (fun hm => ha (by simp [hm]))]
      rfl

theorem tripleLine_no_nl {e : Str × Str × Str} (he : entryOK e) :
    '\n' ∉ tripleLine e := by
  obtain ⟨hn, ht, hu⟩ := he
  unfold tripleLine
  intro hmem
  simp only [List.mem_append, List.mem_singleton] at hmem
  rcases hmem with ((((h | h) | h) | h) | h) | h
  · exact absurd (hn.2 '\n' h) (by decide)
  · exact absurd h (by decide)
  · exact absurd rfl (ht.2.2 '\n' h).2.2.2.2
  · exact absurd h (by decide)
  · exact absurd rfl (hu.2 '\n' h).2.2.2.2
  · exact absurd h (by decide)

theorem tripleLine_head_shape {e : Str × Str × Str} (he : numOK e.1) :
    ∃ d r, tripleLine e = d :: r ∧ isDigitC d = true := by
  cases hn1 : e.1 with
  | nil => exact absurd hn1 he.1
  | cons d ds =>
      refine ⟨d, ds ++ ". [".data ++ e.2.1 ++ "](".data ++ e.2.2 ++ [')'],
        ?_, he.2 d (by rw [hn1]; simp)⟩
      unfold tripleLine
      rw [hn1]
      simp

theorem entriesText_cons_cons (e y : Str × Str × Str) (t : List (Str × Str × Str)) :
    entriesText (e :: y :: t) = tripleLine e ++ ('\n' :: entriesText (y :: t)) := by
  simp [entriesText, joinSep]

theorem entriesText_single (e : Str × Str × Str) :
    entriesText [e] = tripleLine e := rfl

theorem entriesText_head_digit {e : Str × Str × Str}
    {rest : List (Str × Str × Str)} (he : numOK e.1) :
    ∃ d r, entriesText (e :: rest) = d :: r ∧ isDigitC d = true := by
  obtain ⟨d, r, hline, hd⟩ := tripleLine_head_shape he
  cases rest with
  | nil => exact ⟨d, r, by rw [entriesText_single, hline], hd⟩
  | cons y t =>
      refine ⟨d, r ++ '\n' :: entriesText (y :: t), ?_, hd⟩
      rw [entriesText_cons_cons, hline]
      simp

theorem takeUntilTerm_entriesText {L : List (Str × Str × Str)}
    (hL : ∀ e ∈ L, entryOK e) :
    takeUntilTerm (entriesText L) = entriesText L := by
  induction L with
  | nil => rfl
  | cons e rest ih =>
      cases rest with
      | nil =>
          rw [entriesText_single]
          have := takeUntilTerm_line (tripleLine_no_nl (hL e (by simp))) []
          simpa [takeUntilTerm_nil] using this
      | cons e2 t =>
          rw [entriesText_cons_cons,
            takeUntilTerm_line (tripleLine_no_nl (hL e (by simp)))]
          obtain ⟨d, r, hE, hd⟩ := entriesText_head_digit (hL e2 (by simp)).1
          rw [takeUntilTerm_cons_false (by rw [hE]; exact termAt_nl_digit hd r)]
          rw [ih (fun x hx => hL x (by simp [hx]))]

theorem findSection_sectioned {body : Str} (hbody : bodyOK body) {hdr : Str}
    (hhdr : hdr ∈ headerForms) {L : List (Str × Str × Str)}
    (hL : ∀ e ∈ L, entryOK e) (hLne : L ≠ []) :
    findSection (sectionedReport body hdr L) = some (entriesText L) := by
  cases L with
  | nil => exact absurd rfl hLne
  | cons e rest =>
      obtain ⟨d, r, hE, hd⟩ := entriesText_head_digit (hL e (by simp)).1
      have htw : (entriesText (e :: rest)).takeWhile isSpaceC =
          List.replicate 0 '\n' := by
        rw [hE]
        exact takeWhile_eq_nil_of_head (by simp [digit_not_space hd])
      have hdw : (entriesText (e :: rest)).dropWhile isSpaceC =
          entriesText (e :: rest) := by
        rw [hE, List.dropWhile_cons_of_neg (by simp [digit_not_space hd])]
      unfold sectionedReport
      rw [findSection_at hbody hhdr _ htw, hdw, takeUntilTerm_entriesText hL]

theorem tryEntry_at_line {n t u : Str} (he : entryOK (n, t, u)) (T : Str) :
    tryEntry (tripleLine (n, t, u) ++ T) = some ((n, t, u), T) := by
  obtain ⟨hn, ht, hu⟩ := he
  have hshape : tripleLine (n, t, u) ++ T =
      n ++ ('.' :: ' ' :: '[' :: (t ++ (']' :: '(' :: (u ++ (')' :: T))))) := by
    unfold tripleLine
    simp
  obtain ⟨htw, hdw⟩ := takeWhile_all_stop
    (' ' :: '[' :: (t ++ (']' :: '(' :: (u ++ (')' :: T))))) hn.2
    (by decide : isDigitC '.' = false)
  have htc : ∀ c ∈ t, (c != ']') = true := fun c hc => by
    simp only [bne_iff_ne, ne_eq]
    exact (ht.2.2 c hc).1
  obtain ⟨htw2, hdw2⟩ := takeWhile_all_stop ('(' :: (u ++ (')' :: T))) htc
    (by decide : ((']' != ']') : Bool) = false)
  have huc : ∀ c ∈ u, (c != ')') = true := fun c hc => by
    simp only [bne_iff_ne, ne_eq]
    exact (hu.2 c hc).1
  obtain ⟨htw3, hdw3⟩ := takeWhile_all_stop T huc
    (by decide : (((')') != ')') : Bool) = false)
  have hne_t : ¬ t.isEmpty = true := by simp [List.isEmpty_iff, ht.1]
  have hne_u : ¬ u.isEmpty = true := by simp [List.isEmpty_iff, hu.1]
  rw [hshape]
  unfold tryEntry
  dsimp only
  rw [htw, hdw, if_neg (by simp [List.isEmpty_iff, hn.1])]
  simp [htw2, hdw2, htw3, hdw3, hne_t, hne_u,
    (by decide : isSpaceC ' ' = true), (by decide : isSpaceC '[' = false)]

theorem tryEntry_none_nondigit {c : Char} (hc : isDigitC c = false) (cs : Str) :
    tryEntry (c :: cs) = none := by
  unfold tryEntry
  dsimp only
  rw [takeWhile_eq_nil_of_head (by simp [hc])]
  simp

theorem scanCollect_entries {L : List (Str × Str × Str)}
    (hL : ∀ e ∈ L, entryOK e) :
    ∀ f, (entriesText L).length ≤ f → scanCollect tryEntry f (entriesText L) = L := by
  induction L with
  | nil =>
      intro f _
      cases f <;> rfl
  | cons e rest ih =>
      intro f hf
      obtain ⟨n, t, u⟩ := e
      cases rest with
      | nil =>
          have hstep := tryEntry_at_line (hL (n, t, u) (by simp)) []
          rw [List.append_nil] at hstep
          rw [entriesText_single] at hf ⊢
          obtain ⟨d, r, hline, hd⟩ := tripleLine_head_shape (hL (n, t, u) (by simp)).1
          rw [hline] at hstep hf ⊢
          rw [scanCollect_step tryEntry_shrinkingC hstep f hf]
          rfl
      | cons e2 t2 =>
          rw [entriesText_cons_cons] at hf ⊢
          have hstep := tryEntry_at_line (hL (n, t, u) (by simp))
            ('\n' :: entriesText (e2 :: t2))
          obtain ⟨d, r, hline, hd⟩ := tripleLine_head_shape (hL (n, t, u) (by simp)).1
          rw [hline] at hstep hf ⊢
          rw [List.cons_append] at hstep hf ⊢
          rw [scanCollect_step tryEntry_shrinkingC hstep f hf]
          congr 1
          rw [scanCollect_skip tryEntry_shrinkingC
            (tryEntry_none_nondigit (by decide) _) _ le_rfl]
          exact ih (fun x hx => hL x (by simp [hx])) _ le_rfl

theorem entriesOf_entriesText {L : List (Str × Str × Str)}
    (hL : ∀ e ∈ L, entryOK e) : entriesOf (entriesText L) = L :=
  scanCollect_entries hL _ le_rfl

theorem parse_sources_sectioned {body : Str} (hbody : bodyOK body) {hdr : Str}
    (hhdr : hdr ∈ headerForms) {L : List (Str × Str × Str)}
    (hL : ∀ e ∈ L, entryOK e) (hLne : L ≠ []) :
    parse_sources (sectionedReport body hdr L) = dictOfEntries L := by
  unfold parse_sources
  rw [findSection_sectioned hbody hhdr hL hLne]
  dsimp only
  rw [entriesOf_entriesText hL]

theorem mem_alUpsert {κ α : Type} [DecidableEq κ] {l : List (κ × α)} {k : κ}
    {v : α} {x : κ × α} (h : x ∈ alUpsert l k v) : x = (k, v) ∨ x ∈ l := by
  induction l with
  | nil => simpa [alUpsert] using h
  | cons p rest ih =>
      obtain ⟨k', v'⟩ := p
      by_cases hk : k' = k
      · rw [alUpsert, if_pos hk] at h
        rcases List.mem_cons.mp h with h | h
        · exact Or.inl h
        · exact Or.inr (List.mem_cons.mpr (Or.inr h))
      · rw [alUpsert, if_neg hk] at h
        rcases List.mem_cons.mp h with h | h
        · exact Or.inr (List.mem_cons.mpr (Or.inl h))
        · rcases ih h with h | h
          · exact Or.inl h
          · exact Or.inr (List.mem_cons.mpr (Or.inr h))

theorem alUpsert_keys_distinct {κ α : Type} [DecidableEq κ] {l : List (κ × α)}
    (hd : l.Pairwise (fun a b => a.1 ≠ b.1)) (k : κ) (v : α) :
    (alUpsert l k v).Pairwise (fun a b => a.1 ≠ b.1) := by
  induction l with
  | nil => simp [alUpsert]
  | cons p rest ih =>
      obtain ⟨k', v'⟩ := p
      rw [List.pairwise_cons] at hd
      by_cases hk : k' = k
      · subst hk
        rw [alUpsert, if_pos rfl]
        exact List.pairwise_cons.mpr ⟨fun b hb => hd.1 b hb, hd.2⟩
      · rw [alUpsert, if_neg hk]
        refine List.pairwise_cons.mpr ⟨?_, ih hd.2⟩
        intro x hx
        rcases mem_alUpsert hx with h | h
        · rw [h]
          exact hk
        · exact hd.1 x h

theorem alUpsert_ne_nil {κ α : Type} [DecidableEq κ] (l : List (κ × α))
    (k : κ) (v : α) : alUpsert l k v ≠ [] := by
  cases l with
  | nil => simp [alUpsert]
  | cons p rest =>
      obtain ⟨k', v'⟩ := p
      by_cases hk : k' = k
      · rw [alUpsert, if_pos hk]
        simp
      · rw [alUpsert, if_neg hk]
        simp

theorem alUpsert_fresh {κ α : Type} [DecidableEq κ] {l : List (κ × α)} {k : κ}
    (hk : ∀ q ∈ l, q.1 ≠ k) (v : α) : alUpsert l k v = l ++ [(k, v)] := by
  induction l with
  | nil => rfl
  | cons p rest ih =>
      obtain ⟨k', v'⟩ := p
      rw [alUpsert, if_neg (hk (k', v') (by simp))]
      rw [ih (fun q hq => hk q (by simp [hq]))]
      rfl

theorem dictFold_mem {es : List (Str × Str × Str)} :
    ∀ (acc : List (Str × SourceInfo)) (x : Str × SourceInfo),
      x ∈ es.foldl (fun d e => alUpsert d e.1 ⟨e.2.1, e.2.2, none⟩) acc →
      x ∈ acc ∨ ∃ e ∈ es, x = (e.1, ⟨e.2.1, e.2.2, none⟩) := by
  induction es with
  | nil =>
      intro acc x h
      exact Or.inl h
  | cons e rest ih =>
      intro acc x h
      rw [List.foldl_cons] at h
      rcases ih _ x h with h | ⟨e', he', hx⟩
      · rcases mem_alUpsert h with h | h
        · exact Or.inr ⟨e, by simp, h⟩
        · exact Or.inl h
      · exact Or.inr ⟨e', by simp [he'], hx⟩

theorem dictFold_pairwise {es : List (Str × Str × Str)} :
    ∀ (acc : List (Str × SourceInfo)),
      acc.Pairwise (fun a b => a.1 ≠ b.1) →
      (es.foldl (fun d e => alUpsert d e.1 ⟨e.2.1, e.2.2, none⟩) acc).Pairwise
        (fun a b => a.1 ≠ b.1) := by
  induction es with
  | nil =>
      intro acc h
      exact h
  | cons e rest ih =>
      intro acc h
      rw [List.foldl_cons]
      exact ih _ (alUpsert_keys_distinct h _ _)

theorem dictFold_ne_nil {es : List (Str × Str × Str)} :
    ∀ (acc : List (Str × SourceInfo)), acc ≠ [] →
      es.foldl (fun d e => alUpsert d e.1 ⟨e.2.1, e.2.2, none⟩) acc ≠ [] := by
  induction es with
  | nil =>
      intro acc h
      exact h
  | cons e rest ih =>
      intro acc _
      rw [List.foldl_cons]
      exact ih _ (alUpsert_ne_nil _ _ _)

theorem dictOfEntries_pairwise (es : List (Str × Str × Str)) :
    (dictOfEntries es).Pairwise (fun a b => a.1 ≠ b.1) :=
  dictFold_pairwise [] (by simp)

theorem mem_dictOfEntries {es : List (Str × Str × Str)} {x : Str × SourceInfo}
    (h : x ∈ dictOfEntries es) : ∃ e ∈ es, x = (e.1, ⟨e.2.1, e.2.2, none⟩) := by
  rcases dictFold_mem [] x h with h | h
  · cases h
  · exact h

theorem dictOfEntries_ne_nil {es : List (Str × Str × Str)} (h : es ≠ []) :
    dictOfEntries es ≠ [] := by
  cases es with
  | nil => exact absurd rfl h
  | cons e rest =>
      unfold dictOfEntries
      rw [List.foldl_cons]
      exact dictFold_ne_nil _ (alUpsert_ne_nil _ _ _)

theorem dictFold_fresh {P : List (Str × SourceInfo)} :
    ∀ (acc : List (Str × SourceInfo)),
      (∀ p ∈ P, ∀ q ∈ acc, q.1 ≠ p.1) →
      P.Pairwise (fun a b => a.1 ≠ b.1) →
      (∀ p ∈ P, p.2.final_url = none) →
      (P.map toTriple).foldl (fun d e => alUpsert d e.1 ⟨e.2.1, e.2.2, none⟩) acc =
        acc ++ P := by
  induction P with
  | nil =>
      intro acc _ _ _
      simp
  | cons p rest ih =>
      intro acc hfresh hpw hf
      rw [List.map_cons, List.foldl_cons]
      have hsi : (⟨(toTriple p).2.1, (toTriple p).2.2, none⟩ : SourceInfo) = p.2 := by
        obtain ⟨k, si⟩ := p
        obtain ⟨tt, uu, ff⟩ := si
        have hff : ff = none := by simpa using hf (k, ⟨tt, uu, ff⟩) (by simp)
        simp [toTriple, hff]
      have hk' : ∀ q ∈ acc, q.1 ≠ (toTriple p).1 :=
        fun q hq => hfresh p (by simp) q hq
      rw [alUpsert_fresh hk']
      rw [hsi, show ((toTriple p).1, p.2) = p from Prod.mk.eta]
      rw [List.pairwise_cons] at hpw
      rw [ih (acc ++ [p])
        (fun x hx q hq => by
          rcases List.mem_append.mp hq with hq | hq
          · exact hfresh x (by simp [hx]) q hq
          · rw [List.mem_singleton.mp hq]
            exact hpw.1 x hx)
        hpw.2 (fun x hx => hf x (by simp [hx]))]
      simp

theorem dictOfEntries_map_toTriple {P : List (Str × SourceInfo)}
    (hd : P.Pairwise (fun a b => a.1 ≠ b.1))
    (hf : ∀ p ∈ P, p.2.final_url = none) :
    dictOfEntries (P.map toTriple) = P := by
  unfold dictOfEntries
  rw [dictFold_fresh [] (fun p _ q hq => absurd hq (List.not_mem_nil q)) hd hf]
  exact List.nil_append P

theorem insertSorted_perm {α : Type} (key : α → Nat) (x : α) :
    ∀ l : List α, List.Perm (insertSorted key x l) (x :: l) := by
  intro l
  induction l with
  | nil => exact List.Perm.refl _
  | cons y ys ih =>
      unfold insertSorted
      by_cases h : key y < key x
      · rw [if_pos h]
        exact List.Perm.trans (List.Perm.cons y ih) (List.Perm.swap x y ys)
      · rw [if_neg h]

theorem sortByNat_perm {α : Type} (key : α → Nat) :
    ∀ l : List α, List.Perm (sortByNat key l) l := by
  intro l
  induction l with
  | nil => exact List.Perm.refl _
  | cons x xs ih =>
      unfold sortByNat
      exact List.Perm.trans (insertSorted_perm key x _) (List.Perm.cons x ih)

theorem insertSorted_sorted {α : Type} (key : α → Nat) (x : α) :
    ∀ {l : List α}, List.Sorted (fun a b => key a ≤ key b) l →
      List.Sorted (fun a b => key a ≤ key b) (insertSorted key x l) := by
  intro l
  induction l with
  | nil =>
      intro _
      simp [insertSorted]
  | cons y ys ih =>
      intro hl
      rw [List.sorted_cons] at hl
      unfold insertSorted
      by_cases h : key y < key x
      · rw [if_pos h]
        rw [List.sorted_cons]
        refine ⟨?_, ih hl.2⟩
        intro z hz
        rcases List.mem_cons.mp ((insertSorted_perm key x ys).mem_iff.mp hz) with
          rfl | hz'
        · omega
        · exact hl.1 z hz'
      · rw [if_neg h]
        rw [List.sorted_cons]
        refine ⟨?_, List.sorted_cons.mpr hl⟩
        intro z hz
        rcases List.mem_cons.mp hz with rfl | hz'
        · omega
        · have := hl.1 z hz'
          omega

theorem sortByNat_sorted {α : Type} (key : α → Nat) :
    ∀ l : List α, List.Sorted (fun a b => key a ≤ key b) (sortByNat key l) := by
  intro l
  induction l with
  | nil => simp [sortByNat]
  | cons x xs ih =>
      unfold sortByNat
      exact insertSorted_sorted key x ih

theorem insertSorted_of_le {α : Type} (key : α → Nat) (x : α) {l : List α}
    (h : ∀ y ∈ l, key x ≤ key y) : insertSorted key x l = x :: l := by
  cases l with
  | nil => rfl
  | cons y ys =>
      unfold insertSorted
      rw [if_neg (by have := h y (by simp); omega)]

theorem sortByNat_of_sorted {α : Type} (key : α → Nat) :
    ∀ {l : List α}, List.Sorted (fun a b => key a ≤ key b) l →
      sortByNat key l = l := by
  intro l
  induction l with
  | nil =>
      intro _
      rfl
  | cons x xs ih =>
      intro hl
      rw [List.sorted_cons] at hl
      unfold sortByNat
      rw [ih hl.2, insertSorted_of_le key x hl.1]

theorem alLookup_of_mem {κ α : Type} [DecidableEq κ] {l : List (κ × α)}
    (hd : l.Pairwise (fun a b => a.1 ≠ b.1)) {k : κ} {v : α}
    (h : (k, v) ∈ l) : alLookup l k = some v := by
  induction l with
  | nil => cases h
  | cons p rest ih =>
      rw [List.pairwise_cons] at hd
      rcases List.mem_cons.mp h with rfl | h'
      · rw [alLookup, if_pos rfl]
      · obtain ⟨k', v'⟩ := p
        by_cases hk : k' = k
        · subst hk
          exact absurd rfl (hd.1 (k', v) h')
        · rw [alLookup, if_neg hk]
          exact ih hd.2 h'

theorem alLookup_eq_of_perm {κ α : Type} [DecidableEq κ] {l l' : List (κ × α)}
    (hp : List.Perm l l') (hd : l.Pairwise (fun a b => a.1 ≠ b.1)) (k : κ) :
    alLookup l k = alLookup l' k := by
  have hd' : l'.Pairwise (fun a b => a.1 ≠ b.1) :=
    (hp.pairwise_iff (fun h => Ne.symm h)).mp hd
  cases hv : alLookup l k with
  | some v =>
      exact (alLookup_of_mem hd' (hp.subset (alLookup_mem hv))).symm
  | none =>
      cases hv' : alLookup l' k with
      | none => rfl
      | some v' =>
          have hm : (k, v') ∈ l := hp.symm.subset (alLookup_mem hv')
          rw [alLookup_of_mem hd hm] at hv
          cases hv

theorem dropWhile_head_false {p : Char → Bool} :
    ∀ {s : Str} {c : Char} {r : Str}, s.dropWhile p = c :: r → p c = false := by
  intro s
  induction s with
  | nil =>
      intro c r h
      cases h
  | cons a as ih =>
      intro c r h
      by_cases hp : p a = true
      · rw [List.dropWhile_cons_of_pos hp] at h
        exact ih h
      · rw [List.dropWhile_cons_of_neg hp] at h
        obtain ⟨h1, -⟩ := List.cons_eq_cons.mp h
        subst h1
        cases hb : p a
        · rfl
        · exact absurd hb hp

theorem mem_takeWhile_sat {p : Char → Bool} :
    ∀ {s : Str} {c : Char}, c ∈ s.takeWhile p → p c = true := by
  intro s
  induction s with
  | nil =>
      intro c h
      simp at h
  | cons a as ih =>
      intro c h
      by_cases hp : p a = true
      · rw [List.takeWhile_cons_of_pos hp] at h
        rcases List.mem_cons.mp h with rfl | h'
        · exact hp
        · exact ih h'
      · rw [List.takeWhile_cons_of_neg hp] at h
        cases h

theorem split_nondigit {t : Str} (hall : ¬ ∀ c ∈ t, isDigitC c = true) :
    ∃ t1 c0 t2, t = t1 ++ c0 :: t2 ∧ (∀ c ∈ t1, isDigitC c = true) ∧
      isDigitC c0 = false ∧ c0 ∈ t := by
  cases hdw : t.dropWhile isDigitC with
  | nil =>
      exfalso
      apply hall
      intro c hc
      have hsplit := List.takeWhile_append_dropWhile isDigitC t
      rw [hdw, List.append_nil] at hsplit
      rw [← hsplit] at hc
      exact mem_takeWhile_sat hc
  | cons c0 t2 =>
      have hsplit := List.takeWhile_append_dropWhile isDigitC t
      rw [hdw] at hsplit
      refine ⟨t.takeWhile isDigitC, c0, t2, hsplit.symm,
        fun c hc => mem_takeWhile_sat hc, dropWhile_head_false hdw, ?_⟩
      rw [← hsplit]
      simp

theorem trySubCite_none_title {t : Str} (ht0 : t ≠ []) (htc : t.head? ≠ some 'c')
    (sources : List (Str × SourceInfo)) (rest : Str) :
    trySubCite sources ('[' :: (t ++ rest)) = none := by
  cases t with
  | nil => exact absurd rfl ht0
  | cons c0 t' =>
      have hc0 : c0 ≠ 'c' := fun e => htc (by simp [e])
      unfold trySubCite
      rw [show ("[cite:".data : Str) = '[' :: 'c' :: "ite:".data from rfl]
      rw [List.cons_append]
      simp [stripLit, hc0]

theorem trySubBare_at_title {t : Str} (ht0 : t ≠ []) (htb : ']' ∉ t)
    (sources : List (Str × SourceInfo)) (X : Str) :
    trySubBare sources ('[' :: (t ++ ']' :: '(' :: X)) = none := by
  by_cases hall : ∀ c ∈ t, isDigitC c = true
  · exact trySubBare_at_link sources ⟨ht0, hall⟩
  · obtain ⟨t1, c0, t2, rfl, ht1, hc0, hc0m⟩ := split_nondigit hall
    have hc0b : c0 ≠ ']' := fun e => htb (e ▸ hc0m)
    unfold trySubBare
    dsimp only
    rw [if_pos rfl]
    unfold trySubBareTail
    have hshape : (t1 ++ c0 :: t2) ++ ']' :: '(' :: X =
        t1 ++ c0 :: (t2 ++ ']' :: '(' :: X) := by simp
    obtain ⟨htw, hdw⟩ := takeWhile_all_stop (t2 ++ ']' :: '(' :: X) ht1 hc0
    rw [hshape]
    dsimp only
    rw [htw, hdw]
    by_cases hemp : (t1 : Str).isEmpty = true
    · rw [if_pos hemp]
    · rw [if_neg hemp]
      split
      · rename_i r2 heq
        exact absurd (List.cons_eq_cons.mp heq).1 hc0b
      · rfl

theorem trySubDup_at_title {t u T : Str} (ht0 : t ≠ []) (htb : ']' ∉ t)
    (hu0 : u ≠ []) (hu : ')' ∉ u) (hT : T.head? ≠ some '(') :
    trySubDup ('[' :: (t ++ ']' :: '(' :: (u ++ ')' :: T))) = none := by
  by_cases hall : ∀ c ∈ t, isDigitC c = true
  · exact trySubDup_at_link ⟨ht0, hall⟩ hu0 hu hT
  · obtain ⟨t1, c0, t2, rfl, ht1, hc0, hc0m⟩ := split_nondigit hall
    have hc0b : c0 ≠ ']' := fun e => htb (e ▸ hc0m)
    unfold trySubDup
    dsimp only
    rw [if_pos rfl]
    unfold trySubDupTail
    have hshape : (t1 ++ c0 :: t2) ++ ']' :: '(' :: (u ++ ')' :: T) =
        t1 ++ c0 :: (t2 ++ ']' :: '(' :: (u ++ ')' :: T)) := by simp
    obtain ⟨htw, hdw⟩ := takeWhile_all_stop (t2 ++ ']' :: '(' :: (u ++ ')' :: T))
      ht1 hc0
    rw [hshape]
    dsimp only
    rw [htw, hdw]
    by_cases hemp : (t1 : Str).isEmpty = true
    · rw [if_pos hemp]
    · rw [if_neg hemp]
      split
      · rename_i r2 heq
        exact absurd (List.cons_eq_cons.mp heq).1 hc0b
      · rfl

theorem scan_skip_body_step {try? : Str → Option (Str × Str)} (h : Shrinking try?)
    (hno : ∀ c cs, c ≠ '[' → try? (c :: cs) = none)
    {body T : Str} (hhead : try? ('[' :: (body ++ T)) = none)
    (hbody : '[' ∉ body) (f : Nat) (hf : ('[' :: (body ++ T)).length ≤ f) :
    scanRewrite try? f ('[' :: (body ++ T)) =
      '[' :: (body ++ scanRewrite try? T.length T) := by
  rw [scanRewrite_skip h hhead f hf]
  rw [scanRewrite_passthrough h (fun c => c = '[') hno body T _
    (fun c hc e => hbody (e ▸ hc)) le_rfl]

theorem scan_line_step {try? : Str → Option (Str × Str)} (h : Shrinking try?)
    (hno : ∀ c cs, c ≠ '[' → try? (c :: cs) = none)
    {n t u : Str} (he : entryOK (n, t, u)) (T : Str)
    (hhead : try? ('[' :: ((t ++ ']' :: '(' :: (u ++ [')'])) ++ T)) = none)
    (f : Nat) (hf : (tripleLine (n, t, u) ++ T).length ≤ f) :
    scanRewrite try? f (tripleLine (n, t, u) ++ T) =
      tripleLine (n, t, u) ++ scanRewrite try? T.length T := by
  obtain ⟨hn, ht, hu⟩ := he
  have hshape : tripleLine (n, t, u) ++ T =
      (n ++ ['.', ' ']) ++ ('[' :: ((t ++ ']' :: '(' :: (u ++ [')'])) ++ T)) := by
    unfold tripleLine
    simp
  have hpre : ∀ c ∈ n ++ ['.', ' '], ¬ c = '[' := by
    intro c hc
    rcases List.mem_append.mp hc with hc | hc
    · exact digit_ne (hn.2 c hc) (by decide)
    · rcases List.mem_cons.mp hc with rfl | hc
      · decide
      · rcases List.mem_cons.mp hc with rfl | hc
        · decide
        · cases hc
  have hbody : '[' ∉ t ++ ']' :: '(' :: (u ++ [')']) := by
    intro hm
    rcases List.mem_append.mp hm with hm | hm
    · exact absurd rfl (ht.2.2 '[' hm).2.1
    · rcases List.mem_cons.mp hm with hm | hm
      · cases hm
      · rcases List.mem_cons.mp hm with hm | hm
        · cases hm
        · rcases List.mem_append.mp hm with hm | hm
          · exact absurd rfl (hu.2 '[' hm).2.2.1
          · rcases List.mem_cons.mp hm with hm | hm
            · cases hm
            · cases hm
  rw [hshape] at hf ⊢
  rw [scanRewrite_passthrough h (fun c => c = '[') hno (n ++ ['.', ' ']) _ f
    hpre hf]
  rw [scan_skip_body_step h hno hhead hbody _ le_rfl]
  unfold tripleLine
  simp

theorem scan_entries_id {try? : Str → Option (Str × Str)} (h : Shrinking try?)
    (hno : ∀ c cs, c ≠ '[' → try? (c :: cs) = none)
    (hline : ∀ n t u (T : Str), entryOK (n, t, u) → T.head? ≠ some '(' →
      try? ('[' :: ((t ++ ']' :: '(' :: (u ++ [')'])) ++ T)) = none)
    {L : List (Str × Str × Str)} (hL : ∀ e ∈ L, entryOK e) :
    ∀ f, (entriesText L).length ≤ f →
      scanRewrite try? f (entriesText L) = entriesText L := by
  induction L with
  | nil =>
      intro f _
      cases f <;> rfl
  | cons e rest ih =>
      intro f hf
      obtain ⟨n, t, u⟩ := e
      cases rest with
      | nil =>
          rw [entriesText_single] at hf ⊢
          have hstep := scan_line_step h hno (hL (n, t, u) (by simp)) []
            (hline n t u [] (hL (n, t, u) (by simp)) (by simp)) f
            (by simpa using hf)
          rw [List.append_nil] at hstep
          rw [hstep]
          cases hz : ([] : Str).length <;> simp [scanRewrite]
      | cons e2 t2 =>
          rw [entriesText_cons_cons] at hf ⊢
          rw [scan_line_step h hno (hL (n, t, u) (by simp)) _
            (hline n t u ('\n' :: entriesText (e2 :: t2))
              (hL (n, t, u) (by simp)) (by simp)) f hf]
          congr 1
          rw [scanRewrite_skip h (hno '\n' _ (by decide)) _ le_rfl]
          rw [ih (fun x hx => hL x (by simp [hx])) _ le_rfl]

theorem pass1_section_id (sources : List (Str × SourceInfo)) {P : Str}
    (hP : '[' ∉ P) {L : List (Str × Str × Str)} (hL : ∀ e ∈ L, entryOK e)
    (f : Nat) (hf : (P ++ entriesText L).length ≤ f) :
    scanRewrite (trySubCite sources) f (P ++ entriesText L) =
      P ++ entriesText L := by
  rw [scanRewrite_passthrough (trySubCite_shrinking sources) (fun c => c = '[')
    (fun c cs hne => trySubCite_none_of_ne sources hne) P _ f
    (fun c hc e => hP (e ▸ hc)) hf]
  rw [scan_entries_id (trySubCite_shrinking sources)
    (fun c cs hne => trySubCite_none_of_ne sources hne)
    (fun n t u T he _ => by
      have hx : trySubCite sources
          ('[' :: (t ++ (']' :: '(' :: (u ++ (')' :: T))))) = none :=
        trySubCite_none_title he.2.1.1 he.2.1.2.1 sources _
      simpa using hx)
    hL _ le_rfl]

theorem pass2_section_id (sources : List (Str × SourceInfo)) {P : Str}
    (hP : '[' ∉ P) {L : List (Str × Str × Str)} (hL : ∀ e ∈ L, entryOK e)
    (f : Nat) (hf : (P ++ entriesText L).length ≤ f) :
    scanRewrite (trySubBare sources) f (P ++ entriesText L) =
      P ++ entriesText L := by
  rw [scanRewrite_passthrough (trySubBare_shrinking sources) (fun c => c = '[')
    (fun c cs hne => trySubBare_none_of_ne sources hne) P _ f
    (fun c hc e => hP (e ▸ hc)) hf]
  rw [scan_entries_id (trySubBare_shrinking sources)
    (fun c cs hne => trySubBare_none_of_ne sources hne)
    (fun n t u T he _ => by
      have hx : trySubBare sources
          ('[' :: (t ++ ']' :: '(' :: (u ++ ')' :: T))) = none :=
        trySubBare_at_title he.2.1.1
          (fun hm => absurd rfl (he.2.1.2.2 ']' hm).1) sources _
      simpa using hx)
    hL _ le_rfl]

theorem pass3_section_id {P : Str}
    (hP : '[' ∉ P) {L : List (Str × Str × Str)} (hL : ∀ e ∈ L, entryOK e)
    (f : Nat) (hf : (P ++ entriesText L).length ≤ f) :
    scanRewrite trySubDup f (P ++ entriesText L) = P ++ entriesText L := by
  rw [scanRewrite_passthrough trySubDup_shrinking (fun c => c = '[')
    (fun c cs hne => trySubDup_none_of_ne hne) P _ f
    (fun c hc e => hP (e ▸ hc)) hf]
  rw [scan_entries_id trySubDup_shrinking
    (fun c cs hne => trySubDup_none_of_ne hne)
    (fun n t u T he hT => by
      have hx : trySubDup
          ('[' :: (t ++ ']' :: '(' :: (u ++ ')' :: T))) = none :=
        trySubDup_at_title he.2.1.1
          (fun hm => absurd rfl (he.2.1.2.2 ']' hm).1) he.2.2.1
          (fun hm => absurd rfl (he.2.2.2 ')' hm).1) hT
      simpa using hx)
    hL _ le_rfl]

theorem normalize_id_section (sources : List (Str × SourceInfo)) {P : Str}
    (hP : '[' ∉ P) {L : List (Str × Str × Str)} (hL : ∀ e ∈ L, entryOK e) :
    normalize_inline_citations (P ++ entriesText L) sources =
      P ++ entriesText L := by
  unfold normalize_inline_citations
  dsimp only
  rw [pass1_section_id sources hP hL _ le_rfl]
  rw [pass2_section_id sources hP hL _ le_rfl]
  rw [pass3_section_id hP hL _ le_rfl]

theorem nlsplit_append {P Q a cs : Str} (h : P ++ Q = a ++ '\n' :: cs) :
    (∃ w, Q = w ++ '\n' :: cs) ∨ (∃ w', P = a ++ '\n' :: w' ∧ cs = w' ++ Q) := by
  rcases List.append_eq_append_iff.mp h with ⟨w, hA, hQ⟩ | ⟨w, hP, hQ⟩
  · exact Or.inl ⟨w, hQ⟩
  · cases w with
    | nil =>
        refine Or.inl ⟨[], ?_⟩
        simpa using hQ.symm
    | cons w0 w1 =>
        obtain ⟨hw0, hcs⟩ := List.cons_eq_cons.mp hQ
        refine Or.inr ⟨w1, ?_, hcs⟩
        rw [hP, ← hw0]

theorem removeCondAt_nil {pat : Str}
    (hpat3 : pat = "**sources:**".data ∨ pat = "## sources".data ∨
      pat = "sources:".data) : removeCondAt pat [] = false := by
  rcases hpat3 with rfl | rfl | rfl <;> rfl

theorem removeCondAt_false_safe {pat : Str}
    (hpat3 : pat = "**sources:**".data ∨ pat = "## sources".data ∨
      pat = "sources:".data) {cs : Str}
    (h : cs = [] ∨ ∃ d cs', cs = d :: cs' ∧ headerSafe d) :
    removeCondAt pat cs = false := by
  rcases h with rfl | ⟨d, cs', rfl, hd⟩
  · exact removeCondAt_nil hpat3
  · obtain ⟨h1, h2, h3, h4⟩ := hd
    rcases hpat3 with rfl | rfl | rfl
    · unfold removeCondAt
      rw [show ("**sources:**".data : Str) = '*' :: "*sources:**".data from rfl,
        matchCI_none_of_head (ciChar_star_false h4)]
    · unfold removeCondAt
      rw [show ("## sources".data : Str) = '#' :: "# sources".data from rfl,
        matchCI_none_of_head (ciChar_hash_false h3)]
    · unfold removeCondAt
      rw [show ("sources:".data : Str) = 's' :: "ources:".data from rfl,
        matchCI_none_of_head (ciChar_s_false h2 h1)]

theorem removeOne_id {pat s : Str}
    (h : ∀ a cs, s = a ++ '\n' :: cs → removeCondAt pat cs = false) :
    removeOne pat s = s := by
  induction s with
  | nil => rfl
  | cons c s' ih =>
      unfold removeOne
      by_cases hc : c = '\n'
      · subst hc
        have hcond := h [] s' rfl
        rw [if_neg (by simp [hcond])]
        exact congrArg _ (ih (fun a cs e => h ('\n' :: a) cs (by rw [e]; rfl)))
      · rw [if_neg (by simp [hc])]
        exact congrArg _ (ih (fun a cs e => h (c :: a) cs (by rw [e]; rfl)))

theorem removeOne_id_chars {pat : Str}
    (hpat3 : pat = "**sources:**".data ∨ pat = "## sources".data ∨
      pat = "sources:".data) {s : Str} (hs : ∀ c ∈ s, headerSafe c) :
    removeOne pat s = s := by
  apply removeOne_id
  intro a cs he
  cases cs with
  | nil => exact removeCondAt_nil hpat3
  | cons d cs' =>
      have hd : d ∈ s := by
        rw [he]
        simp
      exact removeCondAt_false_safe hpat3 (Or.inr ⟨d, cs', rfl, hs d hd⟩)

theorem removeOne_boundary {pat : Str}
    {body : Str} (hbody : ∀ c ∈ body, headerSafe c) {rest : Str}
    (hcond : removeCondAt pat rest = true)
    (hpat3 : pat = "**sources:**".data ∨ pat = "## sources".data ∨
      pat = "sources:".data) :
    removeOne pat (body ++ '\n' :: rest) = body := by
  induction body with
  | nil =>
      rw [List.nil_append]
      unfold removeOne
      rw [if_pos (by simp [hcond])]
  | cons c body' ih =>
      rw [List.cons_append]
      unfold removeOne
      by_cases hc : c = '\n'
      · subst hc
        have hfalse : removeCondAt pat (body' ++ '\n' :: rest) = false := by
          cases body' with
          | nil =>
              exact removeCondAt_false_safe hpat3
                (Or.inr ⟨'\n', rest, rfl, headerSafe_newline⟩)
          | cons b bs =>
              exact removeCondAt_false_safe hpat3
                (Or.inr ⟨b, bs ++ '\n' :: rest, rfl, hbody b (by simp)⟩)
        rw [if_neg (by simp [hfalse])]
        exact congrArg _ (ih (fun x hx => hbody x (by simp [hx])))
      · rw [if_neg (by simp [hc])]
        exact congrArg _ (ih (fun x hx => hbody x (by simp [hx])))

theorem removeOne_sectioned_id {pat : Str}
    (hpat3 : pat = "**sources:**".data ∨ pat = "## sources".data ∨
      pat = "sources:".data)
    {body hdr tail : Str} (hbody : ∀ c ∈ body, headerSafe c)
    (hhdrnl : '\n' ∉ hdr)
    (hmis : removeCondAt pat (hdr ++ '\n' :: tail) = false)
    (htailsplit : ∀ a cs, tail = a ++ '\n' :: cs →
      cs = [] ∨ ∃ d cs', cs = d :: cs' ∧ headerSafe d)
    (htailhead : tail = [] ∨ ∃ d t', tail = d :: t' ∧ headerSafe d) :
    removeOne pat (body ++ '\n' :: (hdr ++ '\n' :: tail)) =
      body ++ '\n' :: (hdr ++ '\n' :: tail) := by
  apply removeOne_id
  intro a cs he
  rcases nlsplit_append he with ⟨w, hQ⟩ | ⟨w', hP, hcs⟩
  · cases w with
    | nil =>
        have hcs : cs = hdr ++ '\n' :: tail := by
          have h' : hdr ++ '\n' :: tail = cs := by simpa using hQ
          exact h'.symm
        rw [hcs]
        exact hmis
    | cons w0 w1 =>
        have h2 : hdr ++ '\n' :: tail = w1 ++ '\n' :: cs :=
          (List.cons_eq_cons.mp (by simpa using hQ)).2
        rcases nlsplit_append h2 with ⟨v, hQ2⟩ | ⟨v', hP2, -⟩
        · cases v with
          | nil =>
              have hcs2 : cs = tail := by
                have h' : tail = cs := by simpa using hQ2
                exact h'.symm
              rw [hcs2]
              exact removeCondAt_false_safe hpat3 htailhead
          | cons v0 v1 =>
              have h3 : tail = v1 ++ '\n' :: cs :=
                (List.cons_eq_cons.mp (by simpa using hQ2)).2
              exact removeCondAt_false_safe hpat3 (htailsplit v1 cs h3)
        · exact absurd (show ('\n' : Char) ∈ hdr by rw [hP2]; simp) hhdrnl
  · cases w' with
    | nil =>
        rw [hcs]
        exact removeCondAt_false_safe hpat3
          (Or.inr ⟨'\n', hdr ++ '\n' :: tail, by simp, headerSafe_newline⟩)
    | cons b bs =>
        have hbmem : b ∈ body := by
          rw [hP]
          simp
        rw [hcs]
        exact removeCondAt_false_safe hpat3
          (Or.inr ⟨b, bs ++ '\n' :: (hdr ++ '\n' :: tail), by simp,
            hbody b hbmem⟩)

theorem removeCondAt_matching {pat hdr tail : Str}
    (hmatch : matchCI pat (hdr ++ '\n' :: tail) = some ('\n' :: tail))
    {q : Nat} (htw : tail.takeWhile isSpaceC = List.replicate q '\n') :
    removeCondAt pat (hdr ++ '\n' :: tail) = true := by
  unfold removeCondAt
  rw [hmatch]
  dsimp only
  rw [List.takeWhile_cons_of_pos (by decide), htw, ← List.replicate_succ,
    lastAfterNewline_replicate]
  rfl

theorem remove_sectioned {body hdr tail : Str} (hbody : bodyOK body)
    (hhdr : hdr ∈ headerForms) {q : Nat}
    (htw : tail.takeWhile isSpaceC = List.replicate q '\n')
    (htailsplit : ∀ a cs, tail = a ++ '\n' :: cs →
      cs = [] ∨ ∃ d cs', cs = d :: cs' ∧ headerSafe d)
    (htailhead : tail = [] ∨ ∃ d t', tail = d :: t' ∧ headerSafe d) :
    remove_sources_section (body ++ '\n' :: (hdr ++ '\n' :: tail)) =
      rstripWs body := by
  have hbodysafe : ∀ c ∈ body, headerSafe c :=
    fun c hc => bodyOK_headerSafe hbody hc
  unfold remove_sources_section
  rcases (by simpa [headerForms] using hhdr :
      hdr = "**Sources:**".data ∨ hdr = "## Sources".data ∨
        hdr = "Sources:".data) with rfl | rfl | rfl
  · rw [removeOne_boundary hbodysafe
      (removeCondAt_matching (by rfl) htw) (Or.inl rfl)]
    rw [removeOne_id_chars (Or.inr (Or.inl rfl)) hbodysafe]
    rw [removeOne_id_chars (Or.inr (Or.inr rfl)) hbodysafe]
  · rw [removeOne_sectioned_id (Or.inl rfl) hbodysafe (by decide) (by rfl)
      htailsplit htailhead]
    rw [removeOne_boundary hbodysafe
      (removeCondAt_matching (by rfl) htw) (Or.inr (Or.inl rfl))]
    rw [removeOne_id_chars (Or.inr (Or.inr rfl)) hbodysafe]
  · rw [removeOne_sectioned_id (Or.inl rfl) hbodysafe (by decide) (by rfl)
      htailsplit htailhead]
    rw [removeOne_sectioned_id (Or.inr (Or.inl rfl)) hbodysafe (by decide)
      (by rfl) htailsplit htailhead]
    rw [removeOne_boundary hbodysafe
      (removeCondAt_matching (by rfl) htw) (Or.inr (Or.inr rfl))]

theorem entriesText_nlsplit {L : List (Str × Str × Str)}
    (hL : ∀ e ∈ L, entryOK e) :
    ∀ a cs, entriesText L = a ++ '\n' :: cs →
      cs = [] ∨ ∃ d cs', cs = d :: cs' ∧ headerSafe d := by
  induction L with
  | nil =>
      intro a cs h
      rw [show entriesText [] = [] from rfl] at h
      exact absurd h.symm (by simp)
  | cons e rest ih =>
      intro a cs h
      cases rest with
      | nil =>
          rw [entriesText_single] at h
          exact absurd (show ('\n' : Char) ∈ tripleLine e by rw [h]; simp)
            (tripleLine_no_nl (hL e (by simp)))
      | cons e2 t2 =>
          rw [entriesText_cons_cons] at h
          rcases nlsplit_append h with ⟨w, hQ⟩ | ⟨w', hP, -⟩
          · cases w with
            | nil =>
                have hcs : entriesText (e2 :: t2) = cs := by simpa using hQ
                obtain ⟨d, r, hE, hd⟩ :=
                  entriesText_head_digit (hL e2 (by simp)).1
                rw [hcs] at hE
                exact Or.inr ⟨d, r, hE, headerSafe_digit hd⟩
            | cons w0 w1 =>
                have h2 : entriesText (e2 :: t2) = w1 ++ '\n' :: cs :=
                  (List.cons_eq_cons.mp (by simpa using hQ)).2
                exact ih (fun x hx => hL x (by simp [hx])) w1 cs h2
          · exact absurd (show ('\n' : Char) ∈ tripleLine e by rw [hP]; simp)
              (tripleLine_no_nl (hL e (by simp)))

theorem nl_entries_nlsplit {M : List (Str × Str × Str)}
    (hM : ∀ e ∈ M, entryOK e) (hMne : M ≠ []) :
    ∀ a cs, ('\n' :: entriesText M) = a ++ '\n' :: cs →
      cs = [] ∨ ∃ d cs', cs = d :: cs' ∧ headerSafe d := by
  intro a cs h
  cases a with
  | nil =>
      have hcs : entriesText M = cs := by simpa using h
      cases M with
      | nil => exact absurd rfl hMne
      | cons e rest =>
          obtain ⟨d, r, hE, hd⟩ := entriesText_head_digit (hM e (by simp)).1
          rw [hcs] at hE
          exact Or.inr ⟨d, r, hE, headerSafe_digit hd⟩
  | cons a0 a1 =>
      have h2 : entriesText M = a1 ++ '\n' :: cs :=
        (List.cons_eq_cons.mp (by simpa using h)).2
      exact entriesText_nlsplit hM a1 cs h2

theorem mem_rstripWs {s : Str} {c : Char} (h : c ∈ rstripWs s) : c ∈ s := by
  unfold rstripWs at h
  rw [List.mem_reverse] at h
  have h2 := (List.dropWhile_sublist isSpaceC).subset h
  rw [List.mem_reverse] at h2
  exact h2

theorem dropWhile_self {p : Char → Bool} (s : Str) :
    (s.dropWhile p).dropWhile p = s.dropWhile p := by
  cases hd : s.dropWhile p with
  | nil => rfl
  | cons c cs =>
      rw [List.dropWhile_cons_of_neg (by rw [dropWhile_head_false hd]; simp)]

theorem rstripWs_idem (s : Str) : rstripWs (rstripWs s) = rstripWs s := by
  unfold rstripWs
  rw [List.reverse_reverse, dropWhile_self]

theorem sourceEntryLine_eq_tripleLine {p : Str × SourceInfo}
    (hf : p.2.final_url = none) : sourceEntryLine p = tripleLine (toTriple p) := by
  obtain ⟨k, si⟩ := p
  obtain ⟨tt, uu, ff⟩ := si
  simp only at hf
  subst hf
  rfl

theorem entryLines_eq {P : List (Str × SourceInfo)}
    (hf : ∀ p ∈ P, p.2.final_url = none) :
    P.map sourceEntryLine = (P.map toTriple).map tripleLine := by
  rw [List.map_map]
  exact List.map_congr_left (fun p hp => sourceEntryLine_eq_tripleLine (hf p hp))

theorem dict_entries_ok {L : List (Str × Str × Str)} (hL : ∀ e ∈ L, entryOK e)
    {p : Str × SourceInfo} (hp : p ∈ dictOfEntries L) :
    entryOK (toTriple p) ∧ p.2.final_url = none := by
  obtain ⟨e, he, rfl⟩ := mem_dictOfEntries hp
  have h := hL e he
  exact ⟨⟨h.1, h.2.1, h.2.2⟩, rfl⟩

theorem rebuild_shape {m : List (Str × SourceInfo)} (hm : m ≠ [])
    (hf : ∀ p ∈ m, p.2.final_url = none) :
    rebuild_sources_section m =
      '\n' :: ("## Sources".data ++ '\n' :: ('\n' ::
        entriesText ((sortByNat (fun p => natOfDigits p.1) m).map toTriple))) := by
  unfold rebuild_sources_section
  rw [if_neg (by simp [List.isEmpty_iff, hm])]
  rw [entryLines_eq (fun p hp =>
    hf p ((sortByNat_perm (fun q => natOfDigits q.1) m).subset hp))]
  rfl

theorem parse_rebuilt {body' : Str} (hb : bodyOK body')
    {M : List (Str × Str × Str)} (hM : ∀ e ∈ M, entryOK e) (hMne : M ≠ []) :
    parse_sources (body' ++ '\n' :: ("## Sources".data ++ '\n' :: ('\n' ::
      entriesText M))) = dictOfEntries M := by
  cases M with
  | nil => exact absurd rfl hMne
  | cons e rest =>
      obtain ⟨d, r, hE, hd⟩ := entriesText_head_digit (hM e (by simp)).1
      have htw : ('\n' :: entriesText (e :: rest)).takeWhile isSpaceC =
          List.replicate 1 '\n' := by
        rw [List.takeWhile_cons_of_pos (by decide), hE,
          takeWhile_eq_nil_of_head (by simp [digit_not_space hd])]
        rfl
      have hdw : ('\n' :: entriesText (e :: rest)).dropWhile isSpaceC =
          entriesText (e :: rest) := by
        rw [List.dropWhile_cons_of_pos (by decide), hE,
          List.dropWhile_cons_of_neg (by simp [digit_not_space hd])]
      unfold parse_sources
      rw [findSection_at hb (by simp [headerForms]) _ htw, hdw,
        takeUntilTerm_entriesText hM]
      dsimp only
      rw [entriesOf_entriesText hM]

theorem headerForms_no_bracket {hdr : Str} (hhdr : hdr ∈ headerForms) :
    '[' ∉ hdr := by
  rcases (by simpa [headerForms] using hhdr :
      hdr = "**Sources:**".data ∨ hdr = "## Sources".data ∨
        hdr = "Sources:".data) with rfl | rfl | rfl <;> decide

theorem process_sectioned_text (resolver : Str → Option Str)
    {body hdr : Str} (hbody : bodyOK body) (hhdr : hdr ∈ headerForms)
    {L : List (Str × Str × Str)} (hL : ∀ e ∈ L, entryOK e) (hLne : L ≠ []) :
    (process_report resolver false (sectionedReport body hdr L)).text =
      rstripWs body ++ rebuild_sources_section (dictOfEntries L) ∧
    (process_report resolver false (sectionedReport body hdr L)).sources =
      dictOfEntries L ∧
    (process_report resolver false (sectionedReport body hdr L)).errors =
      validate_citations
        (rstripWs body ++ rebuild_sources_section (dictOfEntries L))
        (dictOfEntries L) := by
  obtain ⟨e0, rest0, hL0⟩ : ∃ e0 rest0, L = e0 :: rest0 := by
    cases L with
    | nil => exact absurd rfl hLne
    | cons a b => exact ⟨a, b, rfl⟩
  have hP : '[' ∉ body ++ '\n' :: (hdr ++ ['\n']) := by
    intro hm
    rcases List.mem_append.mp hm with hm | hm
    · exact (hbody '[' hm).2.2.2.2 rfl
    · rcases List.mem_cons.mp hm with h | hm
      · cases h
      · rcases List.mem_append.mp hm with hm | hm
        · exact headerForms_no_bracket hhdr hm
        · rcases List.mem_cons.mp hm with h | h
          · cases h
          · cases h
  have hshape : sectionedReport body hdr L =
      (body ++ '\n' :: (hdr ++ ['\n'])) ++ entriesText L := by
    unfold sectionedReport
    simp
  have hshape2 : (body ++ '\n' :: (hdr ++ ['\n'])) ++ entriesText L =
      body ++ '\n' :: (hdr ++ '\n' :: entriesText L) := by
    simp
  obtain ⟨d, r, hE, hd⟩ : ∃ d r, entriesText L = d :: r ∧ isDigitC d = true := by
    rw [hL0]
    exact entriesText_head_digit (hL e0 (by rw [hL0]; simp)).1
  have htw : (entriesText L).takeWhile isSpaceC = List.replicate 0 '\n' := by
    rw [hE]
    exact takeWhile_eq_nil_of_head (by simp [digit_not_space hd])
  have hhead : entriesText L = [] ∨
      ∃ d' t', entriesText L = d' :: t' ∧ headerSafe d' :=
    Or.inr ⟨d, r, hE, headerSafe_digit hd⟩
  unfold process_report
  rw [parse_sources_sectioned hbody hhdr hL hLne]
  rw [if_neg (by simp [List.isEmpty_iff, dictOfEntries_ne_nil hLne])]
  dsimp only
  rw [if_neg (by simp)]
  rw [hshape, normalize_id_section _ hP hL, hshape2,
    remove_sectioned hbody hhdr htw (entriesText_nlsplit hL) hhead]
  exact ⟨rfl, rfl, rfl⟩

theorem rebuild_sortByNat_eq {m : List (Str × SourceInfo)} (hm : m ≠ []) :
    rebuild_sources_section (sortByNat (fun p => natOfDigits p.1) m) =
      rebuild_sources_section m := by
  have hne' : sortByNat (fun p => natOfDigits p.1) m ≠ [] := by
    intro h0
    apply hm
    have hlen := (sortByNat_perm (fun p => natOfDigits p.1) m).length_eq
    rw [h0] at hlen
    exact List.eq_nil_of_length_eq_zero hlen.symm
  unfold rebuild_sources_section
  rw [if_neg (by simp [List.isEmpty_iff, hne']),
    if_neg (by simp [List.isEmpty_iff, hm])]
  rw [sortByNat_of_sorted _ (sortByNat_sorted (fun p => natOfDigits p.1) m)]

theorem process_rebuilt_text (resolver : Str → Option Str) {body' : Str}
    (hb : bodyOK body') {M : List (Str × Str × Str)}
    (hM : ∀ e ∈ M, entryOK e) (hMne : M ≠ []) :
    (process_report resolver false (body' ++ '\n' :: ("## Sources".data ++
        '\n' :: ('\n' :: entriesText M)))).text =
      rstripWs body' ++ rebuild_sources_section (dictOfEntries M) := by
  obtain ⟨e0, rest0, hM0⟩ : ∃ e0 rest0, M = e0 :: rest0 := by
    cases M with
    | nil => exact absurd rfl hMne
    | cons a b => exact ⟨a, b, rfl⟩
  have hP : '[' ∉ body' ++ '\n' :: ("## Sources".data ++ ['\n', '\n']) := by
    intro hm
    rcases List.mem_append.mp hm with hm | hm
    · exact (hb '[' hm).2.2.2.2 rfl
    · rcases List.mem_cons.mp hm with h | hm
      · cases h
      · rcases List.mem_append.mp hm with hm | hm
        · exact absurd hm (by decide)
        · rcases List.mem_cons.mp hm with h | hm
          · cases h
          · rcases List.mem_cons.mp hm with h | h
            · cases h
            · cases h
  obtain ⟨d, r, hE, hd⟩ : ∃ d r, entriesText M = d :: r ∧ isDigitC d = true := by
    rw [hM0]
    exact entriesText_head_digit (hM e0 (by rw [hM0]; simp)).1
  have htw : ('\n' :: entriesText M).takeWhile isSpaceC =
      List.replicate 1 '\n' := by
    rw [List.takeWhile_cons_of_pos (by decide), hE,
      takeWhile_eq_nil_of_head (by simp [digit_not_space hd])]
    rfl
  have hhead : ('\n' :: entriesText M) = [] ∨
      ∃ d' t', ('\n' :: entriesText M) = d' :: t' ∧ headerSafe d' :=
    Or.inr ⟨'\n', entriesText M, rfl, headerSafe_newline⟩
  have hshape : body' ++ '\n' :: ("## Sources".data ++ '\n' :: ('\n' ::
      entriesText M)) =
      (body' ++ '\n' :: ("## Sources".data ++ ['\n', '\n'])) ++ entriesText M := by
    simp
  have hshape2 : (body' ++ '\n' :: ("## Sources".data ++ ['\n', '\n'])) ++
      entriesText M =
      body' ++ '\n' :: ("## Sources".data ++ '\n' :: ('\n' :: entriesText M)) := by
    simp
  unfold process_report
  rw [parse_rebuilt hb hM hMne]
  rw [if_neg (by simp [List.isEmpty_iff, dictOfEntries_ne_nil hMne])]
  dsimp only
  rw [if_neg (by simp)]
  rw [hshape, normalize_id_section _ hP hM, hshape2,
    remove_sectioned hb (by simp [headerForms]) htw
      (nl_entries_nlsplit hM hMne) hhead]

/-- C1: for a report whose sources section consists of valid `N. [Title](URL)`
entries under a recognised header, processing (without redirect resolution)
deletes the existing section and appends a canonical `## Sources` section whose
entries are the parsed source map sorted by the numeric value of the ordinal;
parsing the processed text yields exactly the same ordinal-to-source map as
parsing the original; and processing is idempotent on the processed text. -/
theorem process_report_roundtrip (resolver : Str → Option Str)
    {body hdr : Str} (hbody : bodyOK body) (hhdr : hdr ∈ headerForms)
    {L : List (Str × Str × Str)} (hL : ∀ e ∈ L, entryOK e) (hLne : L ≠ [])
    (k : Str) :
    (process_report resolver false (sectionedReport body hdr L)).text =
      rstripWs body ++ '\n' :: ("## Sources".data ++ '\n' :: ('\n' ::
        entriesText ((sortByNat (fun p => natOfDigits p.1)
          (dictOfEntries L)).map toTriple))) ∧
    List.Sorted (fun a b => natOfDigits a.1 ≤ natOfDigits b.1)
      (sortByNat (fun p => natOfDigits p.1) (dictOfEntries L)) ∧
    alLookup (parse_sources
        (process_report resolver false (sectionedReport body hdr L)).text) k =
      alLookup (parse_sources (sectionedReport body hdr L)) k ∧
    (process_report resolver false
        (process_report resolver false (sectionedReport body hdr L)).text).text =
      (process_report resolver false (sectionedReport body hdr L)).text := by
  obtain ⟨htext, -, -⟩ := process_sectioned_text resolver hbody hhdr hL hLne
  have hm_pw := dictOfEntries_pairwise L
  have hm_ne := dictOfEntries_ne_nil hLne
  have hperm := sortByNat_perm (fun p => natOfDigits p.1) (dictOfEntries L)
  have hL'_pw : (sortByNat (fun p => natOfDigits p.1)
      (dictOfEntries L)).Pairwise (fun a b => a.1 ≠ b.1) :=
    (hperm.pairwise_iff (fun h => Ne.symm h)).mpr hm_pw
  have hf : ∀ p ∈ dictOfEntries L, p.2.final_url = none :=
    fun p hp => (dict_entries_ok hL hp).2
  have hL'_f : ∀ p ∈ sortByNat (fun p => natOfDigits p.1) (dictOfEntries L),
      p.2.final_url = none := fun p hp => hf p (hperm.subset hp)
  have hM_ok : ∀ e ∈ (sortByNat (fun p => natOfDigits p.1)
      (dictOfEntries L)).map toTriple, entryOK e := by
    intro e he
    obtain ⟨p, hp, rfl⟩ := List.mem_map.mp he
    exact (dict_entries_ok hL (hperm.subset hp)).1
  have hL'_ne : sortByNat (fun p => natOfDigits p.1) (dictOfEntries L) ≠ [] := by
    intro h0
    apply hm_ne
    have hlen := hperm.length_eq
    rw [h0] at hlen
    exact List.eq_nil_of_length_eq_zero hlen.symm
  have hM_ne : (sortByNat (fun p => natOfDigits p.1)
      (dictOfEntries L)).map toTriple ≠ [] := by
    simp [hL'_ne]
  have hb' : bodyOK (rstripWs body) := fun c hc => hbody c (mem_rstripWs hc)
  have htext' : (process_report resolver false
      (sectionedReport body hdr L)).text =
      rstripWs body ++ '\n' :: ("## Sources".data ++ '\n' :: ('\n' ::
        entriesText ((sortByNat (fun p => natOfDigits p.1)
          (dictOfEntries L)).map toTriple))) := by
    rw [htext, rebuild_shape hm_ne hf]
  have hparse2 : parse_sources (process_report resolver false
      (sectionedReport body hdr L)).text =
      sortByNat (fun p => natOfDigits p.1) (dictOfEntries L) := by
    rw [htext', parse_rebuilt hb' hM_ok hM_ne,
      dictOfEntries_map_toTriple hL'_pw hL'_f]
  refine ⟨htext', sortByNat_sorted (fun p => natOfDigits p.1) (dictOfEntries L),
    ?_, ?_⟩
  · rw [hparse2, parse_sources_sectioned hbody hhdr hL hLne]
    exact alLookup_eq_of_perm hperm hL'_pw k
  · rw [htext', process_rebuilt_text resolver hb' hM_ok hM_ne,
      dictOfEntries_map_toTriple hL'_pw hL'_f, rstripWs_idem,
      rebuild_sortByNat_eq hm_ne, rebuild_shape hm_ne hf]

theorem process_report_roundtrip_witness :
    bodyOK "Intro".data ∧ "Sources:".data ∈ headerForms ∧
    entryOK ("2".data, "Beta".data, "http://b".data) ∧
    entryOK ("10".data, "Alpha".data, "http://a".data) ∧ c1L ≠ [] ∧
    ((process_report (fun _ => none) false
        (sectionedReport "Intro".data "Sources:".data c1L)).text =
      rstripWs "Intro".data ++ '\n' :: ("## Sources".data ++ '\n' :: ('\n' ::
        entriesText ((sortByNat (fun p => natOfDigits p.1)
          (dictOfEntries c1L)).map toTriple))) ∧
    List.Sorted (fun a b => natOfDigits a.1 ≤ natOfDigits b.1)
      (sortByNat (fun p => natOfDigits p.1) (dictOfEntries c1L)) ∧
    alLookup (parse_sources
        (process_report (fun _ => none) false
          (sectionedReport "Intro".data "Sources:".data c1L)).text)
        "10".data =
      alLookup (parse_sources
        (sectionedReport "Intro".data "Sources:".data c1L)) "10".data ∧
    (process_report (fun _ => none) false
        (process_report (fun _ => none) false
          (sectionedReport "Intro".data "Sources:".data c1L)).text).text =
      (process_report (fun _ => none) false
        (sectionedReport "Intro".data "Sources:".data c1L)).text) :=
  ⟨by decide, by decide, by decide, by decide, by decide,
    process_report_roundtrip (fun _ => none) (by decide) (by decide)
      (by decide) (by decide) "10".data⟩

theorem tryRef_none_nondigit {d : Char} (hd : isDigitC d = false) (rest : Str) :
    tryRef ('[' :: d :: rest) = none := by
  unfold tryRef
  dsimp only
  rw [if_pos rfl, takeWhile_eq_nil_of_head (by simp [hd])]
  simp

/-- C10: when the sources section lists two entries with the same ordinal,
parsing keeps only the last entry's title and URL for that ordinal, and the
processing pipeline emits no finding about the duplicate: its full findings
list is exactly the generic unused-sources message for that ordinal. -/
theorem parse_duplicate_last_wins (resolver : Str → Option Str)
    {body hdr : Str} (hbody : bodyOK body) (hhdr : hdr ∈ headerForms)
    {k t1 u1 t2 u2 : Str}
    (he1 : entryOK (k, t1, u1)) (he2 : entryOK (k, t2, u2))
    (ht2d : ∀ d r, t2 = d :: r → isDigitC d = false) :
    parse_sources (sectionedReport body hdr [(k, t1, u1), (k, t2, u2)]) =
      [(k, ⟨t2, u2, none⟩)] ∧
    (process_report resolver false
        (sectionedReport body hdr [(k, t1, u1), (k, t2, u2)])).errors =
      ["Unused sources: ".data ++ renderPyList [k]] := by
  have hL : ∀ e ∈ [(k, t1, u1), (k, t2, u2)], entryOK e := by
    intro e he
    rcases List.mem_cons.mp he with rfl | he
    · exact he1
    · rcases List.mem_cons.mp he with rfl | he
      · exact he2
      · cases he
  have hLne : ([(k, t1, u1), (k, t2, u2)] : List (Str × Str × Str)) ≠ [] := by
    simp
  have hdict : dictOfEntries [(k, t1, u1), (k, t2, u2)] =
      [(k, ⟨t2, u2, none⟩)] := by
    unfold dictOfEntries
    simp [alUpsert]
  obtain ⟨-, -, herr⟩ := process_sectioned_text resolver hbody hhdr hL hLne
  refine ⟨?_, ?_⟩
  · rw [parse_sources_sectioned hbody hhdr hL hLne, hdict]
  · rw [herr, hdict]
    have h1 : ([(k, (⟨t2, u2, none⟩ : SourceInfo))] : List (Str × SourceInfo)) ≠
        [] := by simp
    have h2 : ∀ p ∈ ([(k, (⟨t2, u2, none⟩ : SourceInfo))] :
        List (Str × SourceInfo)), p.2.final_url = none := by
      intro p hp
      rw [List.mem_singleton.mp hp]
    have hsing : rebuild_sources_section [(k, (⟨t2, u2, none⟩ : SourceInfo))] =
        '\n' :: ("## Sources".data ++ '\n' :: ('\n' ::
          entriesText [(k, t2, u2)])) := by
      have h3 := rebuild_shape h1 h2
      simpa [sortByNat, insertSorted, toTriple] using h3
    rw [hsing]
    obtain ⟨d, t2', ht2⟩ : ∃ d t2', t2 = d :: t2' := by
      cases ht : t2 with
      | nil => exact absurd ht he2.2.1.1
      | cons a b => exact ⟨a, b, rfl⟩
    have hshape : rstripWs body ++ '\n' :: ("## Sources".data ++ '\n' ::
        ('\n' :: entriesText [(k, t2, u2)])) =
        ((rstripWs body ++ '\n' :: ("## Sources".data ++ ['\n', '\n'])) ++
          (k ++ ['.', ' '])) ++
          ('[' :: (t2 ++ (']' :: '(' :: (u2 ++ [')'])))) := by
      rw [entriesText_single]
      unfold tripleLine
      simp
    have hPmem : ∀ c ∈ (rstripWs body ++ '\n' :: ("## Sources".data ++
        ['\n', '\n'])) ++ (k ++ ['.', ' ']), ¬ c = '[' := by
      intro c hc e
      subst e
      rcases List.mem_append.mp hc with hc | hc
      · rcases List.mem_append.mp hc with hc | hc
        · exact (hbody '[' (mem_rstripWs hc)).2.2.2.2 rfl
        · rcases List.mem_cons.mp hc with h | hc
          · cases h
          · rcases List.mem_append.mp hc with hc | hc
            · exact absurd hc (by decide)
            · exact absurd hc (by decide)
      · rcases List.mem_append.mp hc with hc | hc
        · exact absurd (he1.1.2 '[' hc) (by decide)
        · exact absurd hc (by decide)
    have hnobr : '[' ∉ t2 ++ (']' :: '(' :: (u2 ++ [')'])) := by
      intro hm
      rcases List.mem_append.mp hm with hm | hm
      · exact absurd rfl (he2.2.1.2.2 '[' hm).2.1
      · rcases List.mem_cons.mp hm with h | hm
        · cases h
        · rcases List.mem_cons.mp hm with h | hm
          · cases h
          · rcases List.mem_append.mp hm with hm | hm
            · exact absurd rfl (he2.2.2.2 '[' hm).2.2.1
            · rcases List.mem_cons.mp hm with h | h
              · cases h
              · cases h
    have hnone : tryRef ('[' :: (t2 ++ (']' :: '(' :: (u2 ++ [')'])))) =
        none := by
      rw [ht2, List.cons_append]
      exact tryRef_none_nondigit (ht2d d t2' ht2) _
    have hrefs : citeRefs (rstripWs body ++ '\n' :: ("## Sources".data ++
        '\n' :: ('\n' :: entriesText [(k, t2, u2)]))) = [] := by
      unfold citeRefs
      rw [hshape]
      rw [scanCollect_passthrough tryRef_shrinkingC (fun c => c = '[')
        (fun c cs hne => tryRef_none_of_ne hne) _ _ _ hPmem le_rfl]
      rw [scanCollect_skip tryRef_shrinkingC hnone _ le_rfl]
      rw [scanCollect_nil_of_noBracket tryRef_shrinkingC
        (fun c cs hne => tryRef_none_of_ne hne) hnobr le_rfl]
      rfl
    unfold validate_citations
    rw [hrefs]
    dsimp only
    simp [List.isEmpty_iff, he2.2.2.1, sortByNat, insertSorted]

theorem parse_duplicate_last_wins_witness :
    bodyOK "Intro".data ∧
    entryOK ("3".data, "First".data, "http://one".data) ∧
    entryOK ("3".data, "Second".data, "http://two".data) ∧
    (parse_sources (sectionedReport "Intro".data "## Sources".data
        [("3".data, "First".data, "http://one".data),
         ("3".data, "Second".data, "http://two".data)]) =
      [("3".data, ⟨"Second".data, "http://two".data, none⟩)] ∧
    (process_report (fun _ => none) false
        (sectionedReport "Intro".data "## Sources".data
          [("3".data, "First".data, "http://one".data),
           ("3".data, "Second".data, "http://two".data)])).errors =
      ["Unused sources: ".data ++ renderPyList ["3".data]]) :=
  ⟨by decide, by decide, by decide,
    parse_duplicate_last_wins (fun _ => none) (by decide) (by decide)
      (by decide) (by decide)
      (by
        intro d r h
        obtain ⟨rfl, -⟩ := List.cons_eq_cons.mp h
        decide)⟩
